import Mathlib

/-!
# Verification of the `permutation` Python library

A `Permutation` object of `src/permutation/__init__.py` is an immutable value
fully determined by its stored word `self.__map`, a tuple of positive
integers in canonical (trailing-fixed-point-free) form.  We embed a
permutation value as that stored word, a `List Nat` of 1-based images.
Fallible operations (ones that can raise `ValueError`) return `Option` /
`Except`.
-/

namespace Permutation

/-- `Permutation.__call__`: map an integer through the permutation; values
outside `[1, degree]` are returned unchanged. -/
def applyP (l : List Nat) (i : Nat) : Nat :=
  if 1 ≤ i ∧ i ≤ l.length then l.getD (i - 1) 0 else i

/-- The validation performed by `Permutation.__init__`: every value positive,
no value exceeding the length (else "value missing from input"), no value
repeated. -/
def ValidImage (l : List Nat) : Prop :=
  (∀ x ∈ l, 1 ≤ x ∧ x ≤ l.length) ∧ l.Nodup

instance : DecidablePred ValidImage := by
  intro l
  unfold ValidImage
  infer_instance

/-- The canonicalization loop of `Permutation.__init__`
(`while d > 0 and img[d - 1] == d: d -= 1`), phrased on the reversed word:
drop leading entries of the reversed word equal to the current length. -/
def trimRevAux : List Nat → Nat → List Nat
  | [], _ => []
  | a :: r, n => if a = n then trimRevAux r (n - 1) else a :: r

/-- Trailing-fixed-point trimming: `img[:d]` after the canonicalization
loop of `Permutation.__init__`. -/
def trimFixed (l : List Nat) : List Nat :=
  (trimRevAux l.reverse l.length).reverse

/-- Canonical form: the stored word never ends with a fixed point, i.e. the
last entry differs from its own 1-based position (the length). -/
def Canonical (l : List Nat) : Prop := l.getLast? ≠ some l.length

instance : DecidablePred Canonical := by
  intro l
  unfold Canonical
  infer_instance

/-- `Permutation.__init__`: validate the word, then trim trailing fixed
points.  Returns `none` where Python raises `ValueError`. -/
def mkPerm (img : List Nat) : Option (List Nat) :=
  if ValidImage img then some (trimFixed img) else none

/-- `Permutation.degree`: length of the stored canonical word. -/
def degree (l : List Nat) : Nat := l.length

/-- `Permutation.__eq__`: equality of the stored canonical words. -/
def permEq (l m : List Nat) : Bool := l == m

/-- `Permutation.__mul__`: the word `p(q(i))` for `i` in
`1 .. max(p.degree, q.degree)`, passed to the constructor. -/
def mulP (p q : List Nat) : Option (List Nat) :=
  mkPerm ((List.range (max p.length q.length)).map (fun i => applyP p (applyP q (i + 1))))

/-- The scatter loop of `Permutation.permute`: `out[self(i + 1) - 1] = xs[i]`
for each index `i`.  Python initializes `out` with `None` placeholders and
casts at the end; for a valid permutation every slot is written exactly once,
and we use `0` as the placeholder. -/
def scatterP (l : List Nat) (xs : List Nat) : List Nat :=
  (List.range xs.length).foldl
    (fun out i => out.set (applyP l (i + 1) - 1) (xs.getD i 0))
    (List.replicate xs.length 0)

/-- `Permutation.permute` restricted to `Nat` sequences (the only use the
library makes of it internally, via `inverse`). -/
def permuteP (l : List Nat) (xs : List Nat) : Option (List Nat) :=
  if xs.length < l.length then none else some (scatterP l xs)

/-- `Permutation.inverse`: `type(self)(*self.permute(range(1, degree + 1)))`. -/
def inverseP (l : List Nat) : Option (List Nat) :=
  match permuteP l (List.range' 1 l.length) with
  | some w => mkPerm w
  | none => none

/-- The successor mapping built by `Permutation.cycle`:
`mapping[v] = cyclist[i + 1]` for `v = cyclist[i]` (wrapping around at the
end), every other value fixed. -/
def cycMap (cyc : List Nat) (i : Nat) : Nat :=
  match cyc.indexOf? i with
  | some k => cyc.getD ((k + 1) % cyc.length) 0
  | none => i

/-- `Permutation.cycle`: validate (positive values, no repeats), then build
the word `mapping.get(i, i)` for `i` in `1 .. maxVal` and hand it to the
constructor. -/
def cycleP (cyc : List Nat) : Option (List Nat) :=
  if (∀ x ∈ cyc, 1 ≤ x) ∧ cyc.Nodup then
    mkPerm ((List.range' 1 (cyc.foldr max 0)).map (cycMap cyc))
  else none

/-- `Permutation.to_image`: the stored word extended by the fixed points
`degree + 1 .. n`; `ValueError` (`none`) when `n < degree`.  (The Python
expression `n or self.degree` only differs from `n` when `n == 0`, which
forces `degree == 0`, where both give the empty image.) -/
def to_image (l : List Nat) (n : Option Nat) : Option (List Nat) :=
  match n with
  | none => some l
  | some n =>
    if n < l.length then none
    else some (l ++ List.range' (l.length + 1) (n - l.length))

/-- The `for i in range(1, len(map2))` search loops of `next_permutation` /
`prev_permutation`, which return the first index `i` in the given index list
with `cmp map2[i-1] map2[i]` (an ascent for `next`, a descent for `prev`). -/
def scanFirst (cmp : Nat → Nat → Bool) (l : List Nat) : List Nat → Option Nat
  | [] => none
  | i :: is => if cmp (l.getD (i - 1) 0) (l.getD i 0) then some i else scanFirst cmp l is

/-- The `j = 0; while not p(map2[j]): j += 1` search loops of
`next_permutation` / `prev_permutation`: index of the first entry satisfying
`p` (`none` models the `IndexError` of running off the end, which never
happens on the reachable inputs). -/
def scanIdx (p : Nat → Bool) : List Nat → Option Nat
  | [] => none
  | a :: t => if p a then some 0 else (scanIdx p t).map (· + 1)

/-- `map2[i], map2[j] = map2[j], map2[i]`. -/
def swapIdx (l : List Nat) (i j : Nat) : List Nat :=
  (l.set i (l.getD j 0)).set j (l.getD i 0)

/-- `map2[:i] = reversed(map2[:i])`. -/
def revPre (l : List Nat) (i : Nat) : List Nat := (l.take i).reverse ++ l.drop i

/-- `Permutation.next_permutation`: find the first ascent `map2[i] >
map2[i-1]`, swap `map2[i]` with the first entry from the left that is smaller
than it, reverse the prefix before `i`, and rebuild; with no ascent, return
`cycle(d, d + 1)` for `d = max(degree, 1)`. -/
def nextPermutation (l : List Nat) : Option (List Nat) :=
  match scanFirst (fun a b => decide (a < b)) l (List.range' 1 (l.length - 1)) with
  | some i =>
    match scanIdx (fun y => decide (y < l.getD i 0)) l with
    | some j => mkPerm (revPre (swapIdx l i j) i)
    | none => none
  | none => cycleP [max l.length 1, max l.length 1 + 1]

/-- The two error classes of `Permutation.prev_permutation`: `ValueError`
(`invalidArgument`) and the supposedly unreachable `AssertionError` (we also
fold the equally unreachable `IndexError` of the inner `while` loop into
`assertionFailure`). -/
inductive PermError where
  | invalidArgument : PermError
  | assertionFailure : PermError
deriving DecidableEq

/-- `Permutation.prev_permutation`: `ValueError` on degree `< 2`; otherwise
the mirror image of `next_permutation` (first descent, first entry from the
left that is greater, reverse the prefix); the fall-through raises
`AssertionError`. -/
def prevPermutation (l : List Nat) : Except PermError (List Nat) :=
  if l.length < 2 then Except.error PermError.invalidArgument
  else
    match scanFirst (fun a b => decide (b < a)) l (List.range' 1 (l.length - 1)) with
    | some i =>
      match scanIdx (fun y => decide (l.getD i 0 < y)) l with
      | some j =>
        match mkPerm (revPre (swapIdx l i j) i) with
        | some r => Except.ok r
        | none => Except.error PermError.invalidArgument
      | none => Except.error PermError.assertionFailure
    | none => Except.error PermError.assertionFailure

/-- The canonical word of `transposition(d + 1, d)`:
`1, 2, ..., d - 1, d + 1, d`. -/
def transpositionWord (d : Nat) : List Nat := List.range' 1 (d - 1) ++ [d + 1, d]

/-- Modelled from the spec (§4.12), which says `next_permutation` swaps
`image[i]` with *"the smallest element to its left that is less than
`image[i]`"*: index of the minimum entry among the first `i` entries that are
below `l[i]`. -/
def minIdxBelow (l : List Nat) (i : Nat) : Option Nat :=
  match (List.range i).filter (fun k => l.getD k 0 < l.getD i 0) with
  | [] => none
  | k0 :: rest => some (rest.foldl (fun b k => if l.getD k 0 < l.getD b 0 then k else b) k0)

/-- Modelled from the spec (§4.12): the claimed `next_permutation` algorithm,
word for word — first ascent, swap with the *smallest* smaller element to the
left, reverse the prefix; fully-descending words step to
`transposition(d + 1, d)`. -/
def nextPermutationSpec (l : List Nat) : Option (List Nat) :=
  match scanFirst (fun a b => decide (a < b)) l (List.range' 1 (l.length - 1)) with
  | some i =>
    match minIdxBelow l i with
    | some j => mkPerm (revPre (swapIdx l i j) i)
    | none => none
  | none => some (transpositionWord (max l.length 1))

/-- The amended spec algorithm: identical to `nextPermutationSpec` except
that `image[i]` is swapped with the *leftmost* element to its left that is
less than `image[i]` (which, the prefix being strictly descending, is the
largest such element). -/
def nextPermutationAmended (l : List Nat) : Option (List Nat) :=
  match scanFirst (fun a b => decide (a < b)) l (List.range' 1 (l.length - 1)) with
  | some i =>
    match scanIdx (fun y => decide (y < l.getD i 0)) (l.take i) with
    | some j => mkPerm (revPre (swapIdx l i j) i)
    | none => none
  | none => some (transpositionWord (max l.length 1))

/-- The index-and-delete scan shared by `right_inversion_count` and
`left_lehmer`: for each `x` in `xs` (a copy of the initial working list),
record the index of `self(x)` in the working list `left`, then delete that
entry.  `none` models the `ValueError` of a failed `list.index`. -/
def ricLoop (l : List Nat) : List Nat → List Nat → Option (List Nat)
  | _, [] => some []
  | left, x :: rest =>
    match left.indexOf? (applyP l x) with
    | some i =>
      match ricLoop l (left.eraseIdx i) rest with
      | some ds => some (i :: ds)
      | none => none
    | none => none

/-- The digit-accumulation loop of `from_factorial_base`: digits are consumed
least-significant first (the Python code enumerates `reversed(digits)` from
1), with the running place value `base`; a digit above its place bound is a
`ValueError`. -/
def facFold : List Nat → Nat → Nat → Nat → Option Nat
  | [], _, _, acc => some acc
  | c :: rest, i, base, acc =>
    if c ≤ i then facFold rest (i + 1) (base * (i + 1)) (acc + c * base) else none

/-- `from_factorial_base`. -/
def from_factorial_base (digits : List Nat) : Option Nat :=
  facFold digits.reverse 1 1 0

/-- `Permutation.left_lehmer`: scan `x` from `degree` down to `1` against the
working list `[degree, ..., 1]`, drop the final digit, and read the rest in
factorial base. -/
def left_lehmer (l : List Nat) : Option Nat :=
  match ricLoop l ((List.range' 1 l.length).reverse) ((List.range' 1 l.length).reverse) with
  | some digits => from_factorial_base digits.dropLast
  | none => none

/-- `Permutation.right_inversion_count` with an explicit `n`
(`ValueError` when `n < degree`). -/
def right_inversion_count (l : List Nat) (n : Nat) : Option (List Nat) :=
  if n < l.length then none
  else ricLoop l (List.range' 1 n) (List.range' 1 n)

/-- `Permutation.lehmer`. -/
def lehmerP (l : List Nat) (n : Nat) : Option Nat :=
  match right_inversion_count l n with
  | some digits => from_factorial_base digits.dropLast
  | none => none

/-- The digit-extraction loop of `to_factorial_base`, producing digits
least-significant first.  Our index `i` is offset by one from the Python
variable, so the divisor of each step is `i + 2`; fuel (the initial `n`)
strictly bounds the number of iterations. -/
def tfbAux : Nat → Nat → Nat → List Nat
  | 0, _, _ => []
  | fuel + 1, n, i => if n = 0 then [] else n % (i + 2) :: tfbAux fuel (n / (i + 2)) (i + 1)

/-- `to_factorial_base`: digits most-significant first, `0` encoding as
`[0]`. -/
def to_factorial_base (n : Nat) : List Nat :=
  if n = 0 then [0] else (tfbAux n n 0).reverse

/-- The mapping-rebuild loop of `from_left_lehmer`: for each digit `c`
(least-significant first), bump every entry `≥ c` and append `c`. -/
def fllLoop : List Nat → List Nat → List Nat
  | mapping, [] => mapping
  | mapping, c :: rest =>
    fllLoop ((mapping.map (fun y => if c ≤ y then y + 1 else y)) ++ [c]) rest

/-- `Permutation.from_left_lehmer`: rebuild the mapping from the factorial
digits of `x` and return `cls(*(len(mapping) - c for c in mapping))`. -/
def from_left_lehmer (x : Nat) : Option (List Nat) :=
  let mapping := fllLoop [0] (to_factorial_base x).reverse
  mkPerm (mapping.map (fun c => mapping.length - c))

/-- Number of left inversions of the value at 0-based position `k`: how many
earlier entries exceed it. -/
def linvAt (l : List Nat) (k : Nat) : Nat :=
  (l.take k).countP (fun y => decide (l.getD k 0 < y))

/-- Mathematical value of an LSB-first factorial-digit list, shifted so that
the digit at relative position `t` has place value `(off + t + 1)! / (off + 1)!`. -/
def facAux : List Nat → Nat → Nat
  | [], _ => 0
  | c :: rest, off => c + (off + 2) * facAux rest (off + 1)

/-- The left-inversion digit vector `[linv 2, ..., linv degree]`,
least-significant first. -/
def lvec (l : List Nat) : List Nat :=
  (List.range (l.length - 1)).map (fun t => linvAt l (t + 1))

/-- Closed form of the left Lehmer code. -/
def leftCode (l : List Nat) : Nat := facAux (lvec l) 0

/-- The digit stream produced by the scan of `left_lehmer`: for each `x`,
the number of *later-scanned* inputs whose image exceeds the image of `x`. -/
def digitsDesc (l : List Nat) : List Nat → List Nat
  | [] => []
  | x :: rest =>
    ((rest.map (applyP l)).countP (fun y => decide (applyP l x < y))) :: digitsDesc l rest

/-- The digit stream produced by the scan of `right_inversion_count`: for
each `x`, the number of later-scanned inputs whose image is below the image
of `x`. -/
def digitsAsc (l : List Nat) : List Nat → List Nat
  | [] => []
  | x :: rest =>
    ((rest.map (applyP l)).countP (fun y => decide (y < applyP l x))) :: digitsAsc l rest

/-- Modelled from the spec (§4.9): the list of all permutations of degree at
most `n`, each represented by its length-`n` image word, in lexicographic
order — every choice of head (taken from the remaining value pool in
increasing order) is followed by all arrangements of the rest.  The fuel
argument equals the pool length at every call. -/
def permsOfAux : Nat → List Nat → List (List Nat)
  | 0, _ => [[]]
  | fuel + 1, s => s.flatMap (fun a => (permsOfAux fuel (s.erase a)).map (a :: ·))

/-- Modelled from the spec (§4.9): all length-`n` permutation words in
lexicographic order. -/
def permsOf (n : Nat) : List (List Nat) := permsOfAux n (List.range' 1 n)

/-- Lexicographic rank of the word `w` among the arrangements of the value
pool `s`. -/
def rankOf : List Nat → List Nat → Nat
  | [], _ => 0
  | c :: rest, s =>
    s.countP (fun y => decide (y < c)) * (s.length - 1).factorial + rankOf rest (s.erase c)

/-- The right-inversion digit at each position of a word: how many later
entries are smaller. -/
def digitsW : List Nat → List Nat
  | [] => []
  | c :: rest => rest.countP (fun y => decide (y < c)) :: digitsW rest

/-- Product of the `len` place values `(off + 2) ⋯ (off + len + 1)`. -/
def placeP : Nat → Nat → Nat
  | _, 0 => 1
  | off, len + 1 => (off + 2) * placeP (off + 1) len

/-- The inner `while True` loop of `Permutation.to_cycles`: starting at `x`,
repeatedly append `x`, read `nxt = cmap[x - 1]`, zero that slot, and move to
`nxt`, stopping when `nxt` equals the starting value.  Returns the collected
cycle and the updated working list.  The Python loop's termination is implicit;
here the fuel strictly bounds the number of iterations. -/
def tcInner : Nat → List Nat → Nat → Nat → List Nat × List Nat
  | 0, cmap, _, _ => ([], cmap)
  | fuel + 1, cmap, x, start =>
    let nxt := cmap.getD (x - 1) 0
    let cmap' := cmap.set (x - 1) 0
    if nxt = start then ([x], cmap')
    else
      let r := tcInner fuel cmap' nxt start
      (x :: r.1, r.2)

/-- The outer `for i in range(len(cmap))` loop of `Permutation.to_cycles`:
skip zeroed or fixed entries, otherwise extract the cycle through `i + 1`. -/
def tcLoop : Nat → List Nat → Nat → List (List Nat)
  | 0, _, _ => []
  | n + 1, cmap, i =>
    if cmap.getD i 0 = 0 ∨ cmap.getD i 0 = i + 1 then tcLoop n cmap (i + 1)
    else
      let r := tcInner cmap.length cmap (i + 1) (i + 1)
      r.1 :: tcLoop n r.2 (i + 1)

/-- `Permutation.to_cycles`. -/
def to_cycles (l : List Nat) : List (List Nat) := tcLoop l.length l 0

/-- One step of the `reduce(operator.mul, starmap(cls.cycle, cycles), cls())`
fold of `Permutation.from_cycles`: multiply the accumulated permutation by the
next cycle, propagating any `ValueError`. -/
def fcStep (acc : Option (List Nat)) (c : List Nat) : Option (List Nat) :=
  match acc, cycleP c with
  | some p, some q => mulP p q
  | _, _ => none

/-- `Permutation.from_cycles`: convert each cycle with `cycle` and fold the
results together with `*`, starting from the identity. -/
def from_cycles (cycles : List (List Nat)) : Option (List Nat) :=
  cycles.foldl fcStep (some [])

/-- The facts about a single `to_cycles` cycle that the round trip uses. -/
def IsCycleOf (l c : List Nat) : Prop :=
  c ≠ [] ∧ c.Nodup ∧ (∀ x ∈ c, 1 ≤ x ∧ x ≤ l.length ∧ applyP l x ≠ x) ∧
  (∀ x ∈ c, applyP l x ∈ c) ∧ (∀ x ∈ c, cycMap c x = applyP l x)

/-- The decimal digit character of `d < 10`. -/
def digitChar (d : Nat) : Char := Char.ofNat (48 + d)

/-- The numeric value of a decimal digit character. -/
def charDigit (c : Char) : Nat := c.toNat - 48

/-- Decimal rendering of a positive number, most-significant digit first; the
fuel strictly bounds the number of divisions by ten. -/
def natCharsAux : Nat → Nat → List Char
  | 0, _ => []
  | fuel + 1, n => if n = 0 then [] else natCharsAux fuel (n / 10) ++ [digitChar (n % 10)]

/-- `str(n)` for a natural number. -/
def natChars (n : Nat) : List Char := if n = 0 then ['0'] else natCharsAux n n

/-- `int(token)` on a string of decimal digits. -/
def parseNat (cs : List Char) : Nat := cs.foldl (fun acc c => 10 * acc + charDigit c) 0

/-- `" ".join`. -/
def spaceJoin : List (List Char) → List Char
  | [] => []
  | [t] => t
  | t :: rest => t ++ ' ' :: spaceJoin rest

/-- One cycle rendered as `"(" + " ".join(map(str, cyc)) + ")"`. -/
def renderCycle (c : List Nat) : List Char := '(' :: (spaceJoin (c.map natChars) ++ [')'])

/-- `Permutation.__str__`, with strings as character lists: the concatenated
rendered cycles, or `"1"` when that string is empty. -/
def strP (l : List Nat) : List Char :=
  if (((to_cycles l).map renderCycle).flatten).isEmpty then ['1']
  else ((to_cycles l).map renderCycle).flatten

/-- The whitespace class of `str.strip` / `\s`. -/
def isSpaceC (c : Char) : Bool := c.isWhitespace

/-- `str.strip`. -/
def stripC (s : List Char) : List Char :=
  ((s.dropWhile isSpaceC).reverse.dropWhile isSpaceC).reverse

/-- Match the tail `[\s,]*\(` of the cycle-separator regex `\)[\s,]*\(`;
returns the remaining input on success.  (Backtracking cannot produce another
outcome: the characters matched by `[\s,]*` can never be `(`.) -/
def matchSep (s : List Char) : Option (List Char) :=
  match s.dropWhile (fun c => isSpaceC c || c == ',') with
  | c :: r => if c = '(' then some r else none
  | [] => none

/-- `re.split(r"\)[\s,]*\(", s)` as a left-to-right scanner; the fuel strictly
bounds the number of consumed characters. -/
def splitCycAux : Nat → List Char → List Char → List (List Char)
  | 0, acc, rest => [acc.reverse ++ rest]
  | _ + 1, acc, [] => [acc.reverse]
  | fuel + 1, acc, c :: rest =>
    if c = ')' then
      match matchSep rest with
      | some rest' => acc.reverse :: splitCycAux fuel [] rest'
      | none => splitCycAux fuel (c :: acc) rest
    else splitCycAux fuel (c :: acc) rest

def splitCycles (s : List Char) : List (List Char) := splitCycAux s.length [] s

/-- Consume one token separator: `\s*,\s*` when a comma follows the leading
whitespace, else the whitespace run `\s+`. -/
def tokSepRest (s : List Char) : List Char :=
  match s.dropWhile isSpaceC with
  | c :: r => if c = ',' then r.dropWhile isSpaceC else s.dropWhile isSpaceC
  | [] => s.dropWhile isSpaceC

/-- `re.split(r"\s*,\s*|\s+", s)` as a scanner. -/
def splitTokAux : Nat → List Char → List Char → List (List Char)
  | 0, acc, rest => [acc.reverse ++ rest]
  | _ + 1, acc, [] => [acc.reverse]
  | fuel + 1, acc, c :: rest =>
    if isSpaceC c || c == ',' then acc.reverse :: splitTokAux fuel [] (tokSepRest (c :: rest))
    else splitTokAux fuel (c :: acc) rest

def splitTokens (s : List Char) : List (List Char) := splitTokAux s.length [] s

/-- A decimal digit character. -/
def isDigitC (c : Char) : Bool := decide (48 ≤ c.toNat) && decide (c.toNat ≤ 57)

/-- The interior of a rendered cycle string: the cycle bodies joined by the
two-character separator `")("`. -/
def cycJoin : List (List Char) → List Char
  | [] => []
  | [b] => b
  | b :: rest => b ++ ')' :: '(' :: cycJoin rest

/-- A token that `int()` accepts in this grammar: nonempty, all digits. -/
def tokenValid (t : List Char) : Bool := !t.isEmpty && t.all isDigitC

/-- `Permutation.parse`, with strings as character lists.  `none` models
`ValueError`, raised for a malformed overall shape or a token `int()`
rejects. -/
def parseP (s : List Char) : Option (List Nat) :=
  if stripC s = ['1'] then some []
  else if (stripC s).head? = some '(' ∧ (stripC s).getLast? = some ')' then
    if (((splitCycles (((stripC s).drop 1).dropLast)).filterMap (fun part =>
          if (stripC part).isEmpty then none else some (splitTokens (stripC part)))).all
        (fun cyc => cyc.all tokenValid)) then
      from_cycles (((splitCycles (((stripC s).drop 1).dropLast)).filterMap (fun part =>
          if (stripC part).isEmpty then none else some (splitTokens (stripC part)))).map
        (fun cyc => cyc.map parseNat))
    else none
  else none

/-! ## Basic facts about trimming -/

theorem trimRevAux_spec (r : List Nat) :
    ∃ k, k ≤ r.length ∧ trimRevAux r r.length = r.drop k ∧
      ∀ j, j < k → r.getD j 0 = r.length - j := by
  induction r with
  | nil => exact ⟨0, by simp [trimRevAux]⟩
  | cons a rest ih =>
    by_cases ha : a = rest.length + 1
    · obtain ⟨k, hk, heq, hdrop⟩ := ih
      refine ⟨k + 1, by simpa using hk, ?_, ?_⟩
      · simpa [trimRevAux, ha] using heq
      · intro j hj
        cases j with
        | zero => simpa [List.getD] using ha
        | succ j' =>
          have := hdrop j' (by omega)
          simpa [List.getD] using this
    · refine ⟨0, by simp, ?_, by omega⟩
      simp [trimRevAux, ha]

theorem trimRevAux_nil_or_head (r : List Nat) :
    trimRevAux r r.length = [] ∨
      ∃ a t, trimRevAux r r.length = a :: t ∧ a ≠ t.length + 1 := by
  induction r with
  | nil => simp [trimRevAux]
  | cons a rest ih =>
    by_cases ha : a = rest.length + 1
    · have h1 : trimRevAux (a :: rest) (a :: rest).length = trimRevAux rest rest.length := by
        simp [trimRevAux, ha]
      rw [h1]
      exact ih
    · right
      refine ⟨a, rest, ?_, by simpa using ha⟩
      simp [trimRevAux, ha]

theorem trimFixed_spec (l : List Nat) :
    ∃ m, m ≤ l.length ∧ trimFixed l = l.take m ∧
      ∀ i, m ≤ i → i < l.length → l.getD i 0 = i + 1 := by
  obtain ⟨k, hk, heq, hdrop⟩ := trimRevAux_spec l.reverse
  refine ⟨l.length - k, by omega, ?_, ?_⟩
  · rw [trimFixed]
    rw [List.length_reverse] at heq
    rw [heq]
    rw [List.reverse_drop, List.reverse_reverse, List.length_reverse]
  · intro i him hil
    have hj : l.length - 1 - i < k := by omega
    have := hdrop (l.length - 1 - i) hj
    have hrev : l.reverse.getD (l.length - 1 - i) 0 = l.getD i 0 := by
      have h1 : l.length - 1 - i < l.length := by omega
      rw [List.getD_eq_getElem?_getD, List.getD_eq_getElem?_getD]
      rw [List.getElem?_eq_getElem (by simpa using h1),
        List.getElem?_eq_getElem hil]
      simp only [Option.getD_some]
      rw [List.getElem_reverse]
      congr 1
      omega
    rw [hrev] at this
    rw [this]
    rw [List.length_reverse]
    omega

theorem canonical_trimFixed (l : List Nat) : Canonical (trimFixed l) := by
  rcases trimRevAux_nil_or_head l.reverse with h | ⟨a, t, h, hne⟩
  · rw [List.length_reverse] at h
    unfold Canonical trimFixed
    rw [h]
    simp
  · rw [List.length_reverse] at h
    unfold Canonical trimFixed
    rw [h]
    intro hcon
    rw [List.getLast?_reverse] at hcon
    simp at hcon
    obtain ⟨h1, h2⟩ := hcon
    exact hne (by omega)

theorem getD_last_of_ne_nil {l : List Nat} (h : l ≠ []) :
    l.getLast? = some (l.getD (l.length - 1) 0) := by
  have hlen : 0 < l.length := List.length_pos.mpr h
  rw [List.getLast?_eq_getLast _ h, List.getLast_eq_getElem]
  rw [List.getD_eq_getElem?_getD, List.getElem?_eq_getElem (by omega)]
  simp

theorem trimFixed_of_canonical {l : List Nat} (h : Canonical l) : trimFixed l = l := by
  obtain ⟨m, hm, heq, hdrop⟩ := trimFixed_spec l
  rcases Nat.lt_or_ge m l.length with hlt | hge
  · exfalso
    apply h
    have hne : l ≠ [] := by
      intro h0
      rw [h0] at hlt
      simp at hlt
    rw [getD_last_of_ne_nil hne]
    have hd := hdrop (l.length - 1) (by omega) (by omega)
    rw [hd]
    congr 1
    omega
  · rw [heq, List.take_of_length_le hge]

/-! ## Basic facts about validity -/

theorem valid_perm_range {l : List Nat} (h : ValidImage l) :
    l.Perm (List.range' 1 l.length) := by
  obtain ⟨hbound, hnodup⟩ := h
  have hsub : l ⊆ List.range' 1 l.length := by
    intro x hx
    obtain ⟨h1, h2⟩ := hbound x hx
    rw [List.mem_range'_1]
    omega
  have hsp := hnodup.subperm hsub
  have hlen : (List.range' 1 l.length).length ≤ l.length := by
    rw [List.length_range']
  exact hsp.perm_of_length_le hlen

theorem valid_take {l : List Nat} (h : ValidImage l) (m : Nat)
    (hdrop : ∀ i, m ≤ i → i < l.length → l.getD i 0 = i + 1) :
    ValidImage (l.take m) := by
  obtain ⟨hbound, hnodup⟩ := h
  by_cases hm : m ≤ l.length
  swap
  · rw [List.take_of_length_le (by omega)]
    exact ⟨hbound, hnodup⟩
  constructor
  · intro x hx
    have hxl : x ∈ l := List.mem_of_mem_take hx
    obtain ⟨h1, h2⟩ := hbound x hxl
    refine ⟨h1, ?_⟩
    rw [List.length_take, Nat.min_eq_left hm]
    by_contra hcon
    push_neg at hcon
    -- x > m, so position x-1 is in the dropped zone and holds value x
    have hx1 : l.getD (x - 1) 0 = x := by
      have := hdrop (x - 1) (by omega) (by omega)
      rw [this]
      omega
    -- x also occurs in the taken zone, at some index < m
    obtain ⟨i, hi, hgi⟩ := List.mem_iff_getElem.mp hx
    rw [List.getElem_take] at hgi
    rw [List.length_take, Nat.min_eq_left hm] at hi
    -- two distinct indices of l holding x contradict Nodup
    have hne : i ≠ x - 1 := by omega
    have hx1' : l[x - 1] = x := by
      have h' := hx1
      rw [List.getD_eq_getElem?_getD, List.getElem?_eq_getElem (by omega : x - 1 < l.length)] at h'
      simpa using h'
    apply hne
    exact (hnodup.getElem_inj_iff).mp (by rw [hgi, hx1'])
  · exact hnodup.sublist (List.take_sublist m l)

theorem applyP_trimFixed (l : List Nat) : applyP (trimFixed l) = applyP l := by
  obtain ⟨m, hm, heq, hdrop⟩ := trimFixed_spec l
  funext x
  rw [heq]
  unfold applyP
  rw [List.length_take, Nat.min_eq_left hm]
  by_cases h1 : 1 ≤ x ∧ x ≤ m
  · rw [if_pos h1, if_pos ⟨h1.1, by omega⟩]
    rw [List.getD_eq_getElem?_getD, List.getD_eq_getElem?_getD]
    rw [List.getElem?_eq_getElem (by rw [List.length_take]; omega),
      List.getElem?_eq_getElem (by omega : x - 1 < l.length)]
    simp only [Option.getD_some]
    rw [List.getElem_take]
  · rw [if_neg h1]
    by_cases h2 : 1 ≤ x ∧ x ≤ l.length
    · rw [if_pos h2]
      have := hdrop (x - 1) (by omega) (by omega)
      rw [this]
      omega
    · rw [if_neg h2]

theorem mkPerm_eq_some {l : List Nat} (h : ValidImage l) :
    mkPerm l = some (trimFixed l) := by
  unfold mkPerm
  rw [if_pos h]

theorem mkPerm_some_elim {l m : List Nat} (h : mkPerm l = some m) :
    ValidImage m ∧ Canonical m ∧ applyP m = applyP l ∧ m = trimFixed l := by
  unfold mkPerm at h
  by_cases hv : ValidImage l
  · rw [if_pos hv] at h
    obtain ⟨k, hk, heq, hdrop⟩ := trimFixed_spec l
    have hm : m = trimFixed l := by exact (Option.some.inj h).symm
    subst hm
    refine ⟨?_, canonical_trimFixed l, applyP_trimFixed l, rfl⟩
    rw [heq]
    exact valid_take hv k hdrop
  · rw [if_neg hv] at h
    exact absurd h (by simp)

/-! ## applyP basics -/

theorem applyP_in {l : List Nat} {x : Nat} (h1 : 1 ≤ x) (h2 : x ≤ l.length) :
    applyP l x = l.getD (x - 1) 0 := by
  unfold applyP
  rw [if_pos ⟨h1, h2⟩]

theorem applyP_out {l : List Nat} {x : Nat} (h : ¬(1 ≤ x ∧ x ≤ l.length)) :
    applyP l x = x := by
  unfold applyP
  rw [if_neg h]

theorem getD_eq_getElem {l : List Nat} {i : Nat} (h : i < l.length) :
    l.getD i 0 = l[i] := by
  rw [List.getD_eq_getElem?_getD, List.getElem?_eq_getElem h]
  simp

theorem getD_append_left {xs ys : List Nat} {n : Nat} (h : n < xs.length) :
    (xs ++ ys).getD n 0 = xs.getD n 0 := by
  rw [List.getD_eq_getElem?_getD, List.getD_eq_getElem?_getD, List.getElem?_append]
  rw [if_pos h]

theorem getD_append_right {xs ys : List Nat} {n : Nat} (h : xs.length ≤ n) :
    (xs ++ ys).getD n 0 = ys.getD (n - xs.length) 0 := by
  rw [List.getD_eq_getElem?_getD, List.getD_eq_getElem?_getD,
    List.getElem?_append_right h]

theorem getD_cons_zero_eq {a : Nat} {t : List Nat} : (a :: t).getD 0 0 = a := rfl

theorem getD_cons_succ_eq {a : Nat} {t : List Nat} {k : Nat} :
    (a :: t).getD (k + 1) 0 = t.getD k 0 := by
  rw [List.getD_eq_getElem?_getD, List.getD_eq_getElem?_getD, List.getElem?_cons_succ]

theorem getD_drop_eq {l : List Nat} {m k : Nat} :
    (l.drop m).getD k 0 = l.getD (m + k) 0 := by
  rw [List.getD_eq_getElem?_getD, List.getD_eq_getElem?_getD, List.getElem?_drop]

theorem getD_take_eq {l : List Nat} {m k : Nat} (h : k < m) :
    (l.take m).getD k 0 = l.getD k 0 := by
  rw [List.getD_eq_getElem?_getD, List.getD_eq_getElem?_getD, List.getElem?_take]
  rw [if_pos h]

theorem getD_reverse_eq {l : List Nat} {k : Nat} (h : k < l.length) :
    l.reverse.getD k 0 = l.getD (l.length - 1 - k) 0 := by
  rw [List.getD_eq_getElem?_getD, List.getD_eq_getElem?_getD,
    List.getElem?_reverse h]

theorem applyP_getElem {l : List Nat} {x : Nat} (h1 : 1 ≤ x) (h2 : x ≤ l.length) :
    applyP l x = l[x - 1] := by
  rw [applyP_in h1 h2, getD_eq_getElem]

theorem applyP_mem {l : List Nat} {x : Nat} (h1 : 1 ≤ x) (h2 : x ≤ l.length) :
    applyP l x ∈ l := by
  rw [applyP_getElem h1 h2]
  exact List.getElem_mem _

theorem applyP_mem_range {l : List Nat} (hv : ValidImage l) {x : Nat}
    (h1 : 1 ≤ x) (h2 : x ≤ l.length) :
    1 ≤ applyP l x ∧ applyP l x ≤ l.length :=
  hv.1 _ (applyP_mem h1 h2)

theorem applyP_le_of_le {l : List Nat} (hv : ValidImage l) {x n : Nat}
    (h1 : 1 ≤ x) (h2 : x ≤ n) (h3 : l.length ≤ n) :
    1 ≤ applyP l x ∧ applyP l x ≤ n := by
  by_cases hin : x ≤ l.length
  · obtain ⟨b1, b2⟩ := applyP_mem_range hv h1 hin
    exact ⟨b1, by omega⟩
  · rw [applyP_out (by omega)]
    omega

theorem word_applyP (l : List Nat) : (List.range' 1 l.length).map (applyP l) = l := by
  apply List.ext_getElem
  · simp
  · intro n h1 h2
    rw [List.getElem_map, List.getElem_range']
    have hx : 1 + 1 * n = n + 1 := by omega
    rw [hx, applyP_getElem (by omega) (by omega)]
    simp

theorem applyP_inj {l : List Nat} (hv : ValidImage l) : Function.Injective (applyP l) := by
  intro x y hxy
  by_cases hx : 1 ≤ x ∧ x ≤ l.length <;> by_cases hy : 1 ≤ y ∧ y ≤ l.length
  · rw [applyP_getElem hx.1 hx.2, applyP_getElem hy.1 hy.2] at hxy
    have := (hv.2.getElem_inj_iff).mp hxy
    omega
  · rw [applyP_out hy] at hxy
    obtain ⟨hb1, hb2⟩ := applyP_mem_range hv hx.1 hx.2
    rw [hxy] at hb1 hb2
    exact absurd ⟨hb1, hb2⟩ hy
  · rw [applyP_out hx] at hxy
    obtain ⟨hb1, hb2⟩ := applyP_mem_range hv hy.1 hy.2
    rw [← hxy] at hb1 hb2
    exact absurd ⟨hb1, hb2⟩ hx
  · rw [applyP_out hx, applyP_out hy] at hxy
    exact hxy

theorem applyP_preimage {l : List Nat} (hv : ValidImage l) {v : Nat}
    (h1 : 1 ≤ v) (h2 : v ≤ l.length) :
    ∃ x, 1 ≤ x ∧ x ≤ l.length ∧ applyP l x = v := by
  have hperm := valid_perm_range hv
  have hvmem : v ∈ l := by
    rw [hperm.mem_iff, List.mem_range'_1]
    omega
  obtain ⟨i, hi, hgi⟩ := List.mem_iff_getElem.mp hvmem
  refine ⟨i + 1, by omega, by omega, ?_⟩
  rw [applyP_getElem (by omega) (by omega)]
  simpa using hgi

theorem canonical_iff_applyP {l : List Nat} (h : l ≠ []) :
    Canonical l ↔ applyP l l.length ≠ l.length := by
  have hpos : 0 < l.length := List.length_pos.mpr h
  unfold Canonical
  rw [getD_last_of_ne_nil h, applyP_in (by omega) (le_refl _)]
  simp

theorem perm_ext_len {l m : List Nat} (hcl : Canonical l)
    (h : ∀ x, applyP l x = applyP m x) : l.length ≤ m.length := by
  by_contra hcon
  push_neg at hcon
  have hl0 : l ≠ [] := by
    intro h0
    rw [h0] at hcon
    simp at hcon
  have h1 := h l.length
  rw [applyP_out (show ¬(1 ≤ l.length ∧ l.length ≤ m.length) by omega)] at h1
  exact (canonical_iff_applyP hl0).mp hcl h1

theorem perm_ext {l m : List Nat} (hcl : Canonical l) (hcm : Canonical m)
    (h : ∀ x, applyP l x = applyP m x) : l = m := by
  have hlen : l.length = m.length :=
    Nat.le_antisymm (perm_ext_len hcl h) (perm_ext_len hcm (fun x => (h x).symm))
  apply List.ext_getElem hlen
  intro n h1 h2
  have hx := h (n + 1)
  have e1 := applyP_getElem (l := l) (x := n + 1) (by omega) (by omega)
  have e2 := applyP_getElem (l := m) (x := n + 1) (by omega) (by omega)
  rw [e1, e2] at hx
  simpa using hx

/-! ## Scatter (`permute`) -/

theorem getD_set_ne {xs : List Nat} {mi j : Nat} {a : Nat} (h : mi ≠ j) :
    (xs.set mi a).getD j 0 = xs.getD j 0 := by
  rw [List.getD_eq_getElem?_getD, List.getD_eq_getElem?_getD, List.getElem?_set, if_neg h]

theorem getD_set_eq {xs : List Nat} {mi : Nat} {a : Nat} (h : mi < xs.length) :
    (xs.set mi a).getD mi 0 = a := by
  rw [List.getD_eq_getElem?_getD, List.getElem?_set, if_pos rfl, if_pos h]
  simp

theorem foldl_set_length (f v : Nat → Nat) (is : List Nat) (init : List Nat) :
    (is.foldl (fun out i => out.set (f i) (v i)) init).length = init.length := by
  induction is generalizing init with
  | nil => rfl
  | cons a t ih =>
    rw [List.foldl_cons, ih, List.length_set]

theorem foldl_set_untouched (f v : Nat → Nat) (is : List Nat) (init : List Nat) (j : Nat)
    (h : ∀ i ∈ is, f i ≠ j) :
    (is.foldl (fun out i => out.set (f i) (v i)) init).getD j 0 = init.getD j 0 := by
  induction is generalizing init with
  | nil => rfl
  | cons a t ih =>
    rw [List.foldl_cons, ih _ (fun i hi => h i (by simp [hi]))]
    exact getD_set_ne (h a (by simp))

theorem foldl_set_hit (f v : Nat → Nat) (is : List Nat) (init : List Nat) (i : Nat)
    (hmem : i ∈ is) (hinj : ∀ i' ∈ is, f i' = f i → i' = i) (hnd : is.Nodup)
    (hlt : f i < init.length) :
    (is.foldl (fun out i => out.set (f i) (v i)) init).getD (f i) 0 = v i := by
  induction is generalizing init with
  | nil => simp at hmem
  | cons a t ih =>
    rw [List.foldl_cons]
    rcases List.mem_cons.mp hmem with rfl | hit
    · have hnotin : i ∉ t := (List.nodup_cons.mp hnd).1
      have huntouched : ∀ i' ∈ t, f i' ≠ f i := by
        intro i' hi' hcon
        exact hnotin (hinj i' (by simp [hi']) hcon ▸ hi')
      rw [foldl_set_untouched _ _ _ _ _ huntouched]
      exact getD_set_eq hlt
    · exact ih _ hit (fun i' hi' h' => hinj i' (List.mem_cons_of_mem _ hi') h')
        (List.nodup_cons.mp hnd).2 (by rw [List.length_set]; exact hlt)

theorem scatterP_length (l xs : List Nat) : (scatterP l xs).length = xs.length := by
  unfold scatterP
  rw [foldl_set_length, List.length_replicate]

theorem inverse_word_spec {l : List Nat} (hv : ValidImage l) :
    ∃ w, permuteP l (List.range' 1 l.length) = some w ∧ w.length = l.length ∧
      (∀ i, 1 ≤ i → i ≤ l.length → applyP w (applyP l i) = i) := by
  set D := l.length with hD
  have hxslen : (List.range' 1 D).length = D := by rw [List.length_range']
  refine ⟨scatterP l (List.range' 1 D), ?_, ?_, ?_⟩
  · unfold permuteP
    rw [if_neg (by omega)]
  · rw [scatterP_length, hxslen]
  · intro i hi1 hi2
    obtain ⟨hb1, hb2⟩ := applyP_mem_range hv hi1 hi2
    have hw : applyP (scatterP l (List.range' 1 D)) (applyP l i) =
        (scatterP l (List.range' 1 D)).getD (applyP l i - 1) 0 := by
      apply applyP_in hb1
      rw [scatterP_length, hxslen]
      exact hb2
    rw [hw]
    unfold scatterP
    rw [hxslen]
    have hfi : applyP l ((i - 1) + 1) - 1 = applyP l i - 1 := by
      congr 2
      omega
    rw [← hfi]
    rw [foldl_set_hit (fun j => applyP l (j + 1) - 1) _ _ _ (i - 1)
      (by rw [List.mem_range]; omega)
      (by
        intro i' hi' h'
        rw [List.mem_range] at hi'
        have h'' : applyP l (i' + 1) - 1 = applyP l ((i - 1) + 1) - 1 := h'
        obtain ⟨c1, c2⟩ := applyP_mem_range hv (show 1 ≤ i' + 1 by omega) (by omega)
        obtain ⟨d1, d2⟩ := applyP_mem_range hv (show 1 ≤ (i - 1) + 1 by omega) (by omega)
        have he : applyP l (i' + 1) = applyP l ((i - 1) + 1) := by omega
        have := applyP_inj hv he
        omega)
      (List.nodup_range D)
      (by
        rw [List.length_replicate]
        show applyP l ((i - 1) + 1) - 1 < D
        obtain ⟨c1, c2⟩ := applyP_mem_range hv (show 1 ≤ (i - 1) + 1 by omega) (by omega)
        omega)]
    rw [List.getD_eq_getElem?_getD, List.getElem?_eq_getElem (by rw [hxslen]; omega)]
    simp only [Option.getD_some]
    rw [List.getElem_range']
    omega

theorem applyP_nil (x : Nat) : applyP [] x = x := by
  unfold applyP
  rw [if_neg (by rintro ⟨h1, h2⟩; simp at h2; omega)]

theorem canonical_nil : Canonical ([] : List Nat) := by
  unfold Canonical
  simp

theorem valid_nil : ValidImage ([] : List Nat) := ⟨by simp, List.nodup_nil⟩

theorem inverse_full {l : List Nat} (hv : ValidImage l) (hc : Canonical l) :
    ∃ w, inverseP l = some w ∧ w.length = l.length ∧
      (∀ x, applyP w (applyP l x) = x) ∧ (∀ x, applyP l (applyP w x) = x) ∧
      ValidImage w ∧ Canonical w := by
  obtain ⟨w, hw, hlen, hleft⟩ := inverse_word_spec hv
  set D := l.length with hD
  have hleft' : ∀ x, applyP w (applyP l x) = x := by
    intro x
    by_cases hx : 1 ≤ x ∧ x ≤ D
    · exact hleft x hx.1 hx.2
    · rw [applyP_out hx, applyP_out (by rw [hlen]; exact hx)]
  have hdesc : ∀ k, k < D → ∃ x, 1 ≤ x ∧ x ≤ D ∧ w.getD k 0 = x ∧ applyP l x = k + 1 := by
    intro k hk
    obtain ⟨x, hx1, hx2, hx3⟩ := applyP_preimage hv (v := k + 1) (by omega) (by omega)
    refine ⟨x, hx1, hx2, ?_, hx3⟩
    have := hleft x hx1 hx2
    rw [hx3] at this
    rw [← this, applyP_in (by omega) (by omega)]
    simp
  have hvw : ValidImage w := by
    constructor
    · intro y hy
      obtain ⟨k, hk, hgk⟩ := List.mem_iff_getElem.mp hy
      obtain ⟨x, hx1, hx2, hx3, _⟩ := hdesc k (by omega)
      rw [getD_eq_getElem (by omega)] at hx3
      rw [hlen]
      rw [hgk] at hx3
      omega
    · rw [List.nodup_iff_injective_get]
      intro k1 k2 hg
      obtain ⟨x1, ha1, ha2, ha3, ha4⟩ := hdesc k1.1 (by have := k1.2; omega)
      obtain ⟨x2, hb1, hb2, hb3, hb4⟩ := hdesc k2.1 (by have := k2.2; omega)
      rw [getD_eq_getElem k1.2] at ha3
      rw [getD_eq_getElem k2.2] at hb3
      simp only [List.get_eq_getElem] at hg
      rw [ha3, hb3] at hg
      rw [hg] at ha4
      rw [hb4] at ha4
      exact Fin.ext (by omega)
  have hcw : Canonical w := by
    rcases Nat.eq_zero_or_pos D with h0 | hpos
    · have : w = [] := List.length_eq_zero.mp (by omega)
      rw [this]
      exact canonical_nil
    · have hw0 : w ≠ [] := by
        intro h0
        have hl0 : w.length = 0 := by rw [h0]; rfl
        omega
      unfold Canonical
      rw [getD_last_of_ne_nil hw0]
      obtain ⟨x, hx1, hx2, hx3, hx4⟩ := hdesc (D - 1) (by omega)
      rw [hlen]
      rw [hx3]
      intro hcon
      have hxD : x = D := by
        have := Option.some.inj hcon
        omega
      rw [hxD] at hx4
      have : applyP l D = D := by rw [hx4]; omega
      exact (canonical_iff_applyP (by
        intro h0
        have hl0 : l.length = 0 := by rw [h0]; rfl
        omega)).mp hc this
  have hright : ∀ x, applyP l (applyP w x) = x := by
    intro x
    by_cases hx : 1 ≤ x ∧ x ≤ D
    · obtain ⟨z, hz1, hz2, hz3⟩ := applyP_preimage hv hx.1 hx.2
      rw [← hz3, hleft z hz1 hz2, hz3]
    · rw [applyP_out (l := w) (by omega), applyP_out hx]
  refine ⟨w, ?_, hlen, hleft', hright, hvw, hcw⟩
  unfold inverseP
  rw [hw]
  show mkPerm w = some w
  rw [mkPerm_eq_some hvw, trimFixed_of_canonical hcw]

theorem mulP_spec {p q : List Nat} (hvp : ValidImage p) (hvq : ValidImage q) :
    ∃ r, mulP p q = some r ∧ ValidImage r ∧ Canonical r ∧
      ∀ x, applyP r x = applyP p (applyP q x) := by
  set n := max p.length q.length with hn
  set w := (List.range n).map (fun i => applyP p (applyP q (i + 1))) with hwdef
  have hwlen : w.length = n := by
    rw [hwdef, List.length_map, List.length_range]
  have happ : ∀ x, applyP w x = applyP p (applyP q x) := by
    intro x
    by_cases hx : 1 ≤ x ∧ x ≤ n
    · rw [applyP_getElem (l := w) hx.1 (by omega)]
      simp only [hwdef]
      rw [List.getElem_map, List.getElem_range]
      have hxx : x - 1 + 1 = x := by omega
      rw [hxx]
    · rw [applyP_out (by rw [hwlen]; exact hx)]
      rw [applyP_out (l := q) (by omega), applyP_out (l := p) (by omega)]
  have hvw : ValidImage w := by
    constructor
    · intro y hy
      rw [hwdef] at hy
      obtain ⟨i, hi, hfi⟩ := List.mem_map.mp hy
      rw [List.mem_range] at hi
      obtain ⟨c1, c2⟩ := applyP_le_of_le hvq (x := i + 1) (n := n) (by omega) (by omega) (by omega)
      obtain ⟨d1, d2⟩ := applyP_le_of_le hvp c1 c2 (by omega)
      rw [← hfi] at *
      rw [hwlen]
      exact ⟨d1, d2⟩
    · rw [hwdef]
      apply List.Nodup.map _ (List.nodup_range n)
      intro a b hab
      have h1 := applyP_inj hvp hab
      have h2 := applyP_inj hvq h1
      omega
  obtain ⟨hvr, hcr, happr, hreq⟩ := mkPerm_some_elim (mkPerm_eq_some hvw)
  refine ⟨trimFixed w, mkPerm_eq_some hvw, hvr, hcr, ?_⟩
  intro x
  rw [congrFun happr x, happ x]

theorem mul_inverse_eq_nil {l w : List Nat} (hv : ValidImage l) (hvw : ValidImage w)
    (hcan : ∀ x, applyP l (applyP w x) = x) : mulP l w = some [] := by
  obtain ⟨r, hr, hvr, hcr, happ⟩ := mulP_spec hv hvw
  have : r = [] := by
    apply perm_ext hcr canonical_nil
    intro x
    rw [happ x, hcan x, applyP_nil]
  rw [this] at hr
  exact hr

/-! ## Extended images and `to_image` -/

theorem trimFixed_concat (xs : List Nat) :
    trimFixed (xs ++ [xs.length + 1]) = trimFixed xs := by
  unfold trimFixed
  have h1 : (xs ++ [xs.length + 1]).reverse = (xs.length + 1) :: xs.reverse := by
    simp
  have h2 : (xs ++ [xs.length + 1]).length = xs.length + 1 := by
    simp
  rw [h1, h2, trimRevAux]
  rw [if_pos rfl]
  simp

theorem ext_image_eq {l : List Nat} (n : Nat) (hn : l.length ≤ n) :
    (List.range' 1 n).map (applyP l) = l ++ List.range' (l.length + 1) (n - l.length) := by
  set D := l.length with hD
  have hsplit : List.range' 1 n = List.range' 1 D ++ List.range' (1 + D) (n - D) := by
    have := List.range'_append 1 D (n - D) 1
    rw [show 1 + 1 * D = 1 + D by omega] at this
    rw [show n - D + D = n by omega] at this
    exact this.symm
  rw [hsplit, List.map_append, word_applyP]
  congr 1
  have hid : ∀ a ∈ List.range' (1 + D) (n - D), applyP l a = a := by
    intro a ha
    rw [List.mem_range'_1] at ha
    exact applyP_out (by omega)
  rw [List.map_congr_left hid]
  have hfid : (fun a : Nat => a) = id := rfl
  rw [hfid, List.map_id]
  congr 1
  omega

theorem mkPerm_ext_image {l : List Nat} (hv : ValidImage l) (hc : Canonical l) (k : Nat) :
    mkPerm (l ++ List.range' (l.length + 1) k) = some l := by
  have hvext : ValidImage (l ++ List.range' (l.length + 1) k) := by
    constructor
    · intro x hx
      rw [List.mem_append] at hx
      rw [List.length_append, List.length_range']
      rcases hx with hx | hx
      · obtain ⟨h1, h2⟩ := hv.1 x hx
        exact ⟨h1, by omega⟩
      · rw [List.mem_range'_1] at hx
        constructor <;> omega
    · rw [List.nodup_append]
      refine ⟨hv.2, List.nodup_range' _ _, ?_⟩
      intro a ha hb
      have h1 := (hv.1 a ha).2
      rw [List.mem_range'_1] at hb
      omega
  rw [mkPerm_eq_some hvext]
  congr 1
  induction k with
  | zero =>
    simp only [List.range'_zero, List.append_nil]
    exact trimFixed_of_canonical hc
  | succ k ih =>
    rw [List.range'_concat, ← List.append_assoc]
    have harr : 1 * k = k := by omega
    rw [harr] at *
    have hlen2 : l.length + 1 + k = (l ++ List.range' (l.length + 1) k).length + 1 := by
      rw [List.length_append, List.length_range']
      omega
    rw [hlen2, trimFixed_concat]
    apply ih
    · constructor
      · intro x hx
        rw [List.mem_append] at hx
        rw [List.length_append, List.length_range']
        rcases hx with hx | hx
        · obtain ⟨h1, h2⟩ := hv.1 x hx
          exact ⟨h1, by omega⟩
        · rw [List.mem_range'_1] at hx
          constructor <;> omega
      · rw [List.nodup_append]
        refine ⟨hv.2, List.nodup_range' _ _, ?_⟩
        intro a ha hb
        have h1 := (hv.1 a ha).2
        rw [List.mem_range'_1] at hb
        omega

/-- C10: `to_image` is a right inverse of the constructor: for `n ≥ degree` it
returns the images of `1 .. n`,rebuilding the original permutation through
the constructor, and it errors exactly when `n < degree`. -/
theorem C10_to_image {l : List Nat} {n : Nat} (hv : ValidImage l) (hc : Canonical l)
    (hn : degree l ≤ n) :
    to_image l (some n) = some ((List.range' 1 n).map (applyP l)) ∧
    mkPerm ((List.range' 1 n).map (applyP l)) = some l ∧
    to_image l none = some ((List.range' 1 (degree l)).map (applyP l)) ∧
    (∀ m, to_image l (some m) = none ↔ m < degree l) := by
  refine ⟨?_, ?_, ?_, ?_⟩
  · simp only [to_image]
    rw [if_neg (by unfold degree at hn; omega)]
    rw [ext_image_eq n hn]
  · rw [ext_image_eq n hn]
    exact mkPerm_ext_image hv hc _
  · simp only [to_image, degree]
    rw [word_applyP]
  · intro m
    simp only [to_image, degree]
    constructor
    · intro h
      by_cases hm : m < l.length
      · exact hm
      · rw [if_neg hm] at h
        exact absurd h (by simp)
    · intro h
      rw [if_pos h]

/-- Witness for C10 at the transposition word `[2, 1]` with `n = 3`. -/
theorem C10_to_image_witness :
    ValidImage [2, 1] ∧ Canonical [2, 1] ∧ degree [2, 1] ≤ 3 ∧
      (to_image [2, 1] (some 3) = some ((List.range' 1 3).map (applyP [2, 1])) ∧
       mkPerm ((List.range' 1 3).map (applyP [2, 1])) = some [2, 1] ∧
       to_image [2, 1] none = some ((List.range' 1 (degree [2, 1])).map (applyP [2, 1])) ∧
       (∀ m, to_image [2, 1] (some m) = none ↔ m < degree [2, 1])) :=
  ⟨by decide, by decide, by decide,
    C10_to_image (by decide) (by decide) (by decide)⟩

/-- C6: `inverse(p)` is a two-sided inverse of `p` under composition, with
the same degree. -/
theorem C6_inverse_two_sided {l : List Nat} (hv : ValidImage l) (hc : Canonical l) :
    ∃ q, inverseP l = some q ∧ mulP l q = some [] ∧ mulP q l = some [] ∧
      degree q = degree l := by
  obtain ⟨w, hw, hlen, hleft, hright, hvw, hcw⟩ := inverse_full hv hc
  exact ⟨w, hw, mul_inverse_eq_nil hv hvw hright, mul_inverse_eq_nil hvw hv hleft, hlen⟩

/-- Witness for C6 at the transposition word `[2, 1]`. -/
theorem C6_inverse_two_sided_witness :
    ValidImage [2, 1] ∧ Canonical [2, 1] ∧
      ∃ q, inverseP [2, 1] = some q ∧ mulP [2, 1] q = some [] ∧
        mulP q [2, 1] = some [] ∧ degree q = degree [2, 1] :=
  ⟨by decide, by decide, C6_inverse_two_sided (by decide) (by decide)⟩

/-! ## Scan-loop characterizations -/

theorem scanIdx_some_iff {p : Nat → Bool} {l : List Nat} {j : Nat} :
    scanIdx p l = some j ↔
      j < l.length ∧ p (l.getD j 0) = true ∧ ∀ k, k < j → p (l.getD k 0) = false := by
  induction l generalizing j with
  | nil => simp [scanIdx]
  | cons a t ih =>
    by_cases hpa : p a = true
    · simp only [scanIdx, hpa, if_true]
      constructor
      · intro h
        have hj : j = 0 := (Option.some.inj h).symm
        subst hj
        exact ⟨by simp, hpa, by omega⟩
      · rintro ⟨h1, h2, h3⟩
        rcases Nat.eq_zero_or_pos j with rfl | hj
        · rfl
        · have h0 := h3 0 hj
          rw [show (a :: t).getD 0 0 = a from rfl] at h0
          rw [h0] at hpa
          exact absurd hpa (by simp)
    · have hpa' : p a = false := by
        revert hpa
        cases p a <;> simp
      simp only [scanIdx, hpa', Bool.false_eq_true, if_false]
      rw [Option.map_eq_some']
      constructor
      · rintro ⟨j', hj', rfl⟩
        obtain ⟨h1, h2, h3⟩ := ih.mp hj'
        refine ⟨by simpa using h1, h2, ?_⟩
        intro k hk
        cases k with
        | zero => exact hpa'
        | succ k' => exact h3 k' (by omega)
      · rintro ⟨h1, h2, h3⟩
        cases j with
        | zero =>
          rw [show (a :: t).getD 0 0 = a from rfl] at h2
          rw [h2] at hpa'
          exact absurd hpa' (by simp)
        | succ j' =>
          refine ⟨j', ih.mpr ⟨by simpa using h1, h2, ?_⟩, rfl⟩
          intro k hk
          exact h3 (k + 1) (by omega)

theorem scanIdx_none_iff {p : Nat → Bool} {l : List Nat} :
    scanIdx p l = none ↔ ∀ k, k < l.length → p (l.getD k 0) = false := by
  induction l with
  | nil => simp [scanIdx]
  | cons a t ih =>
    by_cases hpa : p a = true
    · simp only [scanIdx, hpa, if_true]
      constructor
      · intro h
        exact absurd h (by simp)
      · intro h
        have := h 0 (by simp)
        rw [show (a :: t).getD 0 0 = a from rfl] at this
        rw [this] at hpa
        exact absurd hpa (by simp)
    · have hpa' : p a = false := by
        revert hpa
        cases p a <;> simp
      simp only [scanIdx, hpa', Bool.false_eq_true, if_false]
      rw [Option.map_eq_none']
      rw [ih]
      constructor
      · intro h k hk
        cases k with
        | zero => exact hpa'
        | succ k' => exact h k' (by simpa using hk)
      · intro h k hk
        exact h (k + 1) (by simpa using hk)

theorem scanFirst_some_iff {cmp : Nat → Nat → Bool} {l : List Nat} {s cnt i : Nat} :
    scanFirst cmp l (List.range' s cnt) = some i ↔
      s ≤ i ∧ i < s + cnt ∧ cmp (l.getD (i - 1) 0) (l.getD i 0) = true ∧
        ∀ k, s ≤ k → k < i → cmp (l.getD (k - 1) 0) (l.getD k 0) = false := by
  induction cnt generalizing s with
  | zero =>
    constructor
    · intro h
      exact absurd h (by simp [scanFirst])
    · rintro ⟨h1, h2, _, _⟩
      omega
  | succ cnt ih =>
    rw [List.range'_succ]
    by_cases hcond : cmp (l.getD (s - 1) 0) (l.getD s 0) = true
    · simp only [scanFirst, hcond, if_true]
      constructor
      · intro h
        have hi : i = s := (Option.some.inj h).symm
        subst hi
        exact ⟨le_refl _, by omega, hcond, by omega⟩
      · rintro ⟨h1, h2, h3, h4⟩
        have his : i = s := by
          by_contra hcon
          have := h4 s (le_refl _) (by omega)
          rw [this] at hcond
          exact absurd hcond (by simp)
        rw [his]
    · have hcond' : cmp (l.getD (s - 1) 0) (l.getD s 0) = false := by
        revert hcond
        cases cmp (l.getD (s - 1) 0) (l.getD s 0) <;> simp
      simp only [scanFirst, hcond', Bool.false_eq_true, if_false]
      rw [ih]
      constructor
      · rintro ⟨h1, h2, h3, h4⟩
        refine ⟨by omega, by omega, h3, ?_⟩
        intro k hk1 hk2
        rcases Nat.eq_or_lt_of_le hk1 with rfl | hk3
        · exact hcond'
        · exact h4 k (by omega) hk2
      · rintro ⟨h1, h2, h3, h4⟩
        have his : i ≠ s := by
          intro hcon
          rw [hcon] at h3
          rw [h3] at hcond
          exact hcond rfl
        exact ⟨by omega, by omega, h3, fun k hk1 hk2 => h4 k (by omega) hk2⟩

theorem scanFirst_none_iff {cmp : Nat → Nat → Bool} {l : List Nat} {s cnt : Nat} :
    scanFirst cmp l (List.range' s cnt) = none ↔
      ∀ k, s ≤ k → k < s + cnt → cmp (l.getD (k - 1) 0) (l.getD k 0) = false := by
  induction cnt generalizing s with
  | zero =>
    constructor
    · intro _ k hk1 hk2
      omega
    · intro _
      simp [scanFirst]
  | succ cnt ih =>
    rw [List.range'_succ]
    by_cases hcond : cmp (l.getD (s - 1) 0) (l.getD s 0) = true
    · simp only [scanFirst, hcond, if_true]
      constructor
      · intro h
        exact absurd h (by simp)
      · intro h
        have := h s (le_refl _) (by omega)
        rw [this] at hcond
        exact absurd hcond (by simp)
    · have hcond' : cmp (l.getD (s - 1) 0) (l.getD s 0) = false := by
        revert hcond
        cases cmp (l.getD (s - 1) 0) (l.getD s 0) <;> simp
      simp only [scanFirst, hcond', Bool.false_eq_true, if_false]
      rw [ih]
      constructor
      · intro h k hk1 hk2
        rcases Nat.eq_or_lt_of_le hk1 with rfl | hk3
        · exact hcond'
        · exact h k (by omega) (by omega)
      · intro h k hk1 hk2
        exact h k (by omega) (by omega)

/-! ## Ordering helpers -/

theorem getD_ne_of_idx_ne {l : List Nat} (hnd : l.Nodup) {i j : Nat}
    (hi : i < l.length) (hj : j < l.length) (hne : i ≠ j) :
    l.getD i 0 ≠ l.getD j 0 := by
  rw [getD_eq_getElem hi, getD_eq_getElem hj]
  intro hcon
  exact hne (hnd.getElem_inj_iff.mp hcon)

theorem desc_of_adjacent_aux {l : List Nat} {i : Nat}
    (h : ∀ k, 1 ≤ k → k < i → l.getD k 0 < l.getD (k - 1) 0) :
    ∀ d a, a + d + 1 < i → l.getD (a + d + 1) 0 < l.getD a 0 := by
  intro d
  induction d with
  | zero =>
    intro a ha
    have h1 := h (a + 1) (by omega) (by omega)
    simpa using h1
  | succ d ihd =>
    intro a ha
    have h1 := h (a + d + 2) (by omega) (by omega)
    have h2 := ihd a (by omega)
    have he : a + d + 2 - 1 = a + d + 1 := by omega
    rw [he] at h1
    have he2 : a + (d + 1) + 1 = a + d + 2 := by omega
    rw [he2]
    omega

theorem desc_of_adjacent {l : List Nat} {i : Nat}
    (h : ∀ k, 1 ≤ k → k < i → l.getD k 0 < l.getD (k - 1) 0) :
    ∀ a b, a < b → b < i → l.getD b 0 < l.getD a 0 := by
  intro a b hab hbi
  have hb : a + (b - a - 1) + 1 = b := by omega
  have := desc_of_adjacent_aux h (b - a - 1) a (by omega)
  rw [hb] at this
  exact this

theorem asc_of_adjacent_aux {l : List Nat} {i : Nat}
    (h : ∀ k, 1 ≤ k → k < i → l.getD (k - 1) 0 < l.getD k 0) :
    ∀ d a, a + d + 1 < i → l.getD a 0 < l.getD (a + d + 1) 0 := by
  intro d
  induction d with
  | zero =>
    intro a ha
    have h1 := h (a + 1) (by omega) (by omega)
    simpa using h1
  | succ d ihd =>
    intro a ha
    have h1 := h (a + d + 2) (by omega) (by omega)
    have h2 := ihd a (by omega)
    have he : a + d + 2 - 1 = a + d + 1 := by omega
    rw [he] at h1
    have he2 : a + (d + 1) + 1 = a + d + 2 := by omega
    rw [he2]
    omega

theorem asc_of_adjacent {l : List Nat} {i : Nat}
    (h : ∀ k, 1 ≤ k → k < i → l.getD (k - 1) 0 < l.getD k 0) :
    ∀ a b, a < b → b < i → l.getD a 0 < l.getD b 0 := by
  intro a b hab hbi
  have hb : a + (b - a - 1) + 1 = b := by omega
  have := asc_of_adjacent_aux h (b - a - 1) a (by omega)
  rw [hb] at this
  exact this

/-! ## Swap-and-reverse structure of `next_permutation` / `prev_permutation` -/

theorem valid_of_perm {l m : List Nat} (hp : m.Perm l) (hv : ValidImage l) :
    ValidImage m := by
  constructor
  · intro x hx
    obtain ⟨h1, h2⟩ := hv.1 x (hp.mem_iff.mp hx)
    rw [hp.length_eq]
    exact ⟨h1, h2⟩
  · exact hv.2.perm hp.symm

theorem split_at_idx {l : List Nat} {i : Nat} (hi : i < l.length) :
    l = l.take i ++ l.getD i 0 :: l.drop (i + 1) := by
  have h1 := List.take_append_drop i l
  rw [List.drop_eq_getElem_cons hi] at h1
  rw [getD_eq_getElem hi]
  exact h1.symm

theorem set_split {l : List Nat} {i : Nat} (hi : i < l.length) (v : Nat) :
    l.set i v = l.take i ++ v :: l.drop (i + 1) := by
  conv_lhs => rw [split_at_idx hi]
  rw [List.set_append, if_neg (by rw [List.length_take]; omega)]
  rw [show i - (l.take i).length = 0 by rw [List.length_take]; omega]
  rw [List.set_cons_zero]

theorem set_perm_swap (xs : List Nat) {j : Nat} (hj : j < xs.length) (v : Nat) :
    (xs.set j v ++ [xs.getD j 0]).Perm (xs ++ [v]) := by
  rw [set_split hj v]
  conv_rhs => rw [split_at_idx hj]
  rw [List.append_assoc, List.append_assoc]
  apply List.Perm.append_left
  -- (v :: drop ++ [u]).Perm (u :: drop ++ [v]) where u = xs.getD j 0
  have h1 : (v :: xs.drop (j + 1) ++ [xs.getD j 0]).Perm
      (v :: xs.getD j 0 :: xs.drop (j + 1)) := by
    rw [List.cons_append]
    exact List.Perm.cons v (List.perm_append_singleton _ _)
  have h2 : (v :: xs.getD j 0 :: xs.drop (j + 1)).Perm
      (xs.getD j 0 :: v :: xs.drop (j + 1)) := List.Perm.swap _ _ _
  have h3 : (xs.getD j 0 :: v :: xs.drop (j + 1)).Perm
      (xs.getD j 0 :: (xs.drop (j + 1) ++ [v])) :=
    List.Perm.cons _ (List.perm_append_singleton _ _).symm
  exact h1.trans (h2.trans h3)

theorem swap_revPre_form {l : List Nat} {i j : Nat} (hj : j < i) (hi : i < l.length) :
    revPre (swapIdx l i j) i =
      ((l.take i).set j (l.getD i 0)).reverse ++ l.getD j 0 :: l.drop (i + 1) := by
  have hlen_take : (l.take i).length = i := by
    rw [List.length_take]
    omega
  have h1 : l.set i (l.getD j 0) = l.take i ++ l.getD j 0 :: l.drop (i + 1) :=
    set_split hi _
  have h2 : (l.take i ++ l.getD j 0 :: l.drop (i + 1)).set j (l.getD i 0)
      = (l.take i).set j (l.getD i 0) ++ l.getD j 0 :: l.drop (i + 1) := by
    rw [List.set_append, if_pos (by omega)]
  unfold swapIdx revPre
  rw [h1, h2]
  have hlen_set : ((l.take i).set j (l.getD i 0)).length = i := by
    rw [List.length_set, hlen_take]
  rw [List.take_left' hlen_set, List.drop_left' hlen_set]

theorem swap_rev_perm {l : List Nat} {i j : Nat} (hj : j < i) (hi : i < l.length) :
    (((l.take i).set j (l.getD i 0)).reverse ++ l.getD j 0 :: l.drop (i + 1)).Perm l := by
  have hlen_take : (l.take i).length = i := by
    rw [List.length_take]
    omega
  have hgd : (l.take i).getD j 0 = l.getD j 0 := by
    rw [getD_eq_getElem (by omega), getD_eq_getElem (by omega)]
    exact List.getElem_take _
  refine (List.Perm.append (List.reverse_perm _) (List.Perm.refl _)).trans ?_
  -- goal: (set ++ l[j] :: drop).Perm l
  have hp := set_perm_swap (l.take i) (by omega : j < (l.take i).length) (l.getD i 0)
  rw [hgd] at hp
  -- hp : (set ++ [l[j]]).Perm (take i ++ [l[i]])
  have e1 : ((l.take i).set j (l.getD i 0)) ++ l.getD j 0 :: l.drop (i + 1)
      = (((l.take i).set j (l.getD i 0)) ++ [l.getD j 0]) ++ l.drop (i + 1) := by
    rw [List.append_assoc, List.singleton_append]
  have e2 : (l.take i ++ [l.getD i 0]) ++ l.drop (i + 1)
      = l.take i ++ l.getD i 0 :: l.drop (i + 1) := by
    rw [List.append_assoc, List.singleton_append]
  rw [e1]
  have hstep : ((((l.take i).set j (l.getD i 0)) ++ [l.getD j 0]) ++ l.drop (i + 1)).Perm
      ((l.take i ++ [l.getD i 0]) ++ l.drop (i + 1)) :=
    List.Perm.append hp (List.Perm.refl _)
  rw [e2] at hstep
  rw [← split_at_idx hi] at hstep
  exact hstep

theorem next_word_struct {l : List Nat} (hv : ValidImage l) (hc : Canonical l)
    {i j : Nat} (hj : j < i) (hi : i < l.length) (hjv : l.getD j 0 < l.getD i 0) :
    ValidImage (((l.take i).set j (l.getD i 0)).reverse ++ l.getD j 0 :: l.drop (i + 1)) ∧
    Canonical (((l.take i).set j (l.getD i 0)).reverse ++ l.getD j 0 :: l.drop (i + 1)) ∧
    (((l.take i).set j (l.getD i 0)).reverse ++ l.getD j 0 :: l.drop (i + 1)).length = l.length := by
  have hperm := swap_rev_perm hj hi
  have hvw := valid_of_perm hperm hv
  refine ⟨hvw, ?_, hperm.length_eq⟩
  set w := ((l.take i).set j (l.getD i 0)).reverse ++ l.getD j 0 :: l.drop (i + 1) with hwdef
  have hwl : w.length = l.length := hperm.length_eq
  have hwne : w ≠ [] := by
    intro h0
    have h1 : w.length = 0 := by rw [h0]; rfl
    omega
  have hXlen : (((l.take i).set j (l.getD i 0)).reverse).length = i := by
    rw [List.length_reverse, List.length_set, List.length_take]
    omega
  unfold Canonical
  rw [getD_last_of_ne_nil hwne]
  intro hcon
  have hval := Option.some.inj hcon
  have hlne : l ≠ [] := by
    intro h0
    rw [h0] at hi
    simp at hi
  rw [hwl] at hval
  rcases Nat.lt_or_ge (i + 1) l.length with hlt | hge
  · have hgl : w.getD (l.length - 1) 0 = l.getD (l.length - 1) 0 := by
      simp only [hwdef]
      rw [getD_append_right (by rw [hXlen]; omega)]
      rw [hXlen]
      rw [show l.length - 1 - i = (l.length - 2 - i) + 1 by omega]
      rw [getD_cons_succ_eq, getD_drop_eq]
      congr 1
      omega
    apply hc
    rw [getD_last_of_ne_nil hlne]
    rw [← hgl, hval]
  · have hieq : i + 1 = l.length := by omega
    have hgl : w.getD (l.length - 1) 0 = l.getD j 0 := by
      simp only [hwdef]
      rw [getD_append_right (by rw [hXlen]; omega)]
      rw [hXlen]
      rw [show l.length - 1 - i = 0 by omega]
      rw [getD_cons_zero_eq]
    have hmemi : l.getD i 0 ∈ l := by
      rw [getD_eq_getElem hi]
      exact List.getElem_mem _
    have hbound := (hv.1 _ hmemi).2
    rw [hgl] at hval
    omega

theorem next_ascent_spec {l : List Nat} (hv : ValidImage l) (hc : Canonical l) {i : Nat}
    (hscan : scanFirst (fun a b => decide (a < b)) l (List.range' 1 (l.length - 1)) = some i) :
    ∃ j, 1 ≤ i ∧ i < l.length ∧ j < i ∧
      l.getD j 0 < l.getD i 0 ∧
      (∀ k, k < j → l.getD i 0 < l.getD k 0) ∧
      (∀ a b, a < b → b < i → l.getD b 0 < l.getD a 0) ∧
      scanIdx (fun y => decide (y < l.getD i 0)) l = some j ∧
      nextPermutation l =
        some (((l.take i).set j (l.getD i 0)).reverse ++ l.getD j 0 :: l.drop (i + 1)) := by
  obtain ⟨hs1, hs2, hs3, hs4⟩ := scanFirst_some_iff.mp hscan
  have hilen : i < l.length := by omega
  have hasc : l.getD (i - 1) 0 < l.getD i 0 := of_decide_eq_true hs3
  have hadj : ∀ k, 1 ≤ k → k < i → l.getD k 0 < l.getD (k - 1) 0 := by
    intro k hk1 hk2
    have hf := hs4 k hk1 hk2
    have hne := getD_ne_of_idx_ne hv.2 (i := k - 1) (j := k) (by omega) (by omega) (by omega)
    have := of_decide_eq_false hf
    omega
  have hdesc := desc_of_adjacent hadj
  have hex : scanIdx (fun y => decide (y < l.getD i 0)) l ≠ none := by
    intro hnone
    have := scanIdx_none_iff.mp hnone (i - 1) (by omega)
    exact absurd hasc (of_decide_eq_false this)
  obtain ⟨j, hjeq⟩ := Option.ne_none_iff_exists'.mp hex
  obtain ⟨hjlen, hjp, hjmin⟩ := scanIdx_some_iff.mp hjeq
  have hjlt : l.getD j 0 < l.getD i 0 := of_decide_eq_true hjp
  have hji : j < i := by
    by_contra hcon
    push_neg at hcon
    exact absurd hasc (of_decide_eq_false (hjmin (i - 1) (by omega)))
  have hgreater : ∀ k, k < j → l.getD i 0 < l.getD k 0 := by
    intro k hk
    have hfalse := of_decide_eq_false (hjmin k hk)
    have hne := getD_ne_of_idx_ne hv.2 (i := k) (j := i) (by omega) hilen (by omega)
    omega
  refine ⟨j, hs1, hilen, hji, hjlt, hgreater, hdesc, hjeq, ?_⟩
  simp only [nextPermutation, hscan, hjeq]
  rw [swap_revPre_form hji hilen]
  obtain ⟨hvw, hcw, _⟩ := next_word_struct hv hc hji hilen hjlt
  rw [mkPerm_eq_some hvw, trimFixed_of_canonical hcw]

/-! ## The fully-descending case -/

theorem desc_valid_eq_rev_range {l : List Nat} (hv : ValidImage l)
    (hdesc : ∀ k, 1 ≤ k → k < l.length → l.getD k 0 < l.getD (k - 1) 0) :
    l = (List.range' 1 l.length).reverse := by
  have hperm : l.reverse.Perm (List.range' 1 l.length) :=
    (List.reverse_perm l).trans (valid_perm_range hv)
  have hsorted : List.Sorted (· < ·) l.reverse := by
    unfold List.Sorted
    rw [List.pairwise_iff_getElem]
    intro a b ha hb hab
    rw [List.length_reverse] at ha hb
    rw [List.getElem_reverse, List.getElem_reverse]
    have hlt := desc_of_adjacent hdesc (l.length - 1 - b) (l.length - 1 - a)
      (by omega) (by omega)
    rw [getD_eq_getElem (by omega), getD_eq_getElem (by omega)] at hlt
    exact hlt
  have hsorted2 : List.Sorted (· < ·) (List.range' 1 l.length) := by
    unfold List.Sorted
    exact List.pairwise_lt_range' 1 l.length
  have heq := List.eq_of_perm_of_sorted hperm hsorted hsorted2
  rw [← heq, List.reverse_reverse]

theorem cycMap_pair_fst {d : Nat} : cycMap [d, d + 1] d = d + 1 := by
  unfold cycMap
  have h : List.indexOf? d [d, d + 1] = some 0 := by
    simp [List.indexOf?, List.findIdx?_cons]
  rw [h]
  rfl

theorem cycMap_pair_snd {d : Nat} : cycMap [d, d + 1] (d + 1) = d := by
  unfold cycMap
  have h : List.indexOf? (d + 1) [d, d + 1] = some 1 := by
    simp [List.indexOf?, List.findIdx?_cons]
  rw [h]
  show [d, d + 1].getD ((1 + 1) % [d, d + 1].length) 0 = d
  norm_num

theorem cycMap_pair_other {d x : Nat} (h1 : x ≠ d) (h2 : x ≠ d + 1) :
    cycMap [d, d + 1] x = x := by
  unfold cycMap
  have h : List.indexOf? x [d, d + 1] = none := by
    simp only [List.indexOf?, List.findIdx?_cons, beq_iff_eq]
    rw [if_neg (by omega), if_neg (by omega)]
    rfl
  rw [h]

theorem transpositionWord_valid {d : Nat} (hd : 1 ≤ d) :
    ValidImage (transpositionWord d) ∧ Canonical (transpositionWord d) ∧
      (transpositionWord d).length = d + 1 := by
  have hlen : (transpositionWord d).length = d + 1 := by
    unfold transpositionWord
    rw [List.length_append, List.length_range']
    simp only [List.length_cons, List.length_nil]
    omega
  refine ⟨⟨?_, ?_⟩, ?_, hlen⟩
  · intro x hx
    unfold transpositionWord at hx
    rw [List.mem_append, List.mem_range'_1] at hx
    rw [hlen]
    rcases hx with hx | hx
    · omega
    · simp at hx
      rcases hx with rfl | rfl <;> omega
  · unfold transpositionWord
    rw [List.nodup_append]
    refine ⟨List.nodup_range' _ _, by simp, ?_⟩
    intro a ha hb
    rw [List.mem_range'_1] at ha
    simp at hb
    omega
  · unfold Canonical transpositionWord
    rw [List.getLast?_append]
    rw [show ([d + 1, d] : List Nat).getLast? = some d from rfl]
    simp only [Option.or_some]
    rw [List.length_append, List.length_range']
    intro hcon
    have := Option.some.inj hcon
    simp only [List.length_cons, List.length_nil] at this
    omega

theorem cycleP_transposition {d : Nat} (hd : 1 ≤ d) :
    cycleP [d, d + 1] = some (transpositionWord d) := by
  obtain ⟨hvt, hct, hlent⟩ := transpositionWord_valid hd
  unfold cycleP
  rw [if_pos ⟨by
      intro x hx
      simp at hx
      rcases hx with rfl | rfl <;> omega,
    by simp⟩]
  have hmax : ([d, d + 1].foldr max 0) = d + 1 := by
    simp only [List.foldr]
    omega
  rw [hmax]
  have hword : (List.range' 1 (d + 1)).map (cycMap [d, d + 1]) = transpositionWord d := by
    apply List.ext_getElem
    · rw [List.length_map, List.length_range', hlent]
    · intro n h1 h2
      rw [List.getElem_map, List.getElem_range']
      rw [List.length_map, List.length_range'] at h1
      unfold transpositionWord
      rcases Nat.lt_trichotomy n (d - 1) with hn | hn | hn
      · rw [cycMap_pair_other (by omega) (by omega)]
        rw [List.getElem_append_left (by rw [List.length_range']; omega)]
        rw [List.getElem_range']
      · have hcm : cycMap [d, d + 1] (1 + 1 * n) = d + 1 := by
          rw [show 1 + 1 * n = d by omega]
          exact cycMap_pair_fst
        rw [hcm]
        rw [List.getElem_append_right (by rw [List.length_range']; omega)]
        simp only [List.length_range']
        simp only [show n - (d - 1) = 0 from by omega]
        rfl
      · have hcm : cycMap [d, d + 1] (1 + 1 * n) = d := by
          rw [show 1 + 1 * n = d + 1 by omega]
          exact cycMap_pair_snd
        rw [hcm]
        rw [List.getElem_append_right (by rw [List.length_range']; omega)]
        simp only [List.length_range']
        simp only [show n - (d - 1) = 1 from by omega]
        rfl
  rw [hword, mkPerm_eq_some hvt, trimFixed_of_canonical hct]

theorem next_desc_spec {l : List Nat} (hv : ValidImage l) (hc : Canonical l)
    (hscan : scanFirst (fun a b => decide (a < b)) l (List.range' 1 (l.length - 1)) = none) :
    l = (List.range' 1 l.length).reverse ∧
      nextPermutation l = some (transpositionWord (max l.length 1)) := by
  have hadj : ∀ k, 1 ≤ k → k < l.length → l.getD k 0 < l.getD (k - 1) 0 := by
    intro k hk1 hk2
    have hf := scanFirst_none_iff.mp hscan k hk1 (by omega)
    have hne := getD_ne_of_idx_ne hv.2 (i := k - 1) (j := k) (by omega) (by omega) (by omega)
    have := of_decide_eq_false hf
    omega
  refine ⟨desc_valid_eq_rev_range hv hadj, ?_⟩
  simp only [nextPermutation, hscan]
  exact cycleP_transposition (by omega)

/-! ## `prev_permutation`: mirror analysis and error behaviour -/

theorem length_ne_one {l : List Nat} (hv : ValidImage l) (hc : Canonical l) :
    l.length ≠ 1 := by
  intro h1
  obtain ⟨x, hx⟩ : ∃ x, l = [x] := by
    cases l with
    | nil => simp at h1
    | cons a t =>
      cases t with
      | nil => exact ⟨a, rfl⟩
      | cons b t2 => simp at h1
  subst hx
  obtain ⟨hb1, hb2⟩ := hv.1 x (by simp)
  simp at hb2
  have hx1 : x = 1 := by omega
  subst hx1
  exact hc rfl

theorem asc_valid_eq_range {l : List Nat} (hv : ValidImage l)
    (hadj : ∀ k, 1 ≤ k → k < l.length → l.getD (k - 1) 0 < l.getD k 0) :
    l = List.range' 1 l.length := by
  have hsorted : List.Sorted (· < ·) l := by
    unfold List.Sorted
    rw [List.pairwise_iff_getElem]
    intro a b ha hb hab
    have hlt := asc_of_adjacent hadj a b hab hb
    rw [getD_eq_getElem (by omega), getD_eq_getElem (by omega)] at hlt
    exact hlt
  have hsorted2 : List.Sorted (· < ·) (List.range' 1 l.length) := by
    unfold List.Sorted
    exact List.pairwise_lt_range' 1 l.length
  exact List.eq_of_perm_of_sorted (valid_perm_range hv) hsorted hsorted2

theorem prev_descent_spec {l : List Nat} (hv : ValidImage l) (hc : Canonical l) {i : Nat}
    (hscan : scanFirst (fun a b => decide (b < a)) l (List.range' 1 (l.length - 1)) = some i) :
    ∃ j, 1 ≤ i ∧ i < l.length ∧ j < i ∧
      l.getD i 0 < l.getD j 0 ∧
      (∀ k, k < j → l.getD k 0 < l.getD i 0) ∧
      (∀ a b, a < b → b < i → l.getD a 0 < l.getD b 0) ∧
      scanIdx (fun y => decide (l.getD i 0 < y)) l = some j ∧
      prevPermutation l =
        Except.ok (trimFixed
          (((l.take i).set j (l.getD i 0)).reverse ++ l.getD j 0 :: l.drop (i + 1))) := by
  obtain ⟨hs1, hs2, hs3, hs4⟩ := scanFirst_some_iff.mp hscan
  have hilen : i < l.length := by omega
  have hdescent : l.getD i 0 < l.getD (i - 1) 0 := of_decide_eq_true hs3
  have hadj : ∀ k, 1 ≤ k → k < i → l.getD (k - 1) 0 < l.getD k 0 := by
    intro k hk1 hk2
    have hf := hs4 k hk1 hk2
    have hne := getD_ne_of_idx_ne hv.2 (i := k - 1) (j := k) (by omega) (by omega) (by omega)
    have := of_decide_eq_false hf
    omega
  have hasc := asc_of_adjacent hadj
  have hex : scanIdx (fun y => decide (l.getD i 0 < y)) l ≠ none := by
    intro hnone
    have := scanIdx_none_iff.mp hnone (i - 1) (by omega)
    exact absurd hdescent (of_decide_eq_false this)
  obtain ⟨j, hjeq⟩ := Option.ne_none_iff_exists'.mp hex
  obtain ⟨hjlen, hjp, hjmin⟩ := scanIdx_some_iff.mp hjeq
  have hjgt : l.getD i 0 < l.getD j 0 := of_decide_eq_true hjp
  have hji : j < i := by
    by_contra hcon
    push_neg at hcon
    exact absurd hdescent (of_decide_eq_false (hjmin (i - 1) (by omega)))
  have hsmaller : ∀ k, k < j → l.getD k 0 < l.getD i 0 := by
    intro k hk
    have hfalse := of_decide_eq_false (hjmin k hk)
    have hne := getD_ne_of_idx_ne hv.2 (i := k) (j := i) (by omega) hilen (by omega)
    omega
  refine ⟨j, hs1, hilen, hji, hjgt, hsmaller, hasc, hjeq, ?_⟩
  have hperm := swap_rev_perm hji hilen
  have hvw := valid_of_perm hperm hv
  simp only [prevPermutation, hscan, hjeq, if_neg (show ¬ l.length < 2 by omega)]
  rw [swap_revPre_form hji hilen]
  rw [mkPerm_eq_some hvw]

theorem prev_ok {l : List Nat} (hv : ValidImage l) (hc : Canonical l) (hne : l ≠ []) :
    ∃ r, prevPermutation l = Except.ok r := by
  have hlen1 := length_ne_one hv hc
  have hlen0 : l.length ≠ 0 := by
    intro h0
    exact hne (List.length_eq_zero.mp h0)
  have hlen2 : 2 ≤ l.length := by omega
  cases hscan : scanFirst (fun a b => decide (b < a)) l (List.range' 1 (l.length - 1)) with
  | some i =>
    obtain ⟨j, _, _, _, _, _, _, _, hprev⟩ := prev_descent_spec hv hc hscan
    exact ⟨_, hprev⟩
  | none =>
    exfalso
    have hadj : ∀ k, 1 ≤ k → k < l.length → l.getD (k - 1) 0 < l.getD k 0 := by
      intro k hk1 hk2
      have hf := scanFirst_none_iff.mp hscan k hk1 (by omega)
      have hne' := getD_ne_of_idx_ne hv.2 (i := k - 1) (j := k) (by omega) (by omega) (by omega)
      have := of_decide_eq_false hf
      omega
    have heq := asc_valid_eq_range hv hadj
    have hgl : l.getD (l.length - 1) 0 = l.length := by
      conv_lhs => rw [heq]
      rw [List.length_range']
      rw [getD_eq_getElem (by rw [List.length_range']; omega)]
      rw [List.getElem_range']
      omega
    apply hc
    rw [getD_last_of_ne_nil hne, hgl]

/-- C8: `prev_permutation` fails exactly on the identity (degree 0), always
with the `ValueError` (`InvalidArgument`), never hitting the internal
unreachable-state assertion. -/
theorem C8_prev_error_iff {l : List Nat} (hv : ValidImage l) (hc : Canonical l) :
    ((∃ e, prevPermutation l = Except.error e) ↔ l = []) ∧
      prevPermutation l ≠ Except.error PermError.assertionFailure ∧
      (l = [] → prevPermutation l = Except.error PermError.invalidArgument) := by
  have herr : l = [] → prevPermutation l = Except.error PermError.invalidArgument := by
    intro h0
    subst h0
    rfl
  by_cases hnil : l = []
  · subst hnil
    exact ⟨⟨fun _ => rfl, fun _ => ⟨_, rfl⟩⟩, by intro h; exact absurd (Except.error.inj h) (by simp), herr⟩
  · obtain ⟨r, hr⟩ := prev_ok hv hc hnil
    refine ⟨⟨?_, fun h => absurd h hnil⟩, ?_, herr⟩
    · rintro ⟨e, he⟩
      rw [hr] at he
      exact absurd he (by simp)
    · intro h
      rw [hr] at h
      exact absurd h (by simp)

/-- Witness for C8 at the transposition word `[2, 1]`. -/
theorem C8_prev_error_iff_witness :
    ValidImage [2, 1] ∧ Canonical [2, 1] ∧
      (((∃ e, prevPermutation [2, 1] = Except.error e) ↔ [2, 1] = ([] : List Nat)) ∧
        prevPermutation [2, 1] ≠ Except.error PermError.assertionFailure ∧
        ([2, 1] = ([] : List Nat) →
          prevPermutation [2, 1] = Except.error PermError.invalidArgument)) :=
  ⟨by decide, by decide, C8_prev_error_iff (by decide) (by decide)⟩

/-! ## C3: the spec's description of `next_permutation` -/

/-- C3 counterexample: on the word `[3, 2, 4, 1]` the code swaps `4` with the
*leftmost* smaller element to its left (`3`), not with the smallest one (`2`)
as the spec claims, so the two algorithms disagree. -/
theorem C3_counterexample :
    ValidImage [3, 2, 4, 1] ∧ Canonical [3, 2, 4, 1] ∧
      nextPermutation [3, 2, 4, 1] ≠ nextPermutationSpec [3, 2, 4, 1] := by decide

/-- C3 (amended): `next_permutation` follows the spec's algorithm with
"smallest element to its left that is less than `image[i]`" read as the
*leftmost* such element: scan for the first ascent, swap `image[i]` with the
leftmost element to its left below it, reverse the prefix; with no ascent
return `transposition(d + 1, d)`, `d = max(degree, 1)`. -/
theorem C3_next_follows_amended_algorithm {l : List Nat}
    (hv : ValidImage l) (hc : Canonical l) :
    nextPermutation l = nextPermutationAmended l := by
  cases hscan : scanFirst (fun a b => decide (a < b)) l (List.range' 1 (l.length - 1)) with
  | some i =>
    obtain ⟨j, hi1, hilen, hji, hjlt, hgreater, _, hjeq, hnext⟩ :=
      next_ascent_spec hv hc hscan
    have htake : scanIdx (fun y => decide (y < l.getD i 0)) (l.take i) = some j := by
      rw [scanIdx_some_iff]
      refine ⟨by rw [List.length_take]; omega, ?_, ?_⟩
      · rw [getD_take_eq hji]
        exact decide_eq_true hjlt
      · intro k hk
        rw [getD_take_eq (by omega)]
        have := hgreater k hk
        exact decide_eq_false (by omega)
    simp only [nextPermutationAmended, hscan, htake]
    rw [hnext]
    rw [swap_revPre_form hji hilen]
    obtain ⟨hvw, hcw, _⟩ := next_word_struct hv hc hji hilen hjlt
    rw [mkPerm_eq_some hvw, trimFixed_of_canonical hcw]
  | none =>
    obtain ⟨_, hnext⟩ := next_desc_spec hv hc hscan
    simp only [nextPermutationAmended, hscan]
    rw [hnext]

/-- Witness for the amended C3 theorem at `[3, 2, 4, 1]`. -/
theorem C3_next_follows_amended_algorithm_witness :
    ValidImage [3, 2, 4, 1] ∧ Canonical [3, 2, 4, 1] ∧
      nextPermutation [3, 2, 4, 1] = nextPermutationAmended [3, 2, 4, 1] :=
  ⟨by decide, by decide, C3_next_follows_amended_algorithm (by decide) (by decide)⟩

/-! ## Pointwise description of the swapped-and-reversed word -/

theorem set_getD_self {r : List Nat} {t : Nat} (h : t < r.length) :
    r.set t (r.getD t 0) = r := by
  apply List.ext_getElem (by rw [List.length_set])
  intro n h1 h2
  rw [List.getElem_set]
  split
  · rename_i ht
    subst ht
    rw [getD_eq_getElem h]
  · rfl

theorem reverse_set {r : List Nat} {t : Nat} (h : t < r.length) (a : Nat) :
    r.reverse.set t a = (r.set (r.length - 1 - t) a).reverse := by
  apply List.ext_getElem
    (by rw [List.length_set, List.length_reverse, List.length_reverse, List.length_set])
  intro n h1 h2
  rw [List.length_set, List.length_reverse] at h1
  rw [List.getElem_set, List.getElem_reverse, List.getElem_reverse, List.getElem_set]
  simp only [List.length_set]
  by_cases hn : t = n
  · rw [if_pos hn, if_pos (by omega)]
  · rw [if_neg hn, if_neg (by omega)]

theorem setX_getD {l : List Nat} {i j : Nat} (hj : j < i) (hi : i < l.length)
    {k : Nat} (hk : k < i) :
    ((l.take i).set j (l.getD i 0)).getD k 0 =
      if k = j then l.getD i 0 else l.getD k 0 := by
  by_cases hkj : k = j
  · subst hkj
    rw [if_pos rfl]
    exact getD_set_eq (by rw [List.length_take]; omega)
  · rw [if_neg hkj]
    rw [getD_set_ne (fun h => hkj h.symm)]
    exact getD_take_eq hk

theorem w_form_getD {l : List Nat} {i j : Nat} (hj : j < i) (hi : i < l.length) (k : Nat) :
    (((l.take i).set j (l.getD i 0)).reverse ++ l.getD j 0 :: l.drop (i + 1)).getD k 0 =
      if k < i then (if i - 1 - k = j then l.getD i 0 else l.getD (i - 1 - k) 0)
      else if k = i then l.getD j 0
      else l.getD k 0 := by
  have hXlen : (((l.take i).set j (l.getD i 0)).reverse).length = i := by
    rw [List.length_reverse, List.length_set, List.length_take]
    omega
  rcases Nat.lt_trichotomy k i with hk | hk | hk
  · rw [if_pos hk]
    rw [getD_append_left (by rw [hXlen]; omega)]
    rw [getD_reverse_eq (by rw [List.length_set, List.length_take]; omega)]
    rw [List.length_set, List.length_take]
    rw [show min i l.length - 1 - k = i - 1 - k by omega]
    exact setX_getD hj hi (by omega)
  · subst hk
    rw [if_neg (by omega), if_pos rfl]
    rw [getD_append_right (by omega)]
    rw [hXlen, Nat.sub_self, getD_cons_zero_eq]
  · rw [if_neg (by omega), if_neg (by omega)]
    rw [getD_append_right (by rw [hXlen]; omega)]
    rw [hXlen]
    rw [show k - i = (k - i - 1) + 1 by omega]
    rw [getD_cons_succ_eq, getD_drop_eq]
    congr 1
    omega

theorem setX_desc {l : List Nat} {i j : Nat} (hj : j < i) (hi : i < l.length)
    (hjlt : l.getD j 0 < l.getD i 0)
    (hgreater : ∀ k, k < j → l.getD i 0 < l.getD k 0)
    (hdesc : ∀ a b, a < b → b < i → l.getD b 0 < l.getD a 0) :
    ∀ a b, a < b → b < i →
      ((l.take i).set j (l.getD i 0)).getD b 0 < ((l.take i).set j (l.getD i 0)).getD a 0 := by
  intro a b hab hbi
  rw [setX_getD hj hi hbi, setX_getD hj hi (show a < i by omega)]
  by_cases haj : a = j <;> by_cases hbj : b = j
  · omega
  · rw [if_pos haj, if_neg hbj]
    -- value at a is l[i]; b > a = j, so l[b] < l[j] < l[i]
    have h1 := hdesc j b (by omega) hbi
    omega
  · rw [if_neg haj, if_pos hbj]
    -- value at b is l[i]; a < b = j, so l[a] > l[i]
    have h1 := hgreater a (by omega)
    omega
  · rw [if_neg haj, if_neg hbj]
    exact hdesc a b hab hbi

/-! ## C9: the predecessor of the successor -/

theorem w_asc {l : List Nat} {i j : Nat} (hj : j < i) (hi : i < l.length)
    (hjlt : l.getD j 0 < l.getD i 0)
    (hgreater : ∀ k, k < j → l.getD i 0 < l.getD k 0)
    (hdesc : ∀ a b, a < b → b < i → l.getD b 0 < l.getD a 0) :
    ∀ a b, a < b → b < i →
      (((l.take i).set j (l.getD i 0)).reverse ++ l.getD j 0 :: l.drop (i + 1)).getD a 0 <
      (((l.take i).set j (l.getD i 0)).reverse ++ l.getD j 0 :: l.drop (i + 1)).getD b 0 := by
  intro a b hab hbi
  rw [w_form_getD hj hi a, w_form_getD hj hi b]
  rw [if_pos (by omega), if_pos hbi]
  have hd := setX_desc hj hi hjlt hgreater hdesc (i - 1 - b) (i - 1 - a) (by omega) (by omega)
  rw [setX_getD hj hi (show i - 1 - a < i by omega),
    setX_getD hj hi (show i - 1 - b < i by omega)] at hd
  exact hd

theorem prev_next_ascent {l : List Nat} (hv : ValidImage l) (hc : Canonical l) {i : Nat}
    (hscan : scanFirst (fun a b => decide (a < b)) l (List.range' 1 (l.length - 1)) = some i) :
    ∃ m, nextPermutation l = some m ∧ prevPermutation m = Except.ok l := by
  obtain ⟨j, hi1, hilen, hji, hjlt, hgreater, hdesc, hjeq, hnext⟩ :=
    next_ascent_spec hv hc hscan
  obtain ⟨hvw, hcw, hwlen⟩ := next_word_struct hv hc hji hilen hjlt
  set w := ((l.take i).set j (l.getD i 0)).reverse ++ l.getD j 0 :: l.drop (i + 1) with hwdef
  refine ⟨w, hnext, ?_⟩
  have hw_get := w_form_getD hji hilen
  have hasc := w_asc hji hilen hjlt hgreater hdesc
  rw [← hwdef] at hw_get hasc
  have hwi : w.getD i 0 = l.getD j 0 := by
    rw [hw_get i, if_neg (by omega), if_pos rfl]
  have hwj : w.getD (i - 1 - j) 0 = l.getD i 0 := by
    rw [hw_get (i - 1 - j), if_pos (by omega), if_pos (by omega)]
  have hwi1 : l.getD j 0 < w.getD (i - 1) 0 := by
    rw [hw_get (i - 1), if_pos (by omega)]
    by_cases h0 : i - 1 - (i - 1) = j
    · rw [if_pos h0]
      exact hjlt
    · rw [if_neg h0]
      have h1 := hgreater 0 (by omega)
      have h2 : i - 1 - (i - 1) = 0 := by omega
      rw [h2]
      omega
  have hscan2 : scanFirst (fun a b => decide (b < a)) w (List.range' 1 (w.length - 1)) = some i := by
    rw [scanFirst_some_iff]
    refine ⟨by omega, by omega, ?_, ?_⟩
    · show decide (w.getD i 0 < w.getD (i - 1) 0) = true
      rw [hwi]
      exact decide_eq_true hwi1
    · intro k hk1 hk2
      show decide (w.getD k 0 < w.getD (k - 1) 0) = false
      have := hasc (k - 1) k (by omega) (by omega)
      exact decide_eq_false (by omega)
  have hscan3 : scanIdx (fun y => decide (w.getD i 0 < y)) w = some (i - 1 - j) := by
    rw [scanIdx_some_iff]
    refine ⟨by omega, ?_, ?_⟩
    · show decide (w.getD i 0 < w.getD (i - 1 - j) 0) = true
      rw [hwi, hwj]
      exact decide_eq_true hjlt
    · intro k hk
      show decide (w.getD i 0 < w.getD k 0) = false
      rw [hwi, hw_get k, if_pos (by omega), if_neg (by omega)]
      have := hdesc j (i - 1 - k) (by omega) (by omega)
      exact decide_eq_false (by omega)
  simp only [prevPermutation, hscan2, hscan3, if_neg (show ¬ w.length < 2 by omega)]
  rw [swap_revPre_form (show i - 1 - j < i by omega) (show i < w.length by omega)]
  have hXlen2 : ((l.take i).set j (l.getD i 0)).length = i := by
    rw [List.length_set, List.length_take]
    omega
  have htake : w.take i = ((l.take i).set j (l.getD i 0)).reverse := by
    rw [hwdef]
    exact List.take_left' (by rw [List.length_reverse, hXlen2])
  have hdropw : w.drop (i + 1) = l.drop (i + 1) := by
    rw [hwdef]
    rw [show ((l.take i).set j (l.getD i 0)).reverse ++ l.getD j 0 :: l.drop (i + 1)
        = (((l.take i).set j (l.getD i 0)).reverse ++ [l.getD j 0]) ++ l.drop (i + 1) by
      rw [List.append_assoc]
      rfl]
    exact List.drop_left' (by
      rw [List.length_append, List.length_reverse, hXlen2]
      simp)
  have hrestore : ((w.take i).set (i - 1 - j) (w.getD i 0)).reverse = l.take i := by
    rw [htake, hwi]
    rw [reverse_set (by rw [hXlen2]; omega) (l.getD j 0)]
    rw [hXlen2]
    rw [show i - 1 - (i - 1 - j) = j by omega]
    rw [List.set_set]
    have hval : (l.take i).getD j 0 = l.getD j 0 := getD_take_eq hji
    rw [← hval, set_getD_self (by rw [List.length_take]; omega)]
    rw [List.reverse_reverse]
  rw [hrestore, hwj, hdropw]
  rw [← split_at_idx hilen]
  rw [mkPerm_eq_some hv, trimFixed_of_canonical hc]

theorem valid_range' (n : Nat) : ValidImage (List.range' 1 n) := by
  constructor
  · intro x hx
    rw [List.mem_range'_1] at hx
    rw [List.length_range']
    omega
  · exact List.nodup_range' _ _

theorem canonical_rev_range {D : Nat} (hD : 2 ≤ D) :
    Canonical ((List.range' 1 D).reverse) := by
  unfold Canonical
  rw [List.getLast?_reverse]
  rw [show D = (D - 1) + 1 by omega, List.range'_succ]
  intro hcon
  simp at hcon
  omega

theorem prev_next_desc {l : List Nat} (hv : ValidImage l) (hc : Canonical l)
    (hlen : 2 ≤ l.length)
    (hscan : scanFirst (fun a b => decide (a < b)) l (List.range' 1 (l.length - 1)) = none) :
    ∃ m, nextPermutation l = some m ∧ prevPermutation m = Except.ok l := by
  obtain ⟨heq, hnext⟩ := next_desc_spec hv hc hscan
  have hdmax : max l.length 1 = l.length := by omega
  rw [hdmax] at hnext
  set d := l.length with hd
  obtain ⟨hvt, hct, hlent⟩ := transpositionWord_valid (d := d) (by omega)
  set w := transpositionWord d with hw
  refine ⟨w, hnext, ?_⟩
  have hget : ∀ k, k < d - 1 → w.getD k 0 = k + 1 := by
    intro k hk
    rw [hw]
    unfold transpositionWord
    rw [getD_append_left (by rw [List.length_range']; omega)]
    rw [getD_eq_getElem (by rw [List.length_range']; omega), List.getElem_range']
    omega
  have hget1 : w.getD (d - 1) 0 = d + 1 := by
    rw [hw]
    unfold transpositionWord
    rw [getD_append_right (by rw [List.length_range'])]
    rw [List.length_range']
    rw [show d - 1 - (d - 1) = 0 by omega, getD_cons_zero_eq]
  have hget2 : w.getD d 0 = d := by
    rw [hw]
    unfold transpositionWord
    rw [getD_append_right (by rw [List.length_range']; omega)]
    rw [List.length_range']
    rw [show d - (d - 1) = 1 by omega, getD_cons_succ_eq, getD_cons_zero_eq]
  have hscan2 : scanFirst (fun a b => decide (b < a)) w
      (List.range' 1 (w.length - 1)) = some d := by
    rw [scanFirst_some_iff]
    refine ⟨by omega, by omega, ?_, ?_⟩
    · show decide (w.getD d 0 < w.getD (d - 1) 0) = true
      rw [hget1, hget2]
      exact decide_eq_true (by omega)
    · intro k hk1 hk2
      show decide (w.getD k 0 < w.getD (k - 1) 0) = false
      have hlt : w.getD (k - 1) 0 < w.getD k 0 := by
        rcases Nat.lt_or_ge k (d - 1) with hk3 | hk3
        · rw [hget (k - 1) (by omega), hget k hk3]
          omega
        · have hkd : k = d - 1 := by omega
          subst hkd
          rw [hget1]
          rw [hget (d - 1 - 1) (by omega)]
          omega
      exact decide_eq_false (by omega)
  have hscan3 : scanIdx (fun y => decide (w.getD d 0 < y)) w = some (d - 1) := by
    rw [scanIdx_some_iff]
    refine ⟨by omega, ?_, ?_⟩
    · show decide (w.getD d 0 < w.getD (d - 1) 0) = true
      rw [hget1, hget2]
      exact decide_eq_true (by omega)
    · intro k hk
      show decide (w.getD d 0 < w.getD k 0) = false
      rw [hget2, hget k (by omega)]
      exact decide_eq_false (by omega)
  simp only [prevPermutation, hscan2, hscan3, if_neg (show ¬ w.length < 2 by omega)]
  rw [swap_revPre_form (show d - 1 < d by omega) (show d < w.length by omega)]
  have htaked : (w.take d).set (d - 1) (w.getD d 0) = List.range' 1 d := by
    rw [hget2]
    have ht : w.take d = List.range' 1 (d - 1) ++ [d + 1] := by
      rw [hw]
      unfold transpositionWord
      rw [show ([d + 1, d] : List Nat) = [d + 1] ++ [d] from rfl]
      rw [← List.append_assoc]
      exact List.take_left' (by
        rw [List.length_append, List.length_range']
        simp
        omega)
    rw [ht]
    rw [List.set_append, if_neg (by rw [List.length_range']; omega)]
    rw [List.length_range']
    rw [show d - 1 - (d - 1) = 0 by omega, List.set_cons_zero]
    have hrc : List.range' 1 (d - 1) ++ [d] = List.range' 1 d := by
      have h1 := @List.range'_concat 1 1 (d - 1)
      rw [show 1 + 1 * (d - 1) = d by omega] at h1
      rw [show (d - 1) + 1 = d by omega] at h1
      exact h1.symm
    exact hrc
  have hdropd : w.drop (d + 1) = [] := by
    apply List.drop_eq_nil_of_le
    rw [hlent]
  rw [htaked, hget1, hdropd]
  have hvres : ValidImage ((List.range' 1 d).reverse ++ [d + 1]) := by
    apply valid_of_perm (l := List.range' 1 (d + 1))
    · have hp1 : ((List.range' 1 d).reverse ++ [d + 1]).Perm (List.range' 1 d ++ [d + 1]) :=
        List.Perm.append (List.reverse_perm _) (List.Perm.refl _)
      have hp2 : List.range' 1 d ++ [d + 1] = List.range' 1 (d + 1) := by
        have h1 := @List.range'_concat 1 1 d
        rw [show 1 + 1 * d = d + 1 by omega] at h1
        exact h1.symm
      rw [hp2] at hp1
      exact hp1
    · exact valid_range' (d + 1)
  rw [mkPerm_eq_some hvres]
  have htrim : trimFixed ((List.range' 1 d).reverse ++ [d + 1]) =
      trimFixed ((List.range' 1 d).reverse) := by
    have hlenr : ((List.range' 1 d).reverse).length = d := by
      rw [List.length_reverse, List.length_range']
    rw [show d + 1 = ((List.range' 1 d).reverse).length + 1 by rw [hlenr]]
    exact trimFixed_concat _
  rw [htrim]
  rw [trimFixed_of_canonical (canonical_rev_range (by omega))]
  rw [← heq]

/-- C9: `prev_permutation(next_permutation(p)) == p`, and the inner
`next_permutation` never returns the identity, so `prev_permutation` never
raises. -/
theorem C9_prev_next {l : List Nat} (hv : ValidImage l) (hc : Canonical l) :
    ∃ m, nextPermutation l = some m ∧ prevPermutation m = Except.ok l := by
  cases hscan : scanFirst (fun a b => decide (a < b)) l (List.range' 1 (l.length - 1)) with
  | some i => exact prev_next_ascent hv hc hscan
  | none =>
    rcases Nat.eq_zero_or_pos l.length with h0 | hpos
    · have hl0 : l = [] := List.length_eq_zero.mp h0
      subst hl0
      exact ⟨[2, 1], by decide, by rfl⟩
    · have h1 := length_ne_one hv hc
      exact prev_next_desc hv hc (by omega) hscan

/-- Witness for C9 at the word `[3, 1, 2]`. -/
theorem C9_prev_next_witness :
    ValidImage [3, 1, 2] ∧ Canonical [3, 1, 2] ∧
      ∃ m, nextPermutation [3, 1, 2] = some m ∧ prevPermutation m = Except.ok [3, 1, 2] :=
  ⟨by decide, by decide, C9_prev_next (by decide) (by decide)⟩

/-! ## The index-and-delete scan -/

theorem eraseIdx_indexOf {L : List Nat} {v i : Nat} (h : L.indexOf? v = some i) :
    L.eraseIdx i = L.erase v := by
  induction L generalizing i with
  | nil => exact absurd h (by simp [List.indexOf?, List.findIdx?])
  | cons a t ih =>
    rw [List.indexOf?_cons] at h
    by_cases hav : a = v
    · rw [if_pos (by simp [hav])] at h
      have hi : i = 0 := (Option.some.inj h).symm
      subst hi
      subst hav
      simp [List.eraseIdx, List.erase_cons_head]
    · rw [if_neg (by simp [hav])] at h
      obtain ⟨i', hi', rfl⟩ := Option.map_eq_some'.mp h
      rw [List.erase_cons]
      rw [if_neg (by simp [hav])]
      show (a :: t).eraseIdx (i' + 1) = a :: t.erase v
      rw [List.eraseIdx_cons_succ, ih hi']

theorem sortedDesc_indexOf {L : List Nat} (hs : List.Sorted (· > ·) L) {v : Nat}
    (hv : v ∈ L) :
    L.indexOf? v = some (L.countP (fun y => decide (v < y))) := by
  induction L with
  | nil => simp at hv
  | cons a t ih =>
    rw [List.indexOf?_cons]
    by_cases hav : a = v
    · rw [if_pos (by simp [hav])]
      have hcount : (a :: t).countP (fun y => decide (v < y)) = 0 := by
        rw [List.countP_eq_zero]
        intro b hb
        rcases List.mem_cons.mp hb with rfl | hbt
        · simp [hav]
        · have := List.rel_of_sorted_cons hs b hbt
          simp only [decide_eq_true_eq]
          omega
      rw [hcount]
    · rw [if_neg (by simp [hav])]
      have hvt : v ∈ t := by
        rcases List.mem_cons.mp hv with rfl | hbt
        · exact absurd rfl hav
        · exact hbt
      rw [ih hs.of_cons hvt]
      have ha : v < a := List.rel_of_sorted_cons hs v hvt
      rw [List.countP_cons]
      simp [ha]

theorem sortedAsc_indexOf {L : List Nat} (hs : List.Sorted (· < ·) L) {v : Nat}
    (hv : v ∈ L) :
    L.indexOf? v = some (L.countP (fun y => decide (y < v))) := by
  induction L with
  | nil => simp at hv
  | cons a t ih =>
    rw [List.indexOf?_cons]
    by_cases hav : a = v
    · rw [if_pos (by simp [hav])]
      have hcount : (a :: t).countP (fun y => decide (y < v)) = 0 := by
        rw [List.countP_eq_zero]
        intro b hb
        rcases List.mem_cons.mp hb with rfl | hbt
        · simp [hav]
        · have := List.rel_of_sorted_cons hs b hbt
          simp only [decide_eq_true_eq]
          omega
      rw [hcount]
    · rw [if_neg (by simp [hav])]
      have hvt : v ∈ t := by
        rcases List.mem_cons.mp hv with rfl | hbt
        · exact absurd rfl hav
        · exact hbt
      rw [ih hs.of_cons hvt]
      have ha : a < v := List.rel_of_sorted_cons hs v hvt
      rw [List.countP_cons]
      simp [ha]

theorem ricLoop_desc {l : List Nat} :
    ∀ (xs L : List Nat), List.Sorted (· > ·) L →
      L.Perm (xs.map (applyP l)) →
      ricLoop l L xs = some (digitsDesc l xs) := by
  intro xs
  induction xs with
  | nil => intro L _ _; rfl
  | cons x rest ih =>
    intro L hs hperm
    have hmem : applyP l x ∈ L := hperm.mem_iff.mpr (by simp)
    have hidx := sortedDesc_indexOf hs hmem
    have hcount : L.countP (fun y => decide (applyP l x < y)) =
        (rest.map (applyP l)).countP (fun y => decide (applyP l x < y)) := by
      rw [hperm.countP_eq]
      rw [List.map_cons, List.countP_cons]
      simp
    simp only [ricLoop, hidx]
    rw [eraseIdx_indexOf hidx]
    have hperm2 : (L.erase (applyP l x)).Perm (rest.map (applyP l)) := by
      have h1 := hperm.erase (applyP l x)
      rw [List.map_cons, List.erase_cons_head] at h1
      exact h1
    have hs2 : List.Sorted (· > ·) (L.erase (applyP l x)) :=
      List.Pairwise.sublist (List.erase_sublist _ _) hs
    rw [ih _ hs2 hperm2, hcount]
    rfl

theorem ricLoop_asc {l : List Nat} :
    ∀ (xs L : List Nat), List.Sorted (· < ·) L →
      L.Perm (xs.map (applyP l)) →
      ricLoop l L xs = some (digitsAsc l xs) := by
  intro xs
  induction xs with
  | nil => intro L _ _; rfl
  | cons x rest ih =>
    intro L hs hperm
    have hmem : applyP l x ∈ L := hperm.mem_iff.mpr (by simp)
    have hidx := sortedAsc_indexOf hs hmem
    have hcount : L.countP (fun y => decide (y < applyP l x)) =
        (rest.map (applyP l)).countP (fun y => decide (y < applyP l x)) := by
      rw [hperm.countP_eq]
      rw [List.map_cons, List.countP_cons]
      simp
    simp only [ricLoop, hidx]
    rw [eraseIdx_indexOf hidx]
    have hperm2 : (L.erase (applyP l x)).Perm (rest.map (applyP l)) := by
      have h1 := hperm.erase (applyP l x)
      rw [List.map_cons, List.erase_cons_head] at h1
      exact h1
    have hs2 : List.Sorted (· < ·) (L.erase (applyP l x)) :=
      List.Pairwise.sublist (List.erase_sublist _ _) hs
    rw [ih _ hs2 hperm2, hcount]
    rfl

theorem word_take {l : List Nat} (m : Nat) (hm : m ≤ l.length) :
    (List.range' 1 m).map (applyP l) = l.take m := by
  apply List.ext_getElem
  · rw [List.length_map, List.length_range', List.length_take]
    omega
  · intro n h1 h2
    rw [List.getElem_map, List.getElem_range', List.getElem_take]
    rw [List.length_map, List.length_range'] at h1
    rw [applyP_getElem (by omega) (by omega)]
    congr 1
    omega

theorem digitsDesc_rev_range {l : List Nat} :
    ∀ m, m ≤ l.length →
      digitsDesc l ((List.range' 1 m).reverse) = ((List.range m).reverse).map (linvAt l) := by
  intro m
  induction m with
  | zero => intro _; rfl
  | succ m ih =>
    intro hm
    have hsplit : (List.range' 1 (m + 1)).reverse = (m + 1) :: (List.range' 1 m).reverse := by
      have h1 := @List.range'_concat 1 1 m
      rw [show 1 + 1 * m = m + 1 by omega] at h1
      rw [h1, List.reverse_append]
      rfl
    rw [hsplit]
    unfold digitsDesc
    rw [ih (by omega)]
    have hhead : (((List.range' 1 m).reverse).map (applyP l)).countP
        (fun y => decide (applyP l (m + 1) < y)) = linvAt l m := by
      rw [List.map_reverse, List.countP_reverse]
      rw [word_take m (by omega)]
      unfold linvAt
      rw [applyP_in (by omega) (by omega)]
      simp only [Nat.add_sub_cancel]
    rw [hhead]
    have hrhs : ((List.range (m + 1)).reverse).map (linvAt l) =
        linvAt l m :: ((List.range m).reverse).map (linvAt l) := by
      rw [List.range_succ, List.reverse_append]
      rfl
    rw [hrhs]

theorem facFold_eq : ∀ (cs : List Nat) (i base acc : Nat), 1 ≤ i →
    (∀ t, t < cs.length → cs.getD t 0 ≤ i + t) →
    facFold cs i base acc = some (acc + base * facAux cs (i - 1)) := by
  intro cs
  induction cs with
  | nil =>
    intro i base acc _ _
    simp [facFold, facAux]
  | cons c rest ih =>
    intro i base acc hi hbound
    have hc : c ≤ i := by
      have := hbound 0 (by simp)
      simpa using this
    unfold facFold
    rw [if_pos hc]
    have hih := ih (i + 1) (base * (i + 1)) (acc + c * base) (by omega) (fun t ht => by
      have hb := hbound (t + 1) (by simpa using ht)
      rw [getD_cons_succ_eq] at hb
      omega)
    rw [show i + 1 - 1 = i by omega] at hih
    rw [hih]
    congr 1
    have hfa : facAux (c :: rest) (i - 1) = c + (i + 1) * facAux rest i := by
      show c + ((i - 1) + 2) * facAux rest ((i - 1) + 1) = _
      rw [show i - 1 + 2 = i + 1 by omega, show i - 1 + 1 = i by omega]
    rw [hfa]
    ring

theorem lvec_bound (l : List Nat) : ∀ t, t < (lvec l).length → (lvec l).getD t 0 ≤ 1 + t := by
  intro t ht
  unfold lvec at ht ⊢
  rw [List.length_map, List.length_range] at ht
  rw [getD_eq_getElem (by rw [List.length_map, List.length_range]; exact ht)]
  rw [List.getElem_map, List.getElem_range]
  unfold linvAt
  have h1 := List.countP_le_length (fun y => decide (l.getD (t + 1) 0 < y)) (l := l.take (t + 1))
  have h2 : (l.take (t + 1)).length ≤ t + 1 := by
    rw [List.length_take]
    omega
  omega

theorem left_lehmer_eq {l : List Nat} (hv : ValidImage l) :
    left_lehmer l = some (leftCode l) := by
  rcases Nat.eq_zero_or_pos l.length with h0 | hpos
  · have hl : l = [] := List.length_eq_zero.mp h0
    subst hl
    rfl
  · unfold left_lehmer
    have hsorted : List.Sorted (· > ·) ((List.range' 1 l.length).reverse) := by
      rw [List.Sorted, List.pairwise_reverse]
      exact List.pairwise_lt_range' 1 l.length
    have hmapeq : (((List.range' 1 l.length).reverse).map (applyP l)) = l.reverse := by
      rw [List.map_reverse, word_applyP]
    have hperm : ((List.range' 1 l.length).reverse).Perm
        (((List.range' 1 l.length).reverse).map (applyP l)) := by
      rw [hmapeq]
      exact ((List.reverse_perm _).trans (valid_perm_range hv).symm).trans
        (List.reverse_perm _).symm
    rw [ricLoop_desc _ _ hsorted hperm]
    rw [digitsDesc_rev_range l.length (le_refl _)]
    show from_factorial_base ((((List.range l.length).reverse).map (linvAt l)).dropLast)
      = some (leftCode l)
    unfold from_factorial_base
    have h2 : ((((List.range l.length).reverse).map (linvAt l)).dropLast).reverse
        = lvec l := by
      rw [List.map_reverse, List.dropLast_reverse, List.reverse_reverse]
      -- (map linv (range D)).tail
      rw [← List.map_tail]
      have htail : (List.range l.length).tail = List.range' 1 (l.length - 1) := by
        rw [List.range_eq_range']
        rw [show l.length = (l.length - 1) + 1 by omega, List.range'_succ]
        rfl
      rw [htail]
      unfold lvec
      rw [List.range'_eq_map_range, List.map_map]
      apply List.map_congr_left
      intro t _
      show linvAt l (1 + t) = linvAt l (t + 1)
      rw [Nat.add_comm]
    rw [h2]
    rw [facFold_eq (lvec l) 1 1 0 (le_refl _) (lvec_bound l)]
    rw [show (1 : Nat) - 1 = 0 by rfl]
    unfold leftCode
    congr 1
    omega

/-! ## Counting left inversions -/

theorem take_succ_getD {l : List Nat} {m : Nat} (hm : m < l.length) :
    l.take (m + 1) = l.take m ++ [l.getD m 0] := by
  have h1 := (List.take_add l m 1).symm
  rw [List.drop_eq_getElem_cons hm] at h1
  rw [getD_eq_getElem hm]
  simpa using h1.symm

theorem linvAt_maxed {l : List Nat} {k : Nat} (hk : k < l.length)
    (hgt : ∀ t, t < k → l.getD k 0 < l.getD t 0) :
    linvAt l k = k := by
  unfold linvAt
  have hall : ∀ a ∈ l.take k, (fun y => decide (l.getD k 0 < y)) a = true := by
    intro a ha
    obtain ⟨t, ht, hval⟩ := List.mem_iff_getElem.mp ha
    rw [List.getElem_take] at hval
    rw [List.length_take] at ht
    have hg := hgt t (by omega)
    rw [getD_eq_getElem (show t < l.length by omega)] at hg
    rw [hval] at hg
    simpa using hg
  rw [List.countP_eq_length.mpr hall, List.length_take]
  omega

theorem linvAt_zero_of_asc {l : List Nat} {k : Nat} (hk : k ≤ l.length)
    (hlt : ∀ t, t < k → l.getD t 0 < l.getD k 0) :
    linvAt l k = 0 := by
  unfold linvAt
  rw [List.countP_eq_zero.mpr]
  intro a ha
  obtain ⟨t, ht, hval⟩ := List.mem_iff_getElem.mp ha
  rw [List.getElem_take] at hval
  rw [List.length_take] at ht
  have hg := hlt t (by omega)
  rw [getD_eq_getElem (show t < l.length by omega)] at hg
  rw [hval] at hg
  simp only [decide_eq_true_eq]
  omega

theorem linvAt_split {l : List Nat} {k j : Nat} (hj : j ≤ k) (hk : k ≤ l.length)
    (hbig : ∀ t, t < j → l.getD k 0 < l.getD t 0)
    (hsmall : ∀ t, j ≤ t → t < k → l.getD t 0 ≤ l.getD k 0) :
    linvAt l k = j := by
  unfold linvAt
  have hsplit : l.take k = l.take j ++ (l.take k).drop j := by
    conv_lhs => rw [← List.take_append_drop j (l.take k)]
    rw [List.take_take, Nat.min_eq_left hj]
  rw [hsplit, List.countP_append]
  have h1 : (l.take j).countP (fun y => decide (l.getD k 0 < y)) = j := by
    have hall : ∀ a ∈ l.take j, (fun y => decide (l.getD k 0 < y)) a = true := by
      intro a ha
      obtain ⟨t, ht, hval⟩ := List.mem_iff_getElem.mp ha
      rw [List.getElem_take] at hval
      rw [List.length_take] at ht
      have hg := hbig t (by omega)
      rw [getD_eq_getElem (show t < l.length by omega)] at hg
      rw [hval] at hg
      simpa using hg
    rw [List.countP_eq_length.mpr hall, List.length_take]
    omega
  have h2 : ((l.take k).drop j).countP (fun y => decide (l.getD k 0 < y)) = 0 := by
    rw [List.countP_eq_zero.mpr]
    intro a ha
    obtain ⟨s, hs, hval⟩ := List.mem_iff_getElem.mp ha
    rw [List.getElem_drop, List.getElem_take] at hval
    rw [List.length_drop, List.length_take] at hs
    have hg := hsmall (j + s) (by omega) (by omega)
    rw [getD_eq_getElem (show j + s < l.length by omega)] at hg
    rw [hval] at hg
    simp only [decide_eq_true_eq]
    omega
  rw [h1, h2]
  omega

theorem linvAt_split_rev {l : List Nat} {k s : Nat} (hs : s ≤ k) (hk : k ≤ l.length)
    (hsmall : ∀ t, t < s → l.getD t 0 ≤ l.getD k 0)
    (hbig : ∀ t, s ≤ t → t < k → l.getD k 0 < l.getD t 0) :
    linvAt l k = k - s := by
  unfold linvAt
  have hsplit : l.take k = l.take s ++ (l.take k).drop s := by
    conv_lhs => rw [← List.take_append_drop s (l.take k)]
    rw [List.take_take, Nat.min_eq_left hs]
  rw [hsplit, List.countP_append]
  have h1 : (l.take s).countP (fun y => decide (l.getD k 0 < y)) = 0 := by
    rw [List.countP_eq_zero.mpr]
    intro a ha
    obtain ⟨t, ht, hval⟩ := List.mem_iff_getElem.mp ha
    rw [List.getElem_take] at hval
    rw [List.length_take] at ht
    have hg := hsmall t (by omega)
    rw [getD_eq_getElem (show t < l.length by omega)] at hg
    rw [hval] at hg
    simp only [decide_eq_true_eq]
    omega
  have h2 : ((l.take k).drop s).countP (fun y => decide (l.getD k 0 < y)) = k - s := by
    have hall : ∀ a ∈ (l.take k).drop s, (fun y => decide (l.getD k 0 < y)) a = true := by
      intro a ha
      obtain ⟨t, ht, hval⟩ := List.mem_iff_getElem.mp ha
      rw [List.getElem_drop, List.getElem_take] at hval
      rw [List.length_drop, List.length_take] at ht
      have hg := hbig (s + t) (by omega) (by omega)
      rw [getD_eq_getElem (show s + t < l.length by omega)] at hg
      rw [hval] at hg
      simpa using hg
    rw [List.countP_eq_length.mpr hall, List.length_drop, List.length_take]
    omega
  rw [h1, h2]
  omega

theorem linvAt_perm_eq {l m : List Nat} {k : Nat}
    (hperm : (m.take k).Perm (l.take k)) (hval : m.getD k 0 = l.getD k 0) :
    linvAt m k = linvAt l k := by
  unfold linvAt
  rw [hval]
  exact hperm.countP_eq _

/-! ## Factorial-base carry -/

theorem facAux_append_zero : ∀ (cs : List Nat) (off : Nat),
    facAux (cs ++ [0]) off = facAux cs off := by
  intro cs
  induction cs with
  | nil =>
    intro off
    show (0 : Nat) + (off + 2) * facAux [] (off + 1) = 0
    simp [facAux]
  | cons c rest ih =>
    intro off
    show c + (off + 2) * facAux (rest ++ [0]) (off + 1) = c + (off + 2) * facAux rest (off + 1)
    rw [ih]

theorem facAux_carry : ∀ (m : Nat) (off j : Nat) (rest : List Nat),
    facAux (((List.range m).map (fun t => off + t + 1)) ++ j :: rest) off + 1 =
    facAux (List.replicate m 0 ++ (j + 1) :: rest) off := by
  intro m
  induction m with
  | zero =>
    intro off j rest
    show (j + (off + 2) * facAux rest (off + 1)) + 1
      = (j + 1) + (off + 2) * facAux rest (off + 1)
    omega
  | succ m ih =>
    intro off j rest
    have hmap : (List.range (m + 1)).map (fun t => off + t + 1)
        = (off + 1) :: (List.range m).map (fun t => (off + 1) + t + 1) := by
      rw [List.range_succ_eq_map]
      rw [List.map_cons, List.map_map]
      congr 1
      apply List.map_congr_left
      intro t _
      show off + (t + 1) + 1 = (off + 1) + t + 1
      omega
    rw [hmap]
    simp only [List.cons_append, List.replicate_succ]
    show ((off + 1) + (off + 2) *
        facAux ((List.range m).map (fun t => (off + 1) + t + 1) ++ j :: rest) (off + 1)) + 1
      = 0 + (off + 2) * facAux (List.replicate m 0 ++ (j + 1) :: rest) (off + 1)
    rw [← ih (off + 1) j rest]
    rw [Nat.mul_add, Nat.mul_one]
    omega

theorem map_range_eq_replicate {n : Nat} {f : Nat → Nat} (h : ∀ t, t < n → f t = 0) :
    (List.range n).map f = List.replicate n 0 := by
  apply List.eq_replicate_iff.mpr
  constructor
  · simp
  · intro b hb
    obtain ⟨t, ht, rfl⟩ := List.mem_map.mp hb
    exact h t (List.mem_range.mp ht)

theorem lvec_split {l : List Nat} {i : Nat} (h1 : 1 ≤ i) (hi : i < l.length) :
    lvec l = ((List.range (i - 1)).map (fun t => linvAt l (t + 1)))
      ++ linvAt l i :: ((List.range' i (l.length - 1 - i)).map (fun t => linvAt l (t + 1))) := by
  unfold lvec
  rw [List.range_eq_range']
  rw [show l.length - 1 = (l.length - i) + (i - 1) by omega]
  rw [← List.range'_append 0 (i - 1) (l.length - i) 1]
  rw [List.map_append]
  rw [List.range_eq_range']
  congr 1
  rw [show 0 + 1 * (i - 1) = i - 1 by omega]
  rw [show l.length - i = (l.length - 1 - i) + 1 by omega, List.range'_succ]
  rw [List.map_cons]
  rw [show i - 1 + 1 = i by omega]
  congr 3
  omega

theorem leftCode_next_ascent {l : List Nat} {i j : Nat}
    (hi1 : 1 ≤ i) (hilen : i < l.length) (hji : j < i)
    (hjlt : l.getD j 0 < l.getD i 0)
    (hgreater : ∀ k, k < j → l.getD i 0 < l.getD k 0)
    (hdesc : ∀ a b, a < b → b < i → l.getD b 0 < l.getD a 0) :
    leftCode (((l.take i).set j (l.getD i 0)).reverse ++ l.getD j 0 :: l.drop (i + 1))
      = leftCode l + 1 := by
  set W := ((l.take i).set j (l.getD i 0)).reverse ++ l.getD j 0 :: l.drop (i + 1) with hWdef
  have hperm : W.Perm l := swap_rev_perm hji hilen
  have hWlen : W.length = l.length := hperm.length_eq
  have hw_get : ∀ k, W.getD k 0 =
      if k < i then (if i - 1 - k = j then l.getD i 0 else l.getD (i - 1 - k) 0)
      else if k = i then l.getD j 0
      else l.getD k 0 := by
    intro k
    rw [hWdef]
    exact w_form_getD hji hilen k
  have hmaxl : ∀ k, 1 ≤ k → k ≤ i - 1 → linvAt l k = k := by
    intro k hk1 hk2
    exact linvAt_maxed (by omega) (fun t ht => hdesc t k ht (by omega))
  have hlini : linvAt l i = j := by
    apply linvAt_split (by omega) (by omega) hgreater
    intro t hjt hti
    rcases Nat.eq_or_lt_of_le hjt with heq | hlt
    · rw [← heq]
      omega
    · have := hdesc j t hlt hti
      omega
  have hzeroW : ∀ k, 1 ≤ k → k ≤ i - 1 → linvAt W k = 0 := by
    intro k hk1 hk2
    apply linvAt_zero_of_asc (by omega)
    intro t ht
    have := w_asc hji hilen hjlt hgreater hdesc t k ht (by omega)
    rw [← hWdef] at this
    exact this
  have hWi : linvAt W i = j + 1 := by
    have h := linvAt_split_rev (l := W) (show i - 1 - j ≤ i by omega) (show i ≤ W.length by omega)
        ?hsmall ?hbig
    · rw [show i - (i - 1 - j) = j + 1 by omega] at h
      exact h
    case hsmall =>
      intro t ht
      rw [hw_get t, if_pos (by omega), if_neg (by omega)]
      rw [hw_get i, if_neg (by omega), if_pos rfl]
      have := hdesc j (i - 1 - t) (by omega) (by omega)
      omega
    case hbig =>
      intro t hts hti
      rw [hw_get t, if_pos hti, hw_get i, if_neg (by omega), if_pos rfl]
      by_cases he : i - 1 - t = j
      · rw [if_pos he]
        omega
      · rw [if_neg he]
        have h1 := hgreater (i - 1 - t) (by omega)
        omega
  have hsuffix : ∀ k, i + 1 ≤ k → k < l.length → linvAt W k = linvAt l k := by
    intro k hk1 hk2
    apply linvAt_perm_eq
    · have hWsplit : W.take k = W.take (i + 1) ++ (W.drop (i + 1)).take (k - (i + 1)) := by
        have h := List.take_add W (i + 1) (k - (i + 1))
        rw [show (i + 1) + (k - (i + 1)) = k by omega] at h
        exact h
      have hlsplit : l.take k = l.take (i + 1) ++ (l.drop (i + 1)).take (k - (i + 1)) := by
        have h := List.take_add l (i + 1) (k - (i + 1))
        rw [show (i + 1) + (k - (i + 1)) = k by omega] at h
        exact h
      rw [hWsplit, hlsplit]
      have hXlen : (((l.take i).set j (l.getD i 0)).reverse).length = i := by
        rw [List.length_reverse, List.length_set, List.length_take]
        omega
      have hWform : W = (((l.take i).set j (l.getD i 0)).reverse ++ [l.getD j 0])
          ++ l.drop (i + 1) := by
        rw [hWdef, List.append_assoc]
        rfl
      have hlen2 : ((((l.take i).set j (l.getD i 0)).reverse ++ [l.getD j 0])).length = i + 1 := by
        rw [List.length_append, hXlen]
        rfl
      have hWdrop : W.drop (i + 1) = l.drop (i + 1) := by
        rw [hWform]
        exact List.drop_left' hlen2
      have hWtake : W.take (i + 1) = ((l.take i).set j (l.getD i 0)).reverse ++ [l.getD j 0] := by
        rw [hWform]
        exact List.take_left' hlen2
      rw [hWdrop, hWtake]
      apply List.Perm.append ?_ (List.Perm.refl _)
      rw [take_succ_getD hilen]
      have hp1 : (((l.take i).set j (l.getD i 0)).reverse ++ [l.getD j 0]).Perm
          (((l.take i).set j (l.getD i 0)) ++ [l.getD j 0]) :=
        (List.reverse_perm _).append_right _
      have hjtake : j < (l.take i).length := by
        rw [List.length_take]
        omega
      have hp2 := set_perm_swap (l.take i) hjtake (l.getD i 0)
      rw [getD_take_eq hji] at hp2
      exact hp1.trans hp2
    · rw [hw_get k, if_neg (by omega), if_neg (by omega)]
  have hAl : (List.range (i - 1)).map (fun t => linvAt l (t + 1))
      = (List.range (i - 1)).map (fun t => 0 + t + 1) := by
    apply List.map_congr_left
    intro t ht
    rw [List.mem_range] at ht
    show linvAt l (t + 1) = 0 + t + 1
    rw [hmaxl (t + 1) (by omega) (by omega)]
    omega
  have hAW : (List.range (i - 1)).map (fun t => linvAt W (t + 1))
      = List.replicate (i - 1) 0 := by
    apply map_range_eq_replicate
    intro t ht
    exact hzeroW (t + 1) (by omega) (by omega)
  have hS : (List.range' i (W.length - 1 - i)).map (fun t => linvAt W (t + 1))
      = (List.range' i (l.length - 1 - i)).map (fun t => linvAt l (t + 1)) := by
    rw [hWlen]
    apply List.map_congr_left
    intro t ht
    rw [List.mem_range'_1] at ht
    show linvAt W (t + 1) = linvAt l (t + 1)
    exact hsuffix (t + 1) (by omega) (by omega)
  unfold leftCode
  rw [lvec_split (l := W) hi1 (by omega), lvec_split (l := l) hi1 hilen]
  rw [hAl, hAW, hWi, hlini, hS]
  exact (facAux_carry (i - 1) 0 j _).symm

/-! ## The left Lehmer code in the fully-descending case -/

theorem leftCode_desc_succ {D : Nat} (hD : 2 ≤ D) :
    leftCode (transpositionWord D) = leftCode ((List.range' 1 D).reverse) + 1 := by
  set L := (List.range' 1 D).reverse with hLdef
  have hLlen : L.length = D := by
    rw [hLdef, List.length_reverse, List.length_range']
  have hLget : ∀ t, t < D → L.getD t 0 = D - t := by
    intro t ht
    rw [hLdef]
    rw [getD_reverse_eq (by rw [List.length_range']; exact ht)]
    rw [List.length_range']
    rw [getD_eq_getElem (by rw [List.length_range']; omega)]
    rw [List.getElem_range']
    omega
  have hTlen : (transpositionWord D).length = D + 1 :=
    (transpositionWord_valid (by omega)).2.2
  have hTget_lt : ∀ k, k < D - 1 → (transpositionWord D).getD k 0 = k + 1 := by
    intro k hk
    unfold transpositionWord
    rw [getD_append_left (by rw [List.length_range']; exact hk)]
    rw [getD_eq_getElem (by rw [List.length_range']; exact hk)]
    rw [List.getElem_range']
    omega
  have hTget_mid : (transpositionWord D).getD (D - 1) 0 = D + 1 := by
    unfold transpositionWord
    rw [getD_append_right (by rw [List.length_range'])]
    rw [List.length_range', Nat.sub_self, getD_cons_zero_eq]
  have hTget_last : (transpositionWord D).getD D 0 = D := by
    unfold transpositionWord
    rw [getD_append_right (by rw [List.length_range']; omega)]
    rw [List.length_range']
    rw [show D - (D - 1) = 1 by omega]
    rw [getD_cons_succ_eq, getD_cons_zero_eq]
  have hlvL : lvec L = (List.range (D - 1)).map (fun t => 0 + t + 1) := by
    unfold lvec
    rw [hLlen]
    apply List.map_congr_left
    intro t ht
    rw [List.mem_range] at ht
    show linvAt L (t + 1) = 0 + t + 1
    rw [linvAt_maxed (by omega) ?hmx]
    · omega
    case hmx =>
      intro s hs
      rw [hLget (t + 1) (by omega), hLget s (by omega)]
      omega
  have hlvT : lvec (transpositionWord D) = List.replicate (D - 1) 0 ++ [1] := by
    unfold lvec
    rw [hTlen]
    have hr : List.range (D + 1 - 1) = List.range (D - 1) ++ [D - 1] := by
      conv_lhs => rw [show D + 1 - 1 = (D - 1) + 1 by omega]
      rw [List.range_succ]
    rw [hr, List.map_append]
    congr 1
    · apply map_range_eq_replicate
      intro t ht
      apply linvAt_zero_of_asc (by omega)
      intro s hs
      rw [hTget_lt s (by omega)]
      rcases Nat.lt_or_ge (t + 1) (D - 1) with h1 | h1
      · rw [hTget_lt (t + 1) h1]
        omega
      · rw [show t + 1 = D - 1 by omega, hTget_mid]
        omega
    · rw [List.map_cons, List.map_nil]
      have h := linvAt_split_rev (l := transpositionWord D)
          (show D - 1 ≤ D by omega) (show D ≤ (transpositionWord D).length by omega)
          ?hs ?hb
      · rw [show D - (D - 1) = 1 by omega] at h
        rw [show D - 1 + 1 = D by omega, h]
      case hs =>
        intro s hs
        rw [hTget_lt s (by omega), hTget_last]
        omega
      case hb =>
        intro s hs1 hs2
        rw [show s = D - 1 by omega, hTget_mid, hTget_last]
        omega
  unfold leftCode
  rw [hlvL, hlvT]
  have hcar := facAux_carry (D - 1) 0 0 []
  rw [show (0 : Nat) + 1 = 1 by rfl] at hcar
  rw [← hcar]
  rw [facAux_append_zero]

/-- C1: `next_permutation` always succeeds, and the left (modified) Lehmer
code of the result is exactly one greater than that of the input. -/
theorem C1_next_left_lehmer {l : List Nat} (hv : ValidImage l) (hc : Canonical l) :
    ∃ m k, nextPermutation l = some m ∧ left_lehmer l = some k ∧
      left_lehmer m = some (k + 1) := by
  cases hscan : scanFirst (fun a b => decide (a < b)) l (List.range' 1 (l.length - 1)) with
  | some i =>
    obtain ⟨j, hi1, hilen, hji, hjlt, hgreater, hdesc, hjeq, hnext⟩ :=
      next_ascent_spec hv hc hscan
    obtain ⟨hvw, hcw, hwlen⟩ := next_word_struct hv hc hji hilen hjlt
    refine ⟨_, leftCode l, hnext, left_lehmer_eq hv, ?_⟩
    rw [left_lehmer_eq hvw]
    rw [leftCode_next_ascent hi1 hilen hji hjlt hgreater hdesc]
  | none =>
    obtain ⟨hrev, hnext⟩ := next_desc_spec hv hc hscan
    rcases Nat.eq_zero_or_pos l.length with h0 | hpos
    · have hl : l = [] := List.length_eq_zero.mp h0
      subst hl
      exact ⟨[2, 1], 0, by rfl, by rfl, by rfl⟩
    · have hD2 : 2 ≤ l.length := by
        have := length_ne_one hv hc
        omega
      rw [show max l.length 1 = l.length by omega] at hnext
      obtain ⟨hvt, hct, hlt⟩ := transpositionWord_valid (show 1 ≤ l.length by omega)
      refine ⟨_, leftCode l, hnext, left_lehmer_eq hv, ?_⟩
      rw [left_lehmer_eq hvt]
      have hlc := leftCode_desc_succ hD2
      rw [← hrev] at hlc
      rw [hlc]

/-- Witness for C1 at the concrete permutation with word `[2, 1]`. -/
theorem C1_next_left_lehmer_witness :
    ∃ m k, nextPermutation [2, 1] = some m ∧ left_lehmer [2, 1] = some k ∧
      left_lehmer m = some (k + 1) :=
  C1_next_left_lehmer (by decide) (by decide)

/-! ## C7: the canonical-form invariant across all producers -/

theorem canonical_applyP_degree {w : List Nat} (hw : Canonical w) (hpos : 0 < degree w) :
    applyP w (degree w) ≠ degree w := by
  have hne : w ≠ [] := by
    intro h0
    rw [h0] at hpos
    exact absurd hpos (by simp [degree])
  exact (canonical_iff_applyP hne).mp hw

theorem mulP_canonical {p q w : List Nat} (h : mulP p q = some w) : Canonical w := by
  unfold mulP at h
  exact (mkPerm_some_elim h).2.1

theorem inverseP_canonical {l w : List Nat} (h : inverseP l = some w) : Canonical w := by
  unfold inverseP at h
  cases hp : permuteP l (List.range' 1 l.length) with
  | some v =>
    rw [hp] at h
    exact (mkPerm_some_elim h).2.1
  | none =>
    rw [hp] at h
    exact Option.noConfusion h

theorem cycleP_canonical {c w : List Nat} (h : cycleP c = some w) : Canonical w := by
  unfold cycleP at h
  by_cases hc : (∀ x ∈ c, 1 ≤ x) ∧ c.Nodup
  · rw [if_pos hc] at h
    exact (mkPerm_some_elim h).2.1
  · rw [if_neg hc] at h
    exact Option.noConfusion h

theorem nextPermutation_canonical {l w : List Nat} (h : nextPermutation l = some w) :
    Canonical w := by
  unfold nextPermutation at h
  cases hscan : scanFirst (fun a b => decide (a < b)) l (List.range' 1 (l.length - 1)) with
  | some i =>
    simp only [hscan] at h
    cases hj : scanIdx (fun y => decide (y < l.getD i 0)) l with
    | some j =>
      simp only [hj] at h
      exact (mkPerm_some_elim h).2.1
    | none =>
      simp only [hj] at h
      exact Option.noConfusion h
  | none =>
    simp only [hscan] at h
    exact cycleP_canonical h

theorem prevPermutation_canonical {l w : List Nat} (h : prevPermutation l = Except.ok w) :
    Canonical w := by
  unfold prevPermutation at h
  by_cases h2 : l.length < 2
  · rw [if_pos h2] at h
    exact Except.noConfusion h
  · rw [if_neg h2] at h
    cases hscan : scanFirst (fun a b => decide (b < a)) l (List.range' 1 (l.length - 1)) with
    | some i =>
      simp only [hscan] at h
      cases hj : scanIdx (fun y => decide (l.getD i 0 < y)) l with
      | some j =>
        simp only [hj] at h
        cases hm : mkPerm (revPre (swapIdx l i j) i) with
        | some r =>
          simp only [hm] at h
          rw [← Except.ok.inj h]
          exact (mkPerm_some_elim hm).2.1
        | none =>
          simp only [hm] at h
          exact Except.noConfusion h
      | none =>
        simp only [hj] at h
        exact Except.noConfusion h
    | none =>
      simp only [hscan] at h
      exact Except.noConfusion h

theorem from_left_lehmer_canonical {x : Nat} {w : List Nat}
    (h : from_left_lehmer x = some w) : Canonical w := by
  unfold from_left_lehmer at h
  exact (mkPerm_some_elim h).2.1

/-- C7: every permutation value produced by the constructor or by any of the
modeled operations is in canonical (minimal-degree) form — whenever its degree
is positive, applying it to its own degree does not yield the degree (no
trailing fixed point) — and two canonical permutations are `__eq__`-equal iff
they define the same mapping, i.e. iff their canonical words are equal. -/
theorem C7_canonical_invariant :
    (∀ img w, mkPerm img = some w → 0 < degree w → applyP w (degree w) ≠ degree w) ∧
    (∀ p q w, mulP p q = some w → 0 < degree w → applyP w (degree w) ≠ degree w) ∧
    (∀ l w, inverseP l = some w → 0 < degree w → applyP w (degree w) ≠ degree w) ∧
    (∀ c w, cycleP c = some w → 0 < degree w → applyP w (degree w) ≠ degree w) ∧
    (∀ l w, nextPermutation l = some w → 0 < degree w → applyP w (degree w) ≠ degree w) ∧
    (∀ l w, prevPermutation l = Except.ok w → 0 < degree w → applyP w (degree w) ≠ degree w) ∧
    (∀ x w, from_left_lehmer x = some w → 0 < degree w → applyP w (degree w) ≠ degree w) ∧
    (∀ p q, Canonical p → Canonical q →
      (permEq p q = true ↔ ∀ x, applyP p x = applyP q x)) := by
  refine ⟨?_, ?_, ?_, ?_, ?_, ?_, ?_, ?_⟩
  · intro img w h hpos
    exact canonical_applyP_degree (mkPerm_some_elim h).2.1 hpos
  · intro p q w h hpos
    exact canonical_applyP_degree (mulP_canonical h) hpos
  · intro l w h hpos
    exact canonical_applyP_degree (inverseP_canonical h) hpos
  · intro c w h hpos
    exact canonical_applyP_degree (cycleP_canonical h) hpos
  · intro l w h hpos
    exact canonical_applyP_degree (nextPermutation_canonical h) hpos
  · intro l w h hpos
    exact canonical_applyP_degree (prevPermutation_canonical h) hpos
  · intro x w h hpos
    exact canonical_applyP_degree (from_left_lehmer_canonical h) hpos
  · intro p q hcp hcq
    constructor
    · intro he x
      rw [eq_of_beq he]
    · intro hx
      unfold permEq
      rw [perm_ext hcp hcq hx]
      simp

/-- Witness for C7 at the concrete canonical word `[2, 1]`. -/
theorem C7_canonical_invariant_witness :
    permEq [2, 1] [2, 1] = true ↔ ∀ x, applyP [2, 1] x = applyP [2, 1] x :=
  C7_canonical_invariant.2.2.2.2.2.2.2 [2, 1] [2, 1] (by decide) (by decide)

/-! ## C2: `from_left_lehmer` inverts `left_lehmer` -/

theorem facAux_pos (ds : List Nat) :
    ds.getLast? ≠ some 0 → ds ≠ [] → ∀ off, 0 < facAux ds off := by
  induction ds with
  | nil =>
    intro _ h
    exact absurd rfl h
  | cons c rest ih =>
    intro hlast _ off
    cases rest with
    | nil =>
      have hc : c ≠ 0 := by
        intro h0
        apply hlast
        rw [h0]
        rfl
      show 0 < c + (off + 2) * facAux [] (off + 1)
      simp only [facAux]
      omega
    | cons b tl =>
      have h1 : 0 < facAux (b :: tl) (off + 1) := by
        apply ih ?_ (by simp) (off + 1)
        rw [List.getLast?_cons_cons] at hlast
        exact hlast
      have h2 := Nat.mul_pos (show 0 < off + 2 by omega) h1
      show 0 < c + (off + 2) * facAux (b :: tl) (off + 1)
      omega

theorem facAux_ge_length (ds : List Nat) :
    ds.getLast? ≠ some 0 → ∀ off, ds.length ≤ facAux ds off := by
  induction ds with
  | nil =>
    intro _ off
    simp [facAux]
  | cons c rest ih =>
    intro hlast off
    cases rest with
    | nil =>
      have hc : c ≠ 0 := by
        intro h0
        apply hlast
        rw [h0]
        rfl
      show [c].length ≤ c + (off + 2) * facAux [] (off + 1)
      simp only [facAux, List.length_cons, List.length_nil]
      omega
    | cons b tl =>
      have hlast' : (b :: tl).getLast? ≠ some 0 := by
        rw [List.getLast?_cons_cons] at hlast
        exact hlast
      have h1 := ih hlast' (off + 1)
      have h2 : 0 < facAux (b :: tl) (off + 1) := facAux_pos _ hlast' (by simp) (off + 1)
      have h4 : 2 * facAux (b :: tl) (off + 1) ≤ (off + 2) * facAux (b :: tl) (off + 1) :=
        Nat.mul_le_mul_right _ (by omega)
      show (c :: b :: tl).length ≤ c + (off + 2) * facAux (b :: tl) (off + 1)
      simp only [List.length_cons] at h1 ⊢
      omega

theorem tfbAux_facAux : ∀ (ds : List Nat) (off fuel : Nat),
    (∀ t, t < ds.length → ds.getD t 0 ≤ off + t + 1) →
    ds.getLast? ≠ some 0 →
    ds.length ≤ fuel →
    tfbAux fuel (facAux ds off) off = ds := by
  intro ds
  induction ds with
  | nil =>
    intro off fuel _ _ _
    cases fuel with
    | zero => rfl
    | succ f => rfl
  | cons c rest ih =>
    intro off fuel hbound hlast hfuel
    cases fuel with
    | zero =>
      exact absurd hfuel (by simp)
    | succ f =>
      have hc : c ≤ off + 1 := by
        have := hbound 0 (by simp)
        simpa using this
      have hfa : facAux (c :: rest) off = c + (off + 2) * facAux rest (off + 1) := rfl
      have hne : facAux (c :: rest) off ≠ 0 := by
        have := facAux_pos (c :: rest) hlast (by simp) off
        omega
      show (if facAux (c :: rest) off = 0 then []
        else facAux (c :: rest) off % (off + 2) ::
          tfbAux f (facAux (c :: rest) off / (off + 2)) (off + 1)) = c :: rest
      rw [if_neg hne]
      have hmod : (c + (off + 2) * facAux rest (off + 1)) % (off + 2) = c := by
        rw [Nat.add_mul_mod_self_left]
        exact Nat.mod_eq_of_lt (by omega)
      have hdiv : (c + (off + 2) * facAux rest (off + 1)) / (off + 2) = facAux rest (off + 1) := by
        rw [Nat.add_mul_div_left _ _ (show 0 < off + 2 by omega)]
        rw [Nat.div_eq_of_lt (show c < off + 2 by omega)]
        omega
      rw [hfa, hmod, hdiv]
      congr 1
      apply ih (off + 1) f
      · intro t ht
        have := hbound (t + 1) (by simp only [List.length_cons]; omega)
        rw [getD_cons_succ_eq] at this
        omega
      · cases rest with
        | nil => simp
        | cons b tl =>
          rw [List.getLast?_cons_cons] at hlast
          exact hlast
      · simp only [List.length_cons] at hfuel
        omega

theorem fllStep (l : List Nat) (hnd : l.Nodup) (k : Nat) (hk : k + 1 < l.length) :
    ((List.range (k + 1)).map
        (fun m => (l.take (k + 1)).countP (fun y => decide (l.getD m 0 < y)))).map
        (fun y => if linvAt l (k + 1) ≤ y then y + 1 else y) ++ [linvAt l (k + 1)]
      = (List.range (k + 2)).map
        (fun m => (l.take (k + 2)).countP (fun y => decide (l.getD m 0 < y))) := by
  have hr : List.range (k + 2) = List.range (k + 1) ++ [k + 1] := by
    rw [List.range_succ]
  rw [hr, List.map_append]
  congr 1
  · rw [List.map_map]
    apply List.map_congr_left
    intro m hm
    rw [List.mem_range] at hm
    show (if linvAt l (k + 1) ≤ (l.take (k + 1)).countP (fun y => decide (l.getD m 0 < y)) then
        (l.take (k + 1)).countP (fun y => decide (l.getD m 0 < y)) + 1
      else (l.take (k + 1)).countP (fun y => decide (l.getD m 0 < y)))
      = (l.take (k + 2)).countP (fun y => decide (l.getD m 0 < y))
    have htake : l.take (k + 2) = l.take (k + 1) ++ [l.getD (k + 1) 0] := take_succ_getD hk
    rw [htake, List.countP_append]
    have hsing : [l.getD (k + 1) 0].countP (fun y => decide (l.getD m 0 < y))
        = if l.getD m 0 < l.getD (k + 1) 0 then 1 else 0 := by
      simp [List.countP_cons]
    have hne : l.getD m 0 ≠ l.getD (k + 1) 0 :=
      getD_ne_of_idx_ne hnd (by omega) (by omega) (by omega)
    rcases Nat.lt_or_ge (l.getD m 0) (l.getD (k + 1) 0) with hlt | hge
    · have hmono : linvAt l (k + 1) ≤ (l.take (k + 1)).countP (fun y => decide (l.getD m 0 < y)) := by
        unfold linvAt
        apply List.countP_mono_left
        intro a _ ha
        simp only [decide_eq_true_eq] at ha ⊢
        omega
      rw [if_pos hmono, hsing, if_pos hlt]
    · have hgt : l.getD (k + 1) 0 < l.getD m 0 := by omega
      have hstrict : (l.take (k + 1)).countP (fun y => decide (l.getD m 0 < y))
          < linvAt l (k + 1) := by
        unfold linvAt
        have hA : l.take (k + 1)
            = (l.take m ++ [l.getD m 0]) ++ (l.take (k + 1)).drop (m + 1) := by
          have h1 : l.take (k + 1)
              = (l.take (k + 1)).take (m + 1) ++ (l.take (k + 1)).drop (m + 1) :=
            (List.take_append_drop _ _).symm
          rw [List.take_take, Nat.min_eq_left (by omega)] at h1
          rw [take_succ_getD (show m < l.length by omega)] at h1
          exact h1
        rw [hA, List.countP_append, List.countP_append, List.countP_append,
          List.countP_append]
        have hm1 : (l.take m).countP (fun y => decide (l.getD m 0 < y))
            ≤ (l.take m).countP (fun y => decide (l.getD (k + 1) 0 < y)) := by
          apply List.countP_mono_left
          intro a _ ha
          simp only [decide_eq_true_eq] at ha ⊢
          omega
        have hm2 : ((l.take (k + 1)).drop (m + 1)).countP (fun y => decide (l.getD m 0 < y))
            ≤ ((l.take (k + 1)).drop (m + 1)).countP
                (fun y => decide (l.getD (k + 1) 0 < y)) := by
          apply List.countP_mono_left
          intro a _ ha
          simp only [decide_eq_true_eq] at ha ⊢
          omega
        have hs1 : [l.getD m 0].countP (fun y => decide (l.getD m 0 < y)) = 0 := by
          have hd : decide (l.getD m 0 < l.getD m 0) = false := decide_eq_false (by omega)
          rw [List.countP_cons, List.countP_nil, hd]
          rfl
        have hs2 : [l.getD m 0].countP (fun y => decide (l.getD (k + 1) 0 < y)) = 1 := by
          have hd : decide (l.getD (k + 1) 0 < l.getD m 0) = true := decide_eq_true hgt
          rw [List.countP_cons, List.countP_nil, hd]
          rfl
        omega
      rw [if_neg (by omega), hsing, if_neg (by omega)]
      omega
  · rw [List.map_cons, List.map_nil]
    have htake : l.take (k + 2) = l.take (k + 1) ++ [l.getD (k + 1) 0] := take_succ_getD hk
    rw [htake, List.countP_append]
    unfold linvAt
    simp

theorem fllLoop_inv (l : List Nat) (hnd : l.Nodup) :
    ∀ r k, k < l.length → r = l.length - 1 - k →
      fllLoop
        ((List.range (k + 1)).map
          (fun m => (l.take (k + 1)).countP (fun y => decide (l.getD m 0 < y))))
        ((List.range' (k + 1) r).map (fun t => linvAt l t))
      = (List.range l.length).map (fun m => l.countP (fun y => decide (l.getD m 0 < y))) := by
  intro r
  induction r with
  | zero =>
    intro k hk hr
    have hk1 : k + 1 = l.length := by omega
    show fllLoop _ _ = _
    rw [List.range'_zero, List.map_nil]
    show (List.range (k + 1)).map
        (fun m => (l.take (k + 1)).countP (fun y => decide (l.getD m 0 < y)))
      = (List.range l.length).map (fun m => l.countP (fun y => decide (l.getD m 0 < y)))
    rw [hk1, List.take_length]
  | succ r ih =>
    intro k hk hr
    rw [List.range'_succ, List.map_cons]
    show fllLoop
        (((List.range (k + 1)).map
          (fun m => (l.take (k + 1)).countP (fun y => decide (l.getD m 0 < y)))).map
          (fun y => if linvAt l (k + 1) ≤ y then y + 1 else y) ++ [linvAt l (k + 1)])
        ((List.range' (k + 2) r).map (fun t => linvAt l t)) = _
    rw [fllStep l hnd k (by omega)]
    exact ih (k + 1) (by omega) (by omega)

theorem lvec_getLast_ne_zero {l : List Nat} (hv : ValidImage l) (hc : Canonical l)
    (hD : 2 ≤ l.length) : (lvec l).getLast? ≠ some 0 := by
  have hlne : l ≠ [] := by
    intro h0
    rw [h0] at hD
    simp at hD
  have hlveclen : (lvec l).length = l.length - 1 := by
    unfold lvec
    rw [List.length_map, List.length_range]
  have hne : lvec l ≠ [] := by
    intro h0
    have h1 : (lvec l).length = 0 := by rw [h0]; rfl
    omega
  rw [getD_last_of_ne_nil hne]
  have hlast : (lvec l).getD ((lvec l).length - 1) 0 = linvAt l (l.length - 1) := by
    rw [hlveclen]
    unfold lvec
    rw [getD_eq_getElem (by rw [List.length_map, List.length_range]; omega)]
    rw [List.getElem_map, List.getElem_range]
    congr 1
    omega
  rw [hlast]
  intro hcon
  have h0 : linvAt l (l.length - 1) = 0 := Option.some.inj hcon
  have hlgetlast : l.getD (l.length - 1) 0 ≠ l.length := by
    intro he
    apply hc
    rw [getD_last_of_ne_nil hlne, he]
  have hlow : l.getD (l.length - 1) 0 < l.length := by
    have hmem : l.getD (l.length - 1) 0 ∈ l := by
      rw [getD_eq_getElem (show l.length - 1 < l.length by omega)]
      exact List.getElem_mem _
    have := (hv.1 _ hmem).2
    omega
  have hmemD : l.length ∈ l := by
    have hperm := valid_perm_range hv
    rw [hperm.mem_iff, List.mem_range'_1]
    omega
  obtain ⟨td, htd, htdv⟩ := List.mem_iff_getElem.mp hmemD
  have htdlt : td < l.length - 1 := by
    rcases Nat.lt_or_ge td (l.length - 1) with h | h
    · exact h
    · exfalso
      have htdget : l.getD td 0 = l.length := by
        rw [getD_eq_getElem htd]
        exact htdv
      apply hlgetlast
      rw [show l.length - 1 = td by omega]
      exact htdget
  have hpos2 : 0 < linvAt l (l.length - 1) := by
    unfold linvAt
    rw [List.countP_pos_iff]
    refine ⟨l[td], ?_, ?_⟩
    · apply List.mem_iff_getElem.mpr
      refine ⟨td, by rw [List.length_take]; omega, ?_⟩
      rw [List.getElem_take]
    · have hd : l.getD (l.length - 1) 0 < l[td] := by
        rw [htdv]
        exact hlow
      exact decide_eq_true hd
  omega

theorem countP_gt_valid {l : List Nat} (hv : ValidImage l) {m : Nat} (hm : m < l.length) :
    l.countP (fun y => decide (l.getD m 0 < y)) = l.length - l.getD m 0 := by
  have hperm := valid_perm_range hv
  rw [hperm.countP_eq]
  have hvb : 1 ≤ l.getD m 0 ∧ l.getD m 0 ≤ l.length := by
    apply hv.1
    rw [getD_eq_getElem hm]
    exact List.getElem_mem _
  have hsplit : List.range' 1 l.length
      = List.range' 1 (l.getD m 0) ++ List.range' (1 + l.getD m 0) (l.length - l.getD m 0) := by
    have h := List.range'_append 1 (l.getD m 0) (l.length - l.getD m 0) 1
    rw [show (l.length - l.getD m 0) + l.getD m 0 = l.length by omega] at h
    rw [← h]
    congr 2
    omega
  rw [hsplit, List.countP_append]
  have h1 : (List.range' 1 (l.getD m 0)).countP (fun y => decide (l.getD m 0 < y)) = 0 := by
    rw [List.countP_eq_zero]
    intro a ha
    rw [List.mem_range'_1] at ha
    simp only [decide_eq_true_eq]
    omega
  have h2 : (List.range' (1 + l.getD m 0) (l.length - l.getD m 0)).countP
      (fun y => decide (l.getD m 0 < y)) = l.length - l.getD m 0 := by
    rw [List.countP_eq_length.mpr ?_, List.length_range']
    intro a ha
    rw [List.mem_range'_1] at ha
    exact decide_eq_true (by omega)
  omega

theorem map_range_getD (l : List Nat) :
    (List.range l.length).map (fun m => l.getD m 0) = l := by
  apply List.ext_getElem
  · rw [List.length_map, List.length_range]
  · intro n h1 h2
    rw [List.getElem_map, List.getElem_range]
    exact getD_eq_getElem h2

theorem from_left_lehmer_leftCode {l : List Nat} (hv : ValidImage l) (hc : Canonical l) :
    from_left_lehmer (leftCode l) = some l := by
  rcases Nat.eq_zero_or_pos l.length with h0 | hpos
  · have hl : l = [] := List.length_eq_zero.mp h0
    subst hl
    rfl
  · have hD2 : 2 ≤ l.length := by
      have := length_ne_one hv hc
      omega
    have hlast := lvec_getLast_ne_zero hv hc hD2
    have hlveclen : (lvec l).length = l.length - 1 := by
      unfold lvec
      rw [List.length_map, List.length_range]
    have hxpos : 0 < leftCode l := by
      apply facAux_pos _ hlast ?_ 0
      intro h0'
      have h1 : (lvec l).length = 0 := by rw [h0']; rfl
      omega
    have htfb : (to_factorial_base (leftCode l)).reverse = lvec l := by
      unfold to_factorial_base
      rw [if_neg (by omega)]
      rw [List.reverse_reverse]
      unfold leftCode
      apply tfbAux_facAux (lvec l) 0
      · intro t ht
        have := lvec_bound l t ht
        omega
      · exact hlast
      · exact facAux_ge_length _ hlast 0
    have hinv := fllLoop_inv l hv.2 (l.length - 1) 0 (by omega) (by omega)
    simp only [Nat.zero_add, Nat.sub_zero] at hinv
    have hstart : ((List.range 1).map
        (fun m => (l.take 1).countP (fun y => decide (l.getD m 0 < y)))) = [0] := by
      rw [show List.range 1 = [0] by decide, List.map_cons, List.map_nil]
      have htake1 : l.take 1 = [l.getD 0 0] := by
        have h := take_succ_getD (show 0 < l.length by omega)
        simpa using h
      rw [htake1]
      have hd : decide (l.getD 0 0 < l.getD 0 0) = false := decide_eq_false (by omega)
      rw [List.countP_cons, List.countP_nil, hd]
      rfl
    rw [hstart] at hinv
    have hdigits : lvec l = (List.range' 1 (l.length - 1)).map (fun t => linvAt l t) := by
      unfold lvec
      rw [List.range'_eq_map_range, List.map_map]
      apply List.map_congr_left
      intro t _
      show linvAt l (t + 1) = linvAt l (1 + t)
      rw [Nat.add_comm]
    simp only [from_left_lehmer]
    rw [htfb, hdigits, hinv]
    have hword : ((List.range l.length).map
        (fun m => l.countP (fun y => decide (l.getD m 0 < y)))).map
        (fun c => ((List.range l.length).map
          (fun m => l.countP (fun y => decide (l.getD m 0 < y)))).length - c) = l := by
      rw [List.length_map, List.length_range]
      rw [List.map_map]
      conv_rhs => rw [← map_range_getD l]
      apply List.map_congr_left
      intro m hm
      rw [List.mem_range] at hm
      show l.length - l.countP (fun y => decide (l.getD m 0 < y)) = l.getD m 0
      rw [countP_gt_valid hv hm]
      have hb : 1 ≤ l.getD m 0 ∧ l.getD m 0 ≤ l.length := by
        apply hv.1
        rw [getD_eq_getElem hm]
        exact List.getElem_mem _
      omega
    rw [hword]
    rw [mkPerm_eq_some hv, trimFixed_of_canonical hc]

/-- C2: the left (modified) Lehmer code of every permutation is a
non-negative integer, and `from_left_lehmer` maps it back to the very same
permutation. -/
theorem C2_left_lehmer_roundtrip {l : List Nat} (hv : ValidImage l) (hc : Canonical l) :
    ∃ k, left_lehmer l = some k ∧ 0 ≤ k ∧ from_left_lehmer k = some l :=
  ⟨leftCode l, left_lehmer_eq hv, Nat.zero_le _, from_left_lehmer_leftCode hv hc⟩

/-- Witness for C2 at the concrete permutation with word `[3, 1, 2]`. -/
theorem C2_left_lehmer_roundtrip_witness :
    ∃ k, left_lehmer [3, 1, 2] = some k ∧ 0 ≤ k ∧ from_left_lehmer k = some [3, 1, 2] :=
  C2_left_lehmer_roundtrip (by decide) (by decide)

/-! ## C4: `lehmer` is the lexicographic rank -/

theorem digitsAsc_digitsW (l : List Nat) :
    ∀ xs, digitsAsc l xs = digitsW (xs.map (applyP l)) := by
  intro xs
  induction xs with
  | nil => rfl
  | cons x rest ih =>
    show ((rest.map (applyP l)).countP (fun y => decide (y < applyP l x))) :: digitsAsc l rest
      = ((rest.map (applyP l)).countP (fun y => decide (y < applyP l x)))
        :: digitsW (rest.map (applyP l))
    rw [ih]

theorem digitsW_length : ∀ w : List Nat, (digitsW w).length = w.length := by
  intro w
  induction w with
  | nil => rfl
  | cons c rest ih =>
    show (digitsW rest).length + 1 = rest.length + 1
    rw [ih]

theorem digitsW_getD_bound : ∀ (w : List Nat) (u : Nat), u < w.length →
    (digitsW w).getD u 0 ≤ w.length - 1 - u := by
  intro w
  induction w with
  | nil =>
    intro u hu
    simp at hu
  | cons c rest ih =>
    intro u hu
    cases u with
    | zero =>
      show rest.countP (fun y => decide (y < c)) ≤ (c :: rest).length - 1 - 0
      have := List.countP_le_length (fun y => decide (y < c)) (l := rest)
      simp only [List.length_cons]
      omega
    | succ u' =>
      show ((rest.countP (fun y => decide (y < c))) :: digitsW rest).getD (u' + 1) 0
        ≤ (c :: rest).length - 1 - (u' + 1)
      rw [getD_cons_succ_eq]
      have := ih u' (by simp only [List.length_cons] at hu; omega)
      simp only [List.length_cons]
      omega

theorem facAux_append_digit : ∀ (R : List Nat) (d off : Nat),
    facAux (R ++ [d]) off = facAux R off + d * placeP off R.length := by
  intro R
  induction R with
  | nil =>
    intro d off
    show d + (off + 2) * facAux [] (off + 1) = facAux [] off + d * placeP off 0
    simp [facAux, placeP]
  | cons c R' ih =>
    intro d off
    show c + (off + 2) * facAux (R' ++ [d]) (off + 1)
      = (c + (off + 2) * facAux R' (off + 1)) + d * placeP off (R'.length + 1)
    rw [ih d (off + 1)]
    rw [show placeP off (R'.length + 1) = (off + 2) * placeP (off + 1) R'.length from rfl]
    ring

theorem placeP_factorial : ∀ (m off : Nat),
    (off + 1).factorial * placeP off m = (off + 1 + m).factorial := by
  intro m
  induction m with
  | zero =>
    intro off
    show (off + 1).factorial * 1 = (off + 1 + 0).factorial
    rw [Nat.mul_one]
  | succ m ih =>
    intro off
    show (off + 1).factorial * ((off + 2) * placeP (off + 1) m) = (off + 1 + (m + 1)).factorial
    have h1 : (off + 1).factorial * ((off + 2) * placeP (off + 1) m)
        = (off + 2).factorial * placeP (off + 1) m := by
      rw [Nat.factorial_succ (off + 1)]
      ring
    rw [h1, ih (off + 1)]
    congr 1
    omega

theorem placeP_zero_factorial (m : Nat) : placeP 0 m = (m + 1).factorial := by
  have h := placeP_factorial m 0
  rw [show (0 : Nat) + 1 + m = m + 1 by omega] at h
  rw [← h]
  show placeP 0 m = 1 * placeP 0 m
  omega

theorem from_factorial_base_digitsW (w : List Nat) :
    from_factorial_base ((digitsW w).dropLast)
      = some (facAux (((digitsW w).dropLast).reverse) 0) := by
  unfold from_factorial_base
  rw [facFold_eq _ 1 1 0 (le_refl 1) ?bounds]
  · rw [show (1 : Nat) - 1 = 0 by rfl]
    congr 1
    omega
  case bounds =>
    intro t ht
    rw [List.length_reverse, List.dropLast_eq_take, List.length_take, digitsW_length] at ht
    rw [getD_reverse_eq (by
      rw [List.dropLast_eq_take, List.length_take, digitsW_length]
      omega)]
    rw [List.dropLast_eq_take, List.length_take, digitsW_length]
    rw [getD_take_eq (by omega)]
    have hb := digitsW_getD_bound w (min (w.length - 1) w.length - 1 - t) (by omega)
    omega

theorem rankOf_eq_facAux : ∀ (w s : List Nat), w.Perm s →
    rankOf w s = facAux (((digitsW w).dropLast).reverse) 0 := by
  intro w
  induction w with
  | nil =>
    intro s _
    rfl
  | cons c rest ih =>
    intro s hperm
    have hcount : s.countP (fun y => decide (y < c))
        = rest.countP (fun y => decide (y < c)) := by
      rw [(hperm.symm.countP_eq _)]
      rw [List.countP_cons]
      simp
    cases rest with
    | nil =>
      show s.countP (fun y => decide (y < c)) * (s.length - 1).factorial + 0
        = facAux (((digitsW [c]).dropLast).reverse) 0
      rw [hcount]
      show 0 * (s.length - 1).factorial + 0 = facAux [] 0
      simp [facAux]
    | cons b rest' =>
      have hrest : (b :: rest').Perm (s.erase c) := by
        have h1 := hperm.erase c
        rw [List.erase_cons_head] at h1
        exact h1
      have hslen : s.length = rest'.length + 2 := by
        rw [← hperm.length_eq]
        rfl
      show s.countP (fun y => decide (y < c)) * (s.length - 1).factorial
          + rankOf (b :: rest') (s.erase c)
        = facAux (((digitsW (c :: b :: rest')).dropLast).reverse) 0
      rw [ih _ hrest, hcount]
      have hdrop : (digitsW (c :: b :: rest')).dropLast
          = ((b :: rest').countP (fun y => decide (y < c))) :: (digitsW (b :: rest')).dropLast := by
        rfl
      rw [hdrop, List.reverse_cons, facAux_append_digit]
      rw [List.length_reverse, List.dropLast_eq_take, List.length_take, digitsW_length]
      rw [placeP_zero_factorial]
      rw [show min ((b :: rest').length - 1) (b :: rest').length + 1 = s.length - 1 by
        simp only [List.length_cons]
        omega]
      omega

theorem indexOf?_append_some {A B : List (List Nat)} {w : List Nat} {r : Nat}
    (h : A.indexOf? w = some r) : (A ++ B).indexOf? w = some r := by
  induction A generalizing r with
  | nil => exact absurd h (by simp [List.indexOf?, List.findIdx?])
  | cons a t ih =>
    rw [List.indexOf?_cons] at h
    rw [List.cons_append, List.indexOf?_cons]
    by_cases hav : a = w
    · rw [if_pos (by simp [hav])] at h
      rw [if_pos (by simp [hav])]
      exact h
    · rw [if_neg (by simp [hav])] at h
      rw [if_neg (by simp [hav])]
      obtain ⟨r', hr', rfl⟩ := Option.map_eq_some'.mp h
      rw [ih hr']
      rfl

theorem indexOf?_append_skip {A B : List (List Nat)} {w : List Nat} {j : Nat}
    (h : w ∉ A) (hB : B.indexOf? w = some j) :
    (A ++ B).indexOf? w = some (A.length + j) := by
  induction A with
  | nil =>
    simp only [List.nil_append, List.length_nil, Nat.zero_add]
    exact hB
  | cons a t ih =>
    rw [List.cons_append, List.indexOf?_cons]
    have hne : a ≠ w := fun he => h (by simp [he])
    rw [if_neg (by simp [hne])]
    rw [ih (fun hm => h (by simp [hm]))]
    simp only [Option.map_some', List.length_cons]
    congr 1
    omega

theorem indexOf?_map_cons {c : Nat} : ∀ (L : List (List Nat)) (rest : List Nat),
    (L.map (c :: ·)).indexOf? (c :: rest) = L.indexOf? rest := by
  intro L
  induction L with
  | nil => intro rest; rfl
  | cons y t ih =>
    intro rest
    rw [List.map_cons, List.indexOf?_cons, List.indexOf?_cons]
    by_cases hyr : y = rest
    · rw [if_pos (by simp [hyr]), if_pos (by simp [hyr])]
    · rw [if_neg (by simp [hyr]), if_neg (by simp [hyr]), ih]

theorem permsOfAux_length : ∀ (fuel : Nat) (s : List Nat), s.length = fuel →
    (permsOfAux fuel s).length = fuel.factorial := by
  intro fuel
  induction fuel with
  | zero => intro s _; rfl
  | succ f ih =>
    intro s hlen
    show (s.flatMap (fun a => (permsOfAux f (s.erase a)).map (a :: ·))).length
      = (f + 1).factorial
    have hconst : ∀ (u : List Nat), (∀ a ∈ u, a ∈ s) →
        (u.flatMap (fun a => (permsOfAux f (s.erase a)).map (a :: ·))).length
          = u.length * f.factorial := by
      intro u
      induction u with
      | nil => intro _; simp
      | cons a t iht =>
        intro hmem
        rw [List.flatMap_cons, List.length_append, iht (fun b hb => hmem b (by simp [hb]))]
        rw [List.length_map, ih _ (by
          rw [List.length_erase_of_mem (hmem a (by simp))]
          omega)]
        simp only [List.length_cons]
        ring
    rw [hconst s (fun a ha => ha), hlen, Nat.factorial_succ]

theorem flatMap_indexOf_scan {B : Nat → List (List Nat)} {K : Nat} :
    ∀ (u : List Nat) (c : Nat) (w : List Nat) (i r : Nat),
      u.indexOf? c = some i →
      (∀ a ∈ u, (B a).length = K) →
      (∀ a ∈ u, a ≠ c → w ∉ B a) →
      (B c).indexOf? w = some r →
      (u.flatMap B).indexOf? w = some (i * K + r) := by
  intro u
  induction u with
  | nil =>
    intro c w i r h _ _ _
    exact absurd h (by simp [List.indexOf?, List.findIdx?])
  | cons a t ih =>
    intro c w i r hidx hlen hnot hinB
    rw [List.indexOf?_cons] at hidx
    rw [List.flatMap_cons]
    by_cases hac : a = c
    · rw [if_pos (by simp [hac])] at hidx
      have hi0 : i = 0 := (Option.some.inj hidx).symm
      subst hi0
      subst hac
      rw [indexOf?_append_some hinB]
      congr 1
      omega
    · rw [if_neg (by simp [hac])] at hidx
      obtain ⟨i', hi', rfl⟩ := Option.map_eq_some'.mp hidx
      have hwa : w ∉ B a := hnot a (by simp) hac
      rw [indexOf?_append_skip hwa
        (ih c w i' r hi' (fun b hb => hlen b (by simp [hb]))
          (fun b hb hbc => hnot b (by simp [hb]) hbc) hinB)]
      rw [hlen a (by simp)]
      congr 1
      simp only [Nat.succ_eq_add_one]
      ring

theorem permsOfAux_rank : ∀ (w s : List Nat), List.Sorted (· < ·) s → w.Perm s →
    (permsOfAux s.length s).indexOf? w = some (rankOf w s) := by
  intro w
  induction w with
  | nil =>
    intro s _ hperm
    have h0 : s = [] := hperm.symm.eq_nil
    subst h0
    rfl
  | cons c rest ih =>
    intro s hs hperm
    have hcs : c ∈ s := hperm.mem_iff.mp (by simp)
    have hslen : s.length = rest.length + 1 := by
      rw [← hperm.length_eq]
      rfl
    rw [hslen]
    show (s.flatMap (fun a => (permsOfAux rest.length (s.erase a)).map (a :: ·))).indexOf?
        (c :: rest) = some (rankOf (c :: rest) s)
    have hrest : rest.Perm (s.erase c) := by
      have h1 := hperm.erase c
      rw [List.erase_cons_head] at h1
      exact h1
    have hsE : List.Sorted (· < ·) (s.erase c) := hs.sublist (List.erase_sublist _ _)
    have hlenE : (s.erase c).length = rest.length := by
      rw [List.length_erase_of_mem hcs]
      omega
    have hinB : ((permsOfAux rest.length (s.erase c)).map (c :: ·)).indexOf? (c :: rest)
        = some (rankOf rest (s.erase c)) := by
      rw [indexOf?_map_cons]
      rw [← hlenE]
      exact ih _ hsE hrest
    have hidxc := sortedAsc_indexOf hs hcs
    have hscan := flatMap_indexOf_scan
      (B := fun a => (permsOfAux rest.length (s.erase a)).map (a :: ·))
      (K := rest.length.factorial) s c (c :: rest) _ _ hidxc ?hlenB ?hnotB hinB
    case hlenB =>
      intro a ha
      show ((permsOfAux rest.length (s.erase a)).map (a :: ·)).length = rest.length.factorial
      rw [List.length_map]
      apply permsOfAux_length
      rw [List.length_erase_of_mem ha]
      omega
    case hnotB =>
      intro a _ hac hmem
      obtain ⟨y, _, hy⟩ := List.mem_map.mp hmem
      exact hac (List.cons.injEq .. ▸ hy).1
    rw [hscan]
    show some (s.countP (fun y => decide (y < c)) * rest.length.factorial
        + rankOf rest (s.erase c))
      = some (s.countP (fun y => decide (y < c)) * (s.length - 1).factorial
        + rankOf rest (s.erase c))
    rw [show s.length - 1 = rest.length by omega]

theorem lehmer_rank {l : List Nat} {n : Nat} (hv : ValidImage l) (hn : l.length ≤ n) :
    ∃ w k, to_image l (some n) = some w ∧ lehmerP l n = some k ∧
      (permsOf n).indexOf? w = some k := by
  have hsplit : List.range' 1 n
      = List.range' 1 l.length ++ List.range' (l.length + 1) (n - l.length) := by
    have h := List.range'_append 1 l.length (n - l.length) 1
    rw [show (n - l.length) + l.length = n by omega] at h
    rw [← h]
    congr 2
    omega
  have himg : to_image l (some n) = some (l ++ List.range' (l.length + 1) (n - l.length)) := by
    simp only [to_image]
    rw [if_neg (show ¬ n < l.length by omega)]
  have hmapeq : (List.range' 1 n).map (applyP l)
      = l ++ List.range' (l.length + 1) (n - l.length) := by
    rw [hsplit, List.map_append]
    congr 1
    · exact word_applyP l
    · have hfix : ∀ x ∈ List.range' (l.length + 1) (n - l.length), applyP l x = x := by
        intro x hx
        rw [List.mem_range'_1] at hx
        exact applyP_out (by omega)
      rw [List.map_congr_left hfix, List.map_id' _]
  have hperm : (List.range' 1 n).Perm ((List.range' 1 n).map (applyP l)) := by
    rw [hmapeq]
    conv_lhs => rw [hsplit]
    exact (valid_perm_range hv).symm.append_right _
  have hsorted : List.Sorted (· < ·) (List.range' 1 n) := List.pairwise_lt_range' 1 n
  have hric : right_inversion_count l n = some (digitsAsc l (List.range' 1 n)) := by
    unfold right_inversion_count
    rw [if_neg (by omega)]
    exact ricLoop_asc _ _ hsorted hperm
  have hdW : digitsAsc l (List.range' 1 n)
      = digitsW (l ++ List.range' (l.length + 1) (n - l.length)) := by
    rw [← hmapeq]
    exact digitsAsc_digitsW l _
  have hlp : lehmerP l n = some (facAux
      (((digitsW (l ++ List.range' (l.length + 1) (n - l.length))).dropLast).reverse) 0) := by
    simp only [lehmerP, hric]
    rw [hdW]
    exact from_factorial_base_digitsW _
  rw [hmapeq] at hperm
  have hrank := permsOfAux_rank (l ++ List.range' (l.length + 1) (n - l.length))
    (List.range' 1 n) hsorted hperm.symm
  rw [List.length_range'] at hrank
  have hval := rankOf_eq_facAux (l ++ List.range' (l.length + 1) (n - l.length))
    (List.range' 1 n) hperm.symm
  refine ⟨_, _, himg, hlp, ?_⟩
  show (permsOf n).indexOf? (l ++ List.range' (l.length + 1) (n - l.length)) = _
  unfold permsOf
  rw [hrank, hval]

/-- C4: for `n ≥ degree(p)`, `lehmer(p, n)` is the zero-based index of the
length-`n` image word of `p` in the lexicographically ordered list of all
length-`n` permutation words (the permutations of degree at most `n`); in
particular `lehmer(Permutation(5,1,7,3,2,4,6), 7) = 2982`. -/
theorem C4_lehmer_is_rank {l : List Nat} {n : Nat} (hv : ValidImage l)
    (hn : l.length ≤ n) :
    (∃ w k, to_image l (some n) = some w ∧ lehmerP l n = some k ∧
      (permsOf n).indexOf? w = some k) ∧
    lehmerP [5, 1, 7, 3, 2, 4, 6] 7 = some 2982 :=
  ⟨lehmer_rank hv hn, by rfl⟩

/-- Witness for C4 at the concrete permutation `[2, 1]` with `n = 3`. -/
theorem C4_lehmer_is_rank_witness :
    (∃ w k, to_image [2, 1] (some 3) = some w ∧ lehmerP [2, 1] 3 = some k ∧
      (permsOf 3).indexOf? w = some k) ∧
    lehmerP [5, 1, 7, 3, 2, 4, 6] 7 = some 2982 :=
  C4_lehmer_is_rank (by decide) (by decide)

/-! ## C5: the `to_cycles` state machine -/

theorem foldl_zero_length : ∀ (P cmap : List Nat),
    (P.foldl (fun m v => m.set (v - 1) 0) cmap).length = cmap.length := by
  intro P
  induction P with
  | nil => intro cmap; rfl
  | cons v P' ih =>
    intro cmap
    show (P'.foldl (fun m v => m.set (v - 1) 0) (cmap.set (v - 1) 0)).length = cmap.length
    rw [ih, List.length_set]

theorem foldl_zero_getD : ∀ (P cmap : List Nat) (t : Nat),
    (∀ v ∈ P, 1 ≤ v ∧ v - 1 < cmap.length) →
    (P.foldl (fun m v => m.set (v - 1) 0) cmap).getD t 0
      = if ∃ v ∈ P, v - 1 = t then 0 else cmap.getD t 0 := by
  intro P
  induction P with
  | nil =>
    intro cmap t _
    rw [if_neg (by simp)]
    rfl
  | cons v P' ih =>
    intro cmap t hb
    show (P'.foldl (fun m v => m.set (v - 1) 0) (cmap.set (v - 1) 0)).getD t 0 = _
    rw [ih (cmap.set (v - 1) 0) t (by
      intro u hu
      have := hb u (by simp [hu])
      rw [List.length_set]
      exact this)]
    by_cases hP' : ∃ u ∈ P', u - 1 = t
    · rw [if_pos hP', if_pos (by obtain ⟨u, hu, hut⟩ := hP'; exact ⟨u, by simp [hu], hut⟩)]
    · rw [if_neg hP']
      by_cases hvt : v - 1 = t
      · rw [if_pos ⟨v, by simp, hvt⟩]
        rw [← hvt, getD_set_eq (hb v (by simp)).2]
      · rw [if_neg (by
          intro hcon
          obtain ⟨u, hu, hut⟩ := hcon
          rcases List.mem_cons.mp hu with rfl | hu'
          · exact hvt hut
          · exact hP' ⟨u, hu', hut⟩)]
        rw [getD_set_ne hvt]

theorem tcInner_path : ∀ (P cmap : List Nat) (start x fuel : Nat),
    P.length ≤ fuel →
    P.head? = some x →
    (∀ t, t < P.length → cmap.getD (P.getD t 0 - 1) 0
        = if t + 1 < P.length then P.getD (t + 1) 0 else start) →
    (∀ y ∈ P, 1 ≤ y) →
    P.Nodup →
    (∀ t, 1 ≤ t → t < P.length → P.getD t 0 ≠ start) →
    tcInner fuel cmap x start = (P, P.foldl (fun m v => m.set (v - 1) 0) cmap) := by
  intro P
  induction P with
  | nil =>
    intro cmap start x fuel _ hhead _ _ _ _
    exact absurd hhead (by simp)
  | cons a P' ih =>
    intro cmap start x fuel hfuel hhead hchain hpos hnd hnst
    have hxa : a = x := Option.some.inj hhead
    subst hxa
    cases fuel with
    | zero => exact absurd hfuel (by simp)
    | succ f =>
      have hread0 := hchain 0 (by simp)
      cases P' with
      | nil =>
        have hread : cmap.getD (a - 1) 0 = start := by
          rw [if_neg (by simp)] at hread0
          exact hread0
        show (let nxt := cmap.getD (a - 1) 0
          let cmap' := cmap.set (a - 1) 0
          if nxt = start then ([a], cmap')
          else
            let r := tcInner f cmap' nxt start
            (a :: r.1, r.2)) = ([a], [a].foldl (fun m v => m.set (v - 1) 0) cmap)
        show (if cmap.getD (a - 1) 0 = start then ([a], cmap.set (a - 1) 0)
          else _) = ([a], cmap.set (a - 1) 0)
        rw [if_pos hread]
      | cons b P'' =>
        have hread : cmap.getD (a - 1) 0 = b := by
          have h1 : (0 : Nat) + 1 < (a :: b :: P'').length := by
            simp only [List.length_cons]
            omega
          rw [if_pos h1] at hread0
          exact hread0
        have hbs : b ≠ start := by
          have h2 := hnst 1 (le_refl 1) (by simp only [List.length_cons]; omega)
          exact h2
        show (if cmap.getD (a - 1) 0 = start then ([a], cmap.set (a - 1) 0)
          else
            ((a :: (tcInner f (cmap.set (a - 1) 0) (cmap.getD (a - 1) 0) start).1,
              (tcInner f (cmap.set (a - 1) 0) (cmap.getD (a - 1) 0) start).2)))
          = (a :: b :: P'',
            (b :: P'').foldl (fun m v => m.set (v - 1) 0) (cmap.set (a - 1) 0))
        rw [hread, if_neg hbs]
        rw [ih (cmap.set (a - 1) 0) start b f
          (by simp only [List.length_cons] at hfuel ⊢; omega)
          rfl
          ?chain
          (fun y hy => hpos y (by simp [hy]))
          hnd.of_cons
          (fun t ht1 ht2 => by
            have := hnst (t + 1) (by omega) (by simp only [List.length_cons] at ht2 ⊢; omega)
            rw [show (a :: b :: P'').getD (t + 1) 0 = (b :: P'').getD t 0 from rfl] at this
            exact this)]
        case chain =>
          intro t ht
          have hmem : (b :: P'').getD t 0 ∈ b :: P'' := by
            rw [getD_eq_getElem ht]
            exact List.getElem_mem _
          have hne : (b :: P'').getD t 0 ≠ a := by
            intro he
            have := hnd.not_mem
            rw [← he] at this
            exact this hmem
          have hpos1 : 1 ≤ (b :: P'').getD t 0 := hpos _ (List.mem_cons_of_mem a hmem)
          have hpa : 1 ≤ a := hpos a (by simp)
          rw [getD_set_ne (by omega)]
          have := hchain (t + 1) (by simp only [List.length_cons] at ht ⊢; omega)
          rw [show (a :: b :: P'').getD (t + 1) 0 = (b :: P'').getD t 0 from rfl] at this
          rw [this]
          by_cases hlt : t + 1 < (b :: P'').length
          · rw [if_pos hlt, if_pos (show t + 1 + 1 < (a :: b :: P'').length by
              simp only [List.length_cons] at hlt ⊢
              omega)]
            rfl
          · rw [if_neg hlt, if_neg (show ¬ t + 1 + 1 < (a :: b :: P'').length by
              simp only [List.length_cons] at hlt ⊢
              omega)]

theorem nodup_indexOf_getD : ∀ (c : List Nat), c.Nodup → ∀ k, k < c.length →
    c.indexOf? (c.getD k 0) = some k := by
  intro c
  induction c with
  | nil =>
    intro _ k hk
    simp at hk
  | cons a t ih =>
    intro hnd k hk
    cases k with
    | zero =>
      rw [List.indexOf?_cons, if_pos (by simp [getD_cons_zero_eq])]
    | succ k' =>
      rw [getD_cons_succ_eq, List.indexOf?_cons]
      have hmem : t.getD k' 0 ∈ t := by
        rw [getD_eq_getElem (by simp only [List.length_cons] at hk; omega)]
        exact List.getElem_mem _
      have hne : a ≠ t.getD k' 0 := by
        intro he
        exact hnd.not_mem (he ▸ hmem)
      rw [if_neg (by simp only [beq_iff_eq]; exact hne)]
      rw [ih hnd.of_cons k' (by simp only [List.length_cons] at hk; omega)]
      rfl

theorem chain_cycMap {l c : List Nat} (hne : c ≠ []) (hnd : c.Nodup)
    (hchain : ∀ t, t + 1 < c.length → applyP l (c.getD t 0) = c.getD (t + 1) 0)
    (hlast : applyP l (c.getD (c.length - 1) 0) = c.getD 0 0) :
    ∀ x ∈ c, cycMap c x = applyP l x := by
  intro x hx
  obtain ⟨k, hk, hxv⟩ := List.mem_iff_getElem.mp hx
  have hgd : c.getD k 0 = x := by
    rw [getD_eq_getElem hk, hxv]
  rw [← hgd]
  unfold cycMap
  rw [nodup_indexOf_getD c hnd k hk]
  show c.getD ((k + 1) % c.length) 0 = applyP l (c.getD k 0)
  rcases Nat.lt_or_ge (k + 1) c.length with hlt | hge
  · rw [Nat.mod_eq_of_lt hlt]
    exact (hchain k hlt).symm
  · have hmod : (k + 1) % c.length = 0 := by
      rw [show k + 1 = c.length by omega]
      exact Nat.mod_self _
    rw [hmod, show k = c.length - 1 by omega]
    exact hlast.symm

theorem indexOf?_eq_none_of_not_mem : ∀ {c : List Nat} {x : Nat}, x ∉ c →
    c.indexOf? x = none := by
  intro c
  induction c with
  | nil => intro x _; rfl
  | cons a t ih =>
    intro x hx
    rw [List.indexOf?_cons]
    have hax : a ≠ x := by
      intro he
      exact hx (he ▸ List.mem_cons_self a t)
    rw [if_neg (by simp only [beq_iff_eq]; exact hax)]
    rw [ih (fun h => hx (List.mem_cons_of_mem a h))]
    rfl

theorem indexOf?_getD : ∀ {c : List Nat} {x : Nat} {k : Nat},
    c.indexOf? x = some k → c.getD k 0 = x ∧ k < c.length := by
  intro c
  induction c with
  | nil =>
    intro x k h
    exact absurd h (by simp [List.indexOf?, List.findIdx?])
  | cons a t ih =>
    intro x k h
    rw [List.indexOf?_cons] at h
    by_cases hax : a = x
    · rw [if_pos (by simp [hax])] at h
      have hk0 : k = 0 := (Option.some.inj h).symm
      subst hk0
      exact ⟨by rw [getD_cons_zero_eq, hax], by simp⟩
    · rw [if_neg (by simp [hax])] at h
      obtain ⟨k', hk', rfl⟩ := Option.map_eq_some'.mp h
      obtain ⟨h1, h2⟩ := ih hk'
      refine ⟨by rw [show Nat.succ k' = k' + 1 from rfl, getD_cons_succ_eq]; exact h1, ?_⟩
      simp only [List.length_cons]
      omega

theorem iterate_applyP_mem {l : List Nat} (hv : ValidImage l) {s : Nat}
    (h1 : 1 ≤ s) (h2 : s ≤ l.length) :
    ∀ k, 1 ≤ (applyP l)^[k] s ∧ (applyP l)^[k] s ≤ l.length := by
  intro k
  induction k with
  | zero => exact ⟨h1, h2⟩
  | succ k ih =>
    rw [Function.iterate_succ_apply']
    exact applyP_mem_range hv ih.1 ih.2

theorem orbit_return {l : List Nat} (hv : ValidImage l) {s : Nat}
    (h1 : 1 ≤ s) (h2 : s ≤ l.length) :
    ∃ m, 0 < m ∧ m ≤ l.length ∧ (applyP l)^[m] s = s := by
  have hmaps : ∀ k ∈ Finset.range (l.length + 1),
      (applyP l)^[k] s ∈ Finset.Icc 1 l.length := by
    intro k _
    rw [Finset.mem_Icc]
    exact iterate_applyP_mem hv h1 h2 k
  have hcard : (Finset.Icc 1 l.length).card < (Finset.range (l.length + 1)).card := by
    rw [Nat.card_Icc, Finset.card_range]
    omega
  obtain ⟨a, _, b, _, hab, heq⟩ :=
    Finset.exists_ne_map_eq_of_card_lt_of_maps_to hcard hmaps
  have hkey : ∀ u v : Nat, u < v → (applyP l)^[u] s = (applyP l)^[v] s →
      (applyP l)^[v - u] s = s := by
    intro u v huv he
    have hinj : Function.Injective (applyP l)^[u] := (applyP_inj hv).iterate u
    apply hinj
    rw [← Function.iterate_add_apply]
    rw [show u + (v - u) = v by omega]
    exact he.symm
  rename_i ha hb
  rw [Finset.mem_range] at ha hb
  rcases Nat.lt_or_ge a b with h | h
  · exact ⟨b - a, by omega, by omega, hkey a b h heq⟩
  · have hba : b < a := by omega
    exact ⟨a - b, by omega, by omega, hkey b a hba heq.symm⟩

theorem orbit_exists {l : List Nat} (hv : ValidImage l) {s : Nat}
    (h1 : 1 ≤ s) (h2 : s ≤ l.length) (hnf : applyP l s ≠ s) :
    ∃ P : List Nat, P ≠ [] ∧ P.head? = some s ∧ P.Nodup ∧ P.length ≤ l.length ∧
      (∀ x ∈ P, 1 ≤ x ∧ x ≤ l.length ∧ applyP l x ≠ x) ∧
      (∀ t, t + 1 < P.length → applyP l (P.getD t 0) = P.getD (t + 1) 0) ∧
      applyP l (P.getD (P.length - 1) 0) = s ∧
      (∀ x ∈ P, applyP l x ∈ P) ∧
      (∀ t, 1 ≤ t → t < P.length → P.getD t 0 ≠ s) := by
  have hex : ∃ m, 0 < m ∧ (applyP l)^[m] s = s := by
    obtain ⟨m, hm1, _, hm3⟩ := orbit_return hv h1 h2
    exact ⟨m, hm1, hm3⟩
  set m₀ := Nat.find hex with hm₀def
  obtain ⟨hm₀pos, hm₀ret⟩ := Nat.find_spec hex
  rw [← hm₀def] at hm₀pos hm₀ret
  have hm₀le : m₀ ≤ l.length := by
    obtain ⟨m, hm1, hm2, hm3⟩ := orbit_return hv h1 h2
    have := Nat.find_min' hex ⟨hm1, hm3⟩
    omega
  have hdist : ∀ u v, u < v → v < m₀ → (applyP l)^[u] s ≠ (applyP l)^[v] s := by
    intro u v huv hvm he
    have hinj : Function.Injective (applyP l)^[u] := (applyP_inj hv).iterate u
    have h3 : (applyP l)^[v - u] s = s := by
      apply hinj
      rw [← Function.iterate_add_apply]
      rw [show u + (v - u) = v by omega]
      exact he.symm
    exact Nat.find_min hex (show v - u < m₀ by omega) ⟨by omega, h3⟩
  refine ⟨(List.range m₀).map (fun k => (applyP l)^[k] s), ?_, ?_, ?_, ?_, ?_, ?_, ?_, ?_, ?_⟩
  · intro h0
    have : ((List.range m₀).map (fun k => (applyP l)^[k] s)).length = 0 := by
      rw [h0]
      rfl
    rw [List.length_map, List.length_range] at this
    omega
  · rw [show m₀ = (m₀ - 1) + 1 by omega]
    rw [List.range_succ_eq_map, List.map_cons]
    rfl
  · rw [List.Nodup, List.pairwise_iff_getElem]
    intro u v hu hv huv
    rw [List.length_map, List.length_range] at hu hv
    rw [List.getElem_map, List.getElem_map, List.getElem_range, List.getElem_range]
    exact hdist u v huv hv
  · rw [List.length_map, List.length_range]
    exact hm₀le
  · intro x hx
    obtain ⟨k, hk, rfl⟩ := List.mem_map.mp hx
    rw [List.mem_range] at hk
    refine ⟨(iterate_applyP_mem hv h1 h2 k).1, (iterate_applyP_mem hv h1 h2 k).2, ?_⟩
    intro hfix
    have hstep : (applyP l)^[k + 1] s = (applyP l)^[k] s := by
      rw [Function.iterate_succ_apply']
      exact hfix
    rcases Nat.lt_or_ge (k + 1) m₀ with hlt | hge
    · exact hdist k (k + 1) (by omega) hlt hstep.symm
    · have hk1 : k + 1 = m₀ := by omega
      have hks : (applyP l)^[k] s = s := by
        have h6 : (applyP l)^[k + 1] s = s := by
          rw [hk1]
          exact hm₀ret
        rw [← hstep]
        exact h6
      rcases Nat.eq_zero_or_pos k with hk0 | hkpos
      · subst hk0
        have : m₀ = 1 := by omega
        apply hnf
        have h5 := hm₀ret
        rw [this] at h5
        simpa using h5
      · exact hdist 0 k hkpos hk (by simpa using hks.symm)
  · intro t ht
    rw [List.length_map, List.length_range] at ht
    rw [getD_eq_getElem (by rw [List.length_map, List.length_range]; omega),
      getD_eq_getElem (by rw [List.length_map, List.length_range]; omega)]
    rw [List.getElem_map, List.getElem_map, List.getElem_range, List.getElem_range]
    exact (Function.iterate_succ_apply' (applyP l) t s).symm
  · rw [List.length_map, List.length_range]
    rw [getD_eq_getElem (by rw [List.length_map, List.length_range]; omega)]
    rw [List.getElem_map, List.getElem_range]
    rw [(Function.iterate_succ_apply' (applyP l) (m₀ - 1) s).symm]
    rw [show (m₀ - 1).succ = m₀ by omega]
    exact hm₀ret
  · intro x hx
    obtain ⟨k, hk, rfl⟩ := List.mem_map.mp hx
    rw [List.mem_range] at hk
    rw [(Function.iterate_succ_apply' (applyP l) k s).symm]
    rcases Nat.lt_or_ge (k + 1) m₀ with hlt | hge
    · exact List.mem_map.mpr ⟨k + 1, List.mem_range.mpr hlt, rfl⟩
    · have hk1 : k + 1 = m₀ := by omega
      rw [show k.succ = m₀ by omega, hm₀ret]
      exact List.mem_map.mpr ⟨0, List.mem_range.mpr (by omega), rfl⟩
  · intro t ht1 ht2
    rw [List.length_map, List.length_range] at ht2
    rw [getD_eq_getElem (by rw [List.length_map, List.length_range]; omega)]
    rw [List.getElem_map, List.getElem_range]
    intro he
    exact hdist 0 t (by omega) ht2 (by simpa using he.symm)

theorem alive_of_alive_image {l cmap : List Nat} (hv : ValidImage l)
    (hdeadF : ∀ v, 1 ≤ v → v ≤ l.length → cmap.getD (v - 1) 0 = 0 →
      cmap.getD (applyP l v - 1) 0 = 0) :
    ∀ v, 1 ≤ v → v ≤ l.length → cmap.getD (v - 1) 0 ≠ 0 →
      cmap.getD (applyP l v - 1) 0 ≠ 0 := by
  have hS : ∀ v ∈ (Finset.Icc 1 l.length).filter (fun v => cmap.getD (v - 1) 0 = 0),
      applyP l v ∈ (Finset.Icc 1 l.length).filter (fun v => cmap.getD (v - 1) 0 = 0) := by
    intro v hvmem
    rw [Finset.mem_filter, Finset.mem_Icc] at hvmem ⊢
    obtain ⟨⟨hb1, hb2⟩, hdead⟩ := hvmem
    exact ⟨by
      have := applyP_mem_range hv hb1 hb2
      omega, hdeadF v hb1 hb2 hdead⟩
  set S := (Finset.Icc 1 l.length).filter (fun v => cmap.getD (v - 1) 0 = 0) with hSdef
  have himg : S.image (applyP l) = S := by
    apply Finset.eq_of_subset_of_card_le
    · intro y hy
      rw [Finset.mem_image] at hy
      obtain ⟨v, hv2, rfl⟩ := hy
      exact hS v hv2
    · rw [Finset.card_image_of_injOn (Function.Injective.injOn (applyP_inj hv))]
  intro v hb1 hb2 halive hcon
  apply halive
  have hFin : applyP l v ∈ S := by
    rw [hSdef, Finset.mem_filter, Finset.mem_Icc]
    have := applyP_mem_range hv hb1 hb2
    exact ⟨by omega, hcon⟩
  rw [← himg, Finset.mem_image] at hFin
  obtain ⟨u, huS, hue⟩ := hFin
  have huv : u = v := applyP_inj hv hue
  subst huv
  rw [hSdef, Finset.mem_filter] at huS
  exact huS.2

theorem tcLoop_spec {l : List Nat} (hv : ValidImage l) :
    ∀ (n : Nat) (cmap : List Nat) (i : Nat),
      cmap.length = l.length →
      n = l.length - i →
      (∀ t, t < l.length → cmap.getD t 0 = l.getD t 0 ∨ cmap.getD t 0 = 0) →
      (∀ v, 1 ≤ v → v ≤ l.length → cmap.getD (v - 1) 0 = 0 →
        cmap.getD (applyP l v - 1) 0 = 0) →
      (∀ v, 1 ≤ v → v ≤ l.length → cmap.getD (v - 1) 0 = 0 → applyP l v ≠ v) →
      (∀ v, 1 ≤ v → v ≤ i → cmap.getD (v - 1) 0 = 0 ∨ applyP l v = v) →
      (∀ c ∈ tcLoop n cmap i, IsCycleOf l c) ∧
      List.Pairwise (fun c d => ∀ x ∈ c, x ∉ d) (tcLoop n cmap i) ∧
      (∀ v, (∃ c ∈ tcLoop n cmap i, v ∈ c) ↔
        (1 ≤ v ∧ v ≤ l.length ∧ applyP l v ≠ v ∧ cmap.getD (v - 1) 0 ≠ 0)) := by
  intro n
  induction n with
  | zero =>
    intro cmap i hlen hni hmix hdF hdnf hproc
    refine ⟨fun c hc => absurd hc (List.not_mem_nil c), List.Pairwise.nil, ?_⟩
    intro v
    constructor
    · intro hcon
      obtain ⟨c, hc, _⟩ := hcon
      exact absurd hc (List.not_mem_nil c)
    · intro hcon
      obtain ⟨hb1, hb2, hnf, halive⟩ := hcon
      exfalso
      rcases hproc v hb1 (by omega) with hdead | hfix
      · exact halive hdead
      · exact hnf hfix
  | succ n ih =>
    intro cmap i hlen hni hmix hdF hdnf hproc
    by_cases hcond : cmap.getD i 0 = 0 ∨ cmap.getD i 0 = i + 1
    · have heq : tcLoop (n + 1) cmap i = tcLoop n cmap (i + 1) := by
        show (if cmap.getD i 0 = 0 ∨ cmap.getD i 0 = i + 1
          then tcLoop n cmap (i + 1) else _) = _
        rw [if_pos hcond]
      rw [heq]
      apply ih cmap (i + 1) hlen (by omega) hmix hdF hdnf
      intro v h1 h2
      rcases Nat.lt_or_ge v (i + 1) with hvi | hvi
      · exact hproc v h1 (by omega)
      · have hv1 : v = i + 1 := by omega
        subst hv1
        rcases hcond with h0 | hfix
        · left
          exact h0
        · right
          have hne0 : cmap.getD i 0 ≠ 0 := by
            rw [hfix]
            omega
          have hlDi : l.getD i 0 = i + 1 := by
            rcases hmix i (by omega) with he | h0'
            · rw [← he, hfix]
            · exact absurd h0' hne0
          rw [applyP_in (by omega) (by omega)]
          rw [show i + 1 - 1 = i from rfl]
          exact hlDi
    · push_neg at hcond
      obtain ⟨hne0, hnei⟩ := hcond
      have hiD : i < l.length := by omega
      have hlDi : cmap.getD i 0 = l.getD i 0 := by
        rcases hmix i hiD with he | h0
        · exact he
        · exact absurd h0 hne0
      have hnfs : applyP l (i + 1) ≠ i + 1 := by
        rw [applyP_in (by omega) (by omega), show i + 1 - 1 = i from rfl]
        rw [← hlDi]
        exact hnei
      obtain ⟨P, hPne, hPhead, hPnd, hPlen, hPmem, hPchain, hPlast, hPclosed, hPnst⟩ :=
        orbit_exists hv (show 1 ≤ i + 1 by omega) (show i + 1 ≤ l.length by omega) hnfs
      have h00 : P.getD 0 0 = i + 1 := by
        cases P with
        | nil => exact absurd rfl hPne
        | cons a P' =>
          rw [getD_cons_zero_eq]
          exact Option.some.inj hPhead
      have halive : ∀ t, t < P.length → cmap.getD (P.getD t 0 - 1) 0 ≠ 0 := by
        intro t
        induction t with
        | zero =>
          intro _
          rw [h00, show i + 1 - 1 = i from rfl]
          exact hne0
        | succ t iht =>
          intro ht
          have hstep := hPchain t (by omega)
          have hprev := iht (by omega)
          have hPt := hPmem (P.getD t 0) (by
            rw [getD_eq_getElem (show t < P.length by omega)]
            exact List.getElem_mem _)
          rw [← hstep]
          exact alive_of_alive_image hv hdF (P.getD t 0) hPt.1 hPt.2.1 hprev
      have halivemem : ∀ x ∈ P, cmap.getD (x - 1) 0 ≠ 0 := by
        intro x hx
        obtain ⟨t, ht, hxv⟩ := List.mem_iff_getElem.mp hx
        have h := halive t ht
        rw [getD_eq_getElem ht, hxv] at h
        exact h
      have hreads : ∀ t, t < P.length → cmap.getD (P.getD t 0 - 1) 0
          = if t + 1 < P.length then P.getD (t + 1) 0 else i + 1 := by
        intro t ht
        have hPt := hPmem (P.getD t 0) (by
          rw [getD_eq_getElem ht]
          exact List.getElem_mem _)
        have hcl : cmap.getD (P.getD t 0 - 1) 0 = l.getD (P.getD t 0 - 1) 0 := by
          rcases hmix (P.getD t 0 - 1) (by omega) with he | h0
          · exact he
          · exact absurd h0 (halive t ht)
        rw [hcl]
        have happ : l.getD (P.getD t 0 - 1) 0 = applyP l (P.getD t 0) := by
          rw [applyP_in hPt.1 hPt.2.1]
        rw [happ]
        by_cases hlt : t + 1 < P.length
        · rw [if_pos hlt]
          exact hPchain t hlt
        · rw [if_neg hlt]
          have ht1 : t = P.length - 1 := by omega
          rw [ht1]
          exact hPlast
      have hinner := tcInner_path P cmap (i + 1) (i + 1) cmap.length
        (by rw [hlen]; exact hPlen) hPhead hreads (fun y hy => (hPmem y hy).1) hPnd hPnst
      have heq : tcLoop (n + 1) cmap i
          = P :: tcLoop n (P.foldl (fun m v => m.set (v - 1) 0) cmap) (i + 1) := by
        show (if cmap.getD i 0 = 0 ∨ cmap.getD i 0 = i + 1 then _
          else ((tcInner cmap.length cmap (i + 1) (i + 1)).1 ::
            tcLoop n (tcInner cmap.length cmap (i + 1) (i + 1)).2 (i + 1))) = _
        rw [if_neg (by push_neg; exact ⟨hne0, hnei⟩)]
        rw [hinner]
      set cmap' := P.foldl (fun m v => m.set (v - 1) 0) cmap with hcmdef
      have hlen' : cmap'.length = l.length := by
        rw [hcmdef, foldl_zero_length, hlen]
      have hPbnd : ∀ v ∈ P, 1 ≤ v ∧ v - 1 < cmap.length := by
        intro v hvP
        have h := hPmem v hvP
        refine ⟨h.1, ?_⟩
        rw [hlen]
        omega
      have hget' : ∀ t, cmap'.getD t 0 = if ∃ v ∈ P, v - 1 = t then 0 else cmap.getD t 0 := by
        intro t
        rw [hcmdef]
        exact foldl_zero_getD P cmap t hPbnd
      have hmemPos : ∀ v, 1 ≤ v → ((∃ u ∈ P, u - 1 = v - 1) ↔ v ∈ P) := by
        intro v hv1
        constructor
        · intro hcon
          obtain ⟨u, huP, hue⟩ := hcon
          have hu1 := (hPmem u huP).1
          have huv : u = v := by omega
          rw [← huv]
          exact huP
        · intro hvP
          exact ⟨v, hvP, rfl⟩
      have hdead' : ∀ v, 1 ≤ v →
          (cmap'.getD (v - 1) 0 = 0 ↔ (v ∈ P ∨ cmap.getD (v - 1) 0 = 0)) := by
        intro v hv1
        rw [hget' (v - 1)]
        by_cases hvP : v ∈ P
        · rw [if_pos ((hmemPos v hv1).mpr hvP)]
          exact ⟨fun _ => Or.inl hvP, fun _ => rfl⟩
        · rw [if_neg (fun hcon => hvP ((hmemPos v hv1).mp hcon))]
          constructor
          · intro h0
            exact Or.inr h0
          · intro h
            rcases h with h | h
            · exact absurd h hvP
            · exact h
      have hih := ih cmap' (i + 1) hlen' (by omega) ?mix2 ?dF2 ?dnf2 ?proc2
      case mix2 =>
        intro t ht
        rw [hget' t]
        by_cases hP : ∃ v ∈ P, v - 1 = t
        · rw [if_pos hP]
          exact Or.inr rfl
        · rw [if_neg hP]
          exact hmix t ht
      case dF2 =>
        intro v h1 h2 hd
        rw [hdead' v h1] at hd
        have hFb := applyP_mem_range hv h1 h2
        rw [hdead' (applyP l v) hFb.1]
        rcases hd with hvP | hdead
        · exact Or.inl (hPclosed v hvP)
        · exact Or.inr (hdF v h1 h2 hdead)
      case dnf2 =>
        intro v h1 h2 hd
        rw [hdead' v h1] at hd
        rcases hd with hvP | hdead
        · exact (hPmem v hvP).2.2
        · exact hdnf v h1 h2 hdead
      case proc2 =>
        intro v h1 h2
        rcases Nat.lt_or_ge v (i + 1) with hvi | hvi
        · rcases hproc v h1 (by omega) with hdead | hfix
          · left
            rw [hdead' v h1]
            exact Or.inr hdead
          · exact Or.inr hfix
        · have hv1 : v = i + 1 := by omega
          subst hv1
          left
          rw [hdead' _ h1]
          left
          cases P with
          | nil => exact absurd rfl hPne
          | cons a P' =>
            have ha : a = i + 1 := Option.some.inj hPhead
            exact List.mem_cons.mpr (Or.inl ha.symm)
      obtain ⟨hihA, hihB, hihC⟩ := hih
      rw [heq]
      refine ⟨?_, ?_, ?_⟩
      · intro c hc
        rcases List.mem_cons.mp hc with rfl | hcrest
        · refine ⟨hPne, hPnd, hPmem, hPclosed, ?_⟩
          apply chain_cycMap hPne hPnd hPchain
          rw [h00]
          exact hPlast
        · exact hihA c hcrest
      · apply List.Pairwise.cons ?_ hihB
        intro c hcrest x hxP
        intro hxc
        have h := (hihC x).mp ⟨c, hcrest, hxc⟩
        have hdead : cmap'.getD (x - 1) 0 = 0 := by
          rw [hdead' x (hPmem x hxP).1]
          exact Or.inl hxP
        exact h.2.2.2 hdead
      · intro v
        constructor
        · intro hcon
          obtain ⟨c, hc, hvc⟩ := hcon
          rcases List.mem_cons.mp hc with rfl | hcrest
          · have hm := hPmem v hvc
            exact ⟨hm.1, hm.2.1, hm.2.2, halivemem v hvc⟩
          · have h := (hihC v).mp ⟨c, hcrest, hvc⟩
            refine ⟨h.1, h.2.1, h.2.2.1, ?_⟩
            intro h0
            apply h.2.2.2
            rw [hdead' v h.1]
            exact Or.inr h0
        · intro hcon
          obtain ⟨h1, h2, hnf, halv⟩ := hcon
          by_cases hvP : v ∈ P
          · exact ⟨P, by simp, hvP⟩
          · have halv' : cmap'.getD (v - 1) 0 ≠ 0 := by
              intro h0
              rw [hdead' v h1] at h0
              rcases h0 with h | h
              · exact hvP h
              · exact halv h
            obtain ⟨c, hc, hvc⟩ := (hihC v).mpr ⟨h1, h2, hnf, halv'⟩
            exact ⟨c, List.mem_cons_of_mem P hc, hvc⟩

theorem foldr_max_ge : ∀ (c : List Nat), ∀ x ∈ c, x ≤ c.foldr max 0 := by
  intro c
  induction c with
  | nil =>
    intro x hx
    simp at hx
  | cons a t ih =>
    intro x hx
    show x ≤ max a (t.foldr max 0)
    rcases List.mem_cons.mp hx with rfl | hxt
    · exact le_max_left _ _
    · exact le_trans (ih x hxt) (le_max_right _ _)

theorem indexOf?_of_mem : ∀ {c : List Nat} {x : Nat}, x ∈ c →
    ∃ k, c.indexOf? x = some k := by
  intro c
  induction c with
  | nil =>
    intro x hx
    simp at hx
  | cons a t ih =>
    intro x hx
    rw [List.indexOf?_cons]
    by_cases hax : a = x
    · exact ⟨0, by rw [if_pos (by simp [hax])]⟩
    · rw [if_neg (by simp only [beq_iff_eq]; exact hax)]
      have hxt : x ∈ t := by
        rcases List.mem_cons.mp hx with h | h
        · exact absurd h.symm hax
        · exact h
      obtain ⟨k, hk⟩ := ih hxt
      exact ⟨k + 1, by rw [hk]; rfl⟩

theorem cycMap_mem {c : List Nat} {x : Nat} (hx : x ∈ c) : cycMap c x ∈ c := by
  obtain ⟨k, hk⟩ := indexOf?_of_mem hx
  simp only [cycMap, hk]
  have hlen : 0 < c.length := List.length_pos.mpr (by
    intro h
    rw [h] at hx
    simp at hx)
  have hm : (k + 1) % c.length < c.length := Nat.mod_lt _ hlen
  rw [getD_eq_getElem hm]
  exact List.getElem_mem _

theorem cycMap_not_mem {c : List Nat} {x : Nat} (hx : x ∉ c) : cycMap c x = x := by
  simp only [cycMap, indexOf?_eq_none_of_not_mem hx]

theorem cycMap_inj {c : List Nat} (hnd : c.Nodup) : Function.Injective (cycMap c) := by
  intro x y he
  by_cases hx : x ∈ c <;> by_cases hy : y ∈ c
  · obtain ⟨kx, hkx⟩ := indexOf?_of_mem hx
    obtain ⟨ky, hky⟩ := indexOf?_of_mem hy
    obtain ⟨hgx, hlx⟩ := indexOf?_getD hkx
    obtain ⟨hgy, hly⟩ := indexOf?_getD hky
    simp only [cycMap, hkx, hky] at he
    have hmx : (kx + 1) % c.length < c.length := Nat.mod_lt _ (by omega)
    have hmy : (ky + 1) % c.length < c.length := Nat.mod_lt _ (by omega)
    have hkk : (kx + 1) % c.length = (ky + 1) % c.length := by
      by_contra hne
      exact getD_ne_of_idx_ne hnd hmx hmy hne he
    have hkxy : kx = ky := by
      rcases Nat.lt_or_ge (kx + 1) c.length with h1 | h1 <;>
        rcases Nat.lt_or_ge (ky + 1) c.length with h2 | h2
      · rw [Nat.mod_eq_of_lt h1, Nat.mod_eq_of_lt h2] at hkk
        omega
      · have h3 : ky + 1 = c.length := by omega
        rw [Nat.mod_eq_of_lt h1, h3, Nat.mod_self] at hkk
        omega
      · have h3 : kx + 1 = c.length := by omega
        rw [h3, Nat.mod_self, Nat.mod_eq_of_lt h2] at hkk
        omega
      · omega
    rw [← hgx, ← hgy, hkxy]
  · exfalso
    have h1 : cycMap c x ∈ c := cycMap_mem hx
    rw [he, cycMap_not_mem hy] at h1
    exact hy h1
  · exfalso
    have h1 : cycMap c y ∈ c := cycMap_mem hy
    rw [← he, cycMap_not_mem hx] at h1
    exact hx h1
  · rw [cycMap_not_mem hx, cycMap_not_mem hy] at he
    exact he

theorem cycleP_sem {c : List Nat} (hpos : ∀ x ∈ c, 1 ≤ x) (hnd : c.Nodup) :
    ∃ q, cycleP c = some q ∧ ValidImage q ∧ Canonical q ∧
      ∀ x, applyP q x = cycMap c x := by
  have hMax : ∀ x ∈ c, x ≤ c.foldr max 0 := foldr_max_ge c
  have hbounds : ∀ x, 1 ≤ x → x ≤ c.foldr max 0 →
      1 ≤ cycMap c x ∧ cycMap c x ≤ c.foldr max 0 := by
    intro x h1 h2
    by_cases hx : x ∈ c
    · have hm := cycMap_mem hx
      exact ⟨hpos _ hm, hMax _ hm⟩
    · rw [cycMap_not_mem hx]
      exact ⟨h1, h2⟩
  have hvword : ValidImage ((List.range' 1 (c.foldr max 0)).map (cycMap c)) := by
    constructor
    · intro y hy
      obtain ⟨x, hx, rfl⟩ := List.mem_map.mp hy
      rw [List.mem_range'_1] at hx
      rw [List.length_map, List.length_range']
      exact hbounds x hx.1 (by omega)
    · exact (List.nodup_range' _ _).map (cycMap_inj hnd)
  have hsome : cycleP c
      = some (trimFixed ((List.range' 1 (c.foldr max 0)).map (cycMap c))) := by
    unfold cycleP
    rw [if_pos ⟨hpos, hnd⟩, mkPerm_eq_some hvword]
  obtain ⟨hvq, hcq, happ, _⟩ := mkPerm_some_elim (mkPerm_eq_some hvword)
  refine ⟨_, hsome, hvq, hcq, ?_⟩
  intro x
  rw [happ]
  by_cases hin : 1 ≤ x ∧ x ≤ c.foldr max 0
  · rw [applyP_in (l := (List.range' 1 (c.foldr max 0)).map (cycMap c)) hin.1
      (by rw [List.length_map, List.length_range']; exact hin.2)]
    rw [getD_eq_getElem (by rw [List.length_map, List.length_range']; omega)]
    rw [List.getElem_map, List.getElem_range']
    congr 1
    omega
  · rw [applyP_out (by rw [List.length_map, List.length_range']; exact hin)]
    have hxc : x ∉ c := by
      intro hmem
      exact hin ⟨hpos x hmem, hMax x hmem⟩
    rw [cycMap_not_mem hxc]

theorem fcStep_some {p c q : List Nat} (hq : cycleP c = some q) :
    fcStep (some p) c = mulP p q := by
  unfold fcStep
  rw [hq]

theorem fold_cycles {l : List Nat} :
    ∀ (cycles : List (List Nat)) (acc : List Nat),
      (∀ c ∈ cycles, IsCycleOf l c) →
      List.Pairwise (fun c d => ∀ x ∈ c, x ∉ d) cycles →
      ValidImage acc → Canonical acc →
      (∀ x, (∃ c ∈ cycles, x ∈ c) → applyP acc x = x) →
      ∃ w, cycles.foldl fcStep (some acc) = some w ∧
        ValidImage w ∧ Canonical w ∧
        (∀ x, (∃ c ∈ cycles, x ∈ c) → applyP w x = applyP l x) ∧
        (∀ x, ¬(∃ c ∈ cycles, x ∈ c) → applyP w x = applyP acc x) := by
  intro cycles
  induction cycles with
  | nil =>
    intro acc _ _ hva hca _
    refine ⟨acc, rfl, hva, hca, ?_, ?_⟩
    · intro x hx
      obtain ⟨c, hc, _⟩ := hx
      exact absurd hc (List.not_mem_nil c)
    · intro x _
      rfl
  | cons c rest ih =>
    intro acc hcyc hdisj hva hca hfix
    obtain ⟨hcne, hcnd, hcmem, hcclosed, hccyc⟩ := hcyc c (by simp)
    obtain ⟨q, hq, hvq, hcq2, happq⟩ := cycleP_sem (fun x hx => (hcmem x hx).1) hcnd
    obtain ⟨r, hr, hvr, hcr, happr⟩ := mulP_spec hva hvq
    have hstep : fcStep (some acc) c = some r := by
      rw [fcStep_some hq]
      exact hr
    have hrfix : ∀ x, (∃ c' ∈ rest, x ∈ c') → applyP r x = x := by
      intro x hx
      obtain ⟨c', hc', hxc'⟩ := hx
      rw [happr]
      have hxnc : x ∉ c := by
        intro hxc
        exact (List.pairwise_cons.mp hdisj).1 c' hc' x hxc hxc'
      rw [happq, cycMap_not_mem hxnc]
      exact hfix x ⟨c', List.mem_cons_of_mem c hc', hxc'⟩
    obtain ⟨w, hwfold, hvw, hcw, hwcov, hwunc⟩ := ih r
      (fun c' hc' => hcyc c' (List.mem_cons_of_mem c hc'))
      (List.pairwise_cons.mp hdisj).2 hvr hcr hrfix
    refine ⟨w, ?_, hvw, hcw, ?_, ?_⟩
    · rw [List.foldl_cons, hstep]
      exact hwfold
    · intro x hx
      obtain ⟨c', hc', hxc'⟩ := hx
      rcases List.mem_cons.mp hc' with rfl | hcrest
      · have hxnr : ¬(∃ d ∈ rest, x ∈ d) := by
          intro hcon
          obtain ⟨d, hd, hxd⟩ := hcon
          exact (List.pairwise_cons.mp hdisj).1 d hd x hxc' hxd
        rw [hwunc x hxnr, happr, happq, hccyc x hxc']
        exact hfix (applyP l x) ⟨c', List.mem_cons_self c' rest, hcclosed x hxc'⟩
      · exact hwcov x ⟨c', hcrest, hxc'⟩
    · intro x hx
      have hxnr : ¬(∃ d ∈ rest, x ∈ d) := by
        intro hcon
        obtain ⟨d, hd, hxd⟩ := hcon
        exact hx ⟨d, List.mem_cons_of_mem c hd, hxd⟩
      have hxnc : x ∉ c := fun hxc => hx ⟨c, List.mem_cons_self c rest, hxc⟩
      rw [hwunc x hxnr, happr, happq, cycMap_not_mem hxnc]

theorem from_cycles_to_cycles {l : List Nat} (hv : ValidImage l) (hc : Canonical l) :
    from_cycles (to_cycles l) = some l := by
  have hgetDpos : ∀ v, 1 ≤ v → v ≤ l.length → 1 ≤ l.getD (v - 1) 0 := by
    intro v h1 h2
    have hmem : l.getD (v - 1) 0 ∈ l := by
      rw [getD_eq_getElem (show v - 1 < l.length by omega)]
      exact List.getElem_mem _
    exact (hv.1 _ hmem).1
  have hspec := tcLoop_spec hv l.length l 0 rfl (by omega) (fun t _ => Or.inl rfl)
    ?dF ?dnf ?proc
  case dF =>
    intro v h1 h2 h0
    exfalso
    have := hgetDpos v h1 h2
    omega
  case dnf =>
    intro v h1 h2 h0
    exfalso
    have := hgetDpos v h1 h2
    omega
  case proc =>
    intro v h1 h2
    exact absurd h2 (by omega)
  obtain ⟨hcyc, hdisj, hunion⟩ := hspec
  obtain ⟨w, hfold, hvw, hcw, hcov, hunc⟩ := fold_cycles (l := l) (to_cycles l) []
    hcyc hdisj valid_nil canonical_nil (fun x _ => applyP_nil x)
  have hext : ∀ x, applyP w x = applyP l x := by
    intro x
    by_cases hx : ∃ c ∈ to_cycles l, x ∈ c
    · exact hcov x hx
    · rw [hunc x hx, applyP_nil]
      by_cases hin : 1 ≤ x ∧ x ≤ l.length
      · by_cases hfx : applyP l x = x
        · exact hfx.symm
        · exfalso
          apply hx
          exact (hunion x).mpr ⟨hin.1, hin.2, hfx, by
            have := hgetDpos x hin.1 hin.2
            omega⟩
      · rw [applyP_out hin]
  have hwl : w = l := perm_ext hcw hc hext
  show (to_cycles l).foldl fcStep (some []) = some l
  rw [hfold, hwl]

/-! ## C5: decimal rendering and parsing of numbers -/

theorem digitChar_toNat {d : Nat} (h : d < 10) : (digitChar d).toNat = 48 + d := by
  have hval : Nat.isValidChar (48 + d) := Or.inl (by omega)
  unfold digitChar
  rw [Char.ofNat, dif_pos hval]
  rfl

theorem natCharsAux_digits : ∀ (fuel n : Nat), ∀ ch ∈ natCharsAux fuel n,
    48 ≤ ch.toNat ∧ ch.toNat ≤ 57 := by
  intro fuel
  induction fuel with
  | zero =>
    intro n ch hch
    simp [natCharsAux] at hch
  | succ f ih =>
    intro n ch hch
    unfold natCharsAux at hch
    by_cases h0 : n = 0
    · rw [if_pos h0] at hch
      simp at hch
    · rw [if_neg h0] at hch
      rcases List.mem_append.mp hch with h | h
      · exact ih (n / 10) ch h
      · have hch2 : ch = digitChar (n % 10) := by
          rcases List.mem_cons.mp h with he | he
          · exact he
          · simp at he
        rw [hch2, digitChar_toNat (Nat.mod_lt _ (by omega))]
        have := Nat.mod_lt n (show 0 < 10 by omega)
        omega

theorem natCharsAux_ne_nil {fuel n : Nat} (hf : 1 ≤ fuel) (hn : 1 ≤ n) :
    natCharsAux fuel n ≠ [] := by
  cases fuel with
  | zero => omega
  | succ f =>
    unfold natCharsAux
    rw [if_neg (by omega)]
    intro hcon
    exact absurd (List.append_eq_nil.mp hcon).2 (by simp)

theorem natChars_digits : ∀ (n : Nat), ∀ ch ∈ natChars n, 48 ≤ ch.toNat ∧ ch.toNat ≤ 57 := by
  intro n ch hch
  unfold natChars at hch
  by_cases h0 : n = 0
  · rw [if_pos h0] at hch
    have : ch = '0' := by
      rcases List.mem_cons.mp hch with he | he
      · exact he
      · simp at he
    rw [this]
    decide
  · rw [if_neg h0] at hch
    exact natCharsAux_digits n n ch hch

theorem natChars_ne_nil (n : Nat) : natChars n ≠ [] := by
  unfold natChars
  by_cases h0 : n = 0
  · rw [if_pos h0]
    simp
  · rw [if_neg h0]
    exact natCharsAux_ne_nil (by omega) (by omega)

theorem parseNat_aux : ∀ (fuel n : Nat), n ≤ fuel → ∀ acc,
    (natCharsAux fuel n).foldl (fun acc c => 10 * acc + charDigit c) acc
      = acc * 10 ^ (natCharsAux fuel n).length + n := by
  intro fuel
  induction fuel with
  | zero =>
    intro n hn acc
    have h0 : n = 0 := by omega
    subst h0
    show acc = acc * 10 ^ (List.length []) + 0
    simp
  | succ f ih =>
    intro n hn acc
    by_cases h0 : n = 0
    · subst h0
      show (natCharsAux (f + 1) 0).foldl _ acc = _
      unfold natCharsAux
      rw [if_pos rfl]
      show acc = acc * 10 ^ (List.length []) + 0
      simp
    · have hd : n / 10 ≤ f := by omega
      unfold natCharsAux
      rw [if_neg h0]
      rw [List.foldl_append, ih (n / 10) hd acc]
      show 10 * (acc * 10 ^ (natCharsAux f (n / 10)).length + n / 10)
          + charDigit (digitChar (n % 10)) = _
      have hcd : charDigit (digitChar (n % 10)) = n % 10 := by
        unfold charDigit
        rw [digitChar_toNat (Nat.mod_lt _ (by omega))]
        omega
      rw [hcd]
      rw [List.length_append, List.length_cons, List.length_nil]
      rw [pow_succ]
      have hdm := Nat.div_add_mod n 10
      ring_nf
      omega

theorem parseNat_natChars (n : Nat) : parseNat (natChars n) = n := by
  unfold parseNat natChars
  by_cases h0 : n = 0
  · rw [if_pos h0]
    subst h0
    rfl
  · rw [if_neg h0]
    rw [parseNat_aux n n (le_refl n) 0]
    simp

theorem isSpaceC_toNat {c : Char} (h : isSpaceC c = true) :
    c.toNat = 32 ∨ c.toNat = 9 ∨ c.toNat = 13 ∨ c.toNat = 10 := by
  unfold isSpaceC Char.isWhitespace at h
  simp only [Bool.or_eq_true, decide_eq_true_eq] at h
  rcases h with ((h | h) | h) | h <;> subst h <;> decide

theorem digit_not_space {c : Char} (h : 48 ≤ c.toNat) : isSpaceC c = false := by
  by_contra hcon
  have h2 : isSpaceC c = true := by
    cases he : isSpaceC c
    · exact absurd he hcon
    · rfl
  have := isSpaceC_toNat h2
  omega

theorem digit_ne_chars {c : Char} (h1 : 48 ≤ c.toNat) (h2 : c.toNat ≤ 57) :
    c ≠ ')' ∧ c ≠ '(' ∧ c ≠ ',' ∧ isDigitC c = true := by
  refine ⟨?_, ?_, ?_, ?_⟩
  · intro he
    rw [he] at h1
    exact absurd h1 (by decide)
  · intro he
    rw [he] at h1
    exact absurd h1 (by decide)
  · intro he
    rw [he] at h1
    exact absurd h1 (by decide)
  · unfold isDigitC
    rw [decide_eq_true h1, decide_eq_true h2]
    rfl

/-! ## C5: the token and cycle splitters on rendered strings -/

theorem spaceJoin_chars : ∀ (toks : List (List Char)),
    (∀ t ∈ toks, ∀ ch ∈ t, 48 ≤ ch.toNat ∧ ch.toNat ≤ 57) →
    ∀ ch ∈ spaceJoin toks, (48 ≤ ch.toNat ∧ ch.toNat ≤ 57) ∨ ch = ' ' := by
  intro toks
  induction toks with
  | nil =>
    intro _ ch hch
    simp [spaceJoin] at hch
  | cons t rest ih =>
    intro hall ch hch
    cases rest with
    | nil => exact Or.inl (hall t (by simp) ch hch)
    | cons t₂ rest' =>
      have hch2 : ch ∈ t ++ ' ' :: spaceJoin (t₂ :: rest') := hch
      rcases List.mem_append.mp hch2 with h | h
      · exact Or.inl (hall t (by simp) ch h)
      · rcases List.mem_cons.mp h with he | h2
        · exact Or.inr he
        · exact ih (fun u hu => hall u (by simp [hu])) ch h2

theorem spaceJoin_head : ∀ (t : List Char) (rest : List (List Char)),
    t ≠ [] → (spaceJoin (t :: rest)).head? = t.head? := by
  intro t rest hne
  cases rest with
  | nil => rfl
  | cons t₂ rest' =>
    show (t ++ ' ' :: spaceJoin (t₂ :: rest')).head? = t.head?
    cases t with
    | nil => exact absurd rfl hne
    | cons c t' => rfl

theorem spaceJoin_ne_nil : ∀ (t : List Char) (rest : List (List Char)),
    t ≠ [] → spaceJoin (t :: rest) ≠ [] := by
  intro t rest hne hcon
  have := spaceJoin_head t rest hne
  rw [hcon] at this
  cases t with
  | nil => exact absurd rfl hne
  | cons c t' => exact Option.noConfusion this

theorem spaceJoin_getLast : ∀ (toks : List (List Char)), toks ≠ [] →
    (∀ u ∈ toks, u ≠ []) →
    ∃ u ∈ toks, (spaceJoin toks).getLast? = u.getLast? := by
  intro toks
  induction toks with
  | nil =>
    intro h _
    exact absurd rfl h
  | cons t rest ih =>
    intro _ hne
    cases rest with
    | nil => exact ⟨t, by simp, rfl⟩
    | cons t₂ rest' =>
      obtain ⟨u, hu, hue⟩ := ih (by simp) (fun u hu => hne u (by simp [hu]))
      refine ⟨u, by simp [hu], ?_⟩
      show (t ++ ' ' :: spaceJoin (t₂ :: rest')).getLast? = u.getLast?
      rw [List.getLast?_append_of_ne_nil _ (by simp)]
      have hjoin : spaceJoin (t₂ :: rest') ≠ [] := spaceJoin_ne_nil t₂ rest' (hne t₂ (by simp))
      cases hsp : spaceJoin (t₂ :: rest') with
      | nil => exact absurd hsp hjoin
      | cons b S' =>
        rw [List.getLast?_cons_cons]
        rw [← hsp, hue]

theorem stripC_noop {s : List Char} {c1 c2 : Char} (hh : s.head? = some c1)
    (hns1 : isSpaceC c1 = false) (hl : s.getLast? = some c2)
    (hns2 : isSpaceC c2 = false) : stripC s = s := by
  unfold stripC
  have hdrop1 : s.dropWhile isSpaceC = s := by
    cases s with
    | nil => rfl
    | cons a t =>
      have ha : a = c1 := Option.some.inj hh
      rw [List.dropWhile_cons, ha, hns1]
      simp
  rw [hdrop1]
  have hrev : s.reverse.head? = some c2 := by
    rw [List.head?_reverse s]
    exact hl
  have hdrop2 : s.reverse.dropWhile isSpaceC = s.reverse := by
    cases hsr : s.reverse with
    | nil => rfl
    | cons a t =>
      rw [hsr] at hrev
      have ha : a = c2 := Option.some.inj hrev
      rw [List.dropWhile_cons, ha, hns2]
      simp
  rw [hdrop2, List.reverse_reverse]

theorem splitTok_token : ∀ (t acc rest : List Char) (fuel : Nat),
    (∀ ch ∈ t, 48 ≤ ch.toNat ∧ ch.toNat ≤ 57) →
    splitTokAux (t.length + fuel) acc (t ++ rest)
      = splitTokAux fuel (t.reverse ++ acc) rest := by
  intro t
  induction t with
  | nil =>
    intro acc rest fuel _
    rw [show ([] : List Char).length + fuel = fuel by simp]
    rw [show ([] : List Char) ++ rest = rest from rfl]
    rw [show (([] : List Char).reverse ++ acc) = acc by simp]
  | cons ch t' ih =>
    intro acc rest fuel hdig
    have hch := hdig ch (by simp)
    have hns : isSpaceC ch = false := digit_not_space hch.1
    have hnc : ch ≠ ',' := (digit_ne_chars hch.1 hch.2).2.2.1
    rw [show (ch :: t').length + fuel = (t'.length + fuel) + 1 by
      simp only [List.length_cons]
      omega]
    show (if isSpaceC ch || ch == ',' then
        acc.reverse :: splitTokAux (t'.length + fuel) [] (tokSepRest (ch :: (t' ++ rest)))
      else splitTokAux (t'.length + fuel) (ch :: acc) (t' ++ rest)) = _
    rw [if_neg (by
      rw [hns]
      simp only [Bool.false_or, beq_iff_eq]
      exact hnc)]
    rw [ih (ch :: acc) rest fuel (fun c hc => hdig c (by simp [hc]))]
    congr 1
    rw [List.reverse_cons, List.append_assoc]
    rfl

theorem splitTok_join : ∀ (rest : List (List Char)) (t acc : List Char) (fuel : Nat),
    (∀ u ∈ t :: rest, u ≠ [] ∧ ∀ ch ∈ u, 48 ≤ ch.toNat ∧ ch.toNat ≤ 57) →
    splitTokAux ((spaceJoin (t :: rest)).length + fuel) acc (spaceJoin (t :: rest))
      = (acc.reverse ++ t) :: rest := by
  intro rest
  induction rest with
  | nil =>
    intro t acc fuel hall
    show splitTokAux (t.length + fuel) acc t = [acc.reverse ++ t]
    have h1 := splitTok_token t acc [] fuel (hall t (by simp)).2
    rw [List.append_nil] at h1
    rw [h1]
    cases fuel with
    | zero =>
      show [(t.reverse ++ acc).reverse ++ []] = [acc.reverse ++ t]
      rw [List.append_nil, List.reverse_append, List.reverse_reverse]
    | succ f =>
      show [(t.reverse ++ acc).reverse] = [acc.reverse ++ t]
      rw [List.reverse_append, List.reverse_reverse]
  | cons t₂ rest' ih =>
    intro t acc fuel hall
    show splitTokAux ((t ++ ' ' :: spaceJoin (t₂ :: rest')).length + fuel) acc
        (t ++ ' ' :: spaceJoin (t₂ :: rest')) = (acc.reverse ++ t) :: t₂ :: rest'
    rw [show (t ++ ' ' :: spaceJoin (t₂ :: rest')).length + fuel
        = t.length + (((spaceJoin (t₂ :: rest')).length + fuel) + 1) by
      rw [List.length_append, List.length_cons]
      omega]
    rw [splitTok_token t acc _ _ (hall t (by simp)).2]
    show (if isSpaceC ' ' || ' ' == ',' then
        (t.reverse ++ acc).reverse ::
          splitTokAux ((spaceJoin (t₂ :: rest')).length + fuel) []
            (tokSepRest (' ' :: spaceJoin (t₂ :: rest')))
      else _) = _
    rw [if_pos (by decide)]
    obtain ⟨c0, hc0⟩ : ∃ c0, t₂.head? = some c0 := by
      cases ht₂ : t₂ with
      | nil => exact absurd ht₂ (hall t₂ (by simp)).1
      | cons c0 t₂' => exact ⟨c0, rfl⟩
    have hdig0 := (hall t₂ (by simp)).2 c0 (List.mem_of_mem_head? hc0)
    have hns0 : isSpaceC c0 = false := digit_not_space hdig0.1
    have hhd : (spaceJoin (t₂ :: rest')).head? = some c0 := by
      rw [spaceJoin_head t₂ rest' (hall t₂ (by simp)).1]
      exact hc0
    have hS : (spaceJoin (t₂ :: rest')).dropWhile isSpaceC = spaceJoin (t₂ :: rest') := by
      cases hSc : spaceJoin (t₂ :: rest') with
      | nil => rfl
      | cons a S' =>
        rw [hSc] at hhd
        have ha : a = c0 := Option.some.inj hhd
        rw [List.dropWhile_cons, ha, hns0]
        simp
    have hsep : tokSepRest (' ' :: spaceJoin (t₂ :: rest')) = spaceJoin (t₂ :: rest') := by
      unfold tokSepRest
      have hdw : (' ' :: spaceJoin (t₂ :: rest')).dropWhile isSpaceC
          = spaceJoin (t₂ :: rest') := by
        rw [List.dropWhile_cons]
        rw [if_pos (by decide)]
        exact hS
      rw [hdw]
      cases hSc : spaceJoin (t₂ :: rest') with
      | nil => rfl
      | cons a S' =>
        rw [hSc] at hhd
        have ha : a = c0 := Option.some.inj hhd
        have hanc : a ≠ ',' := by
          rw [ha]
          exact (digit_ne_chars hdig0.1 hdig0.2).2.2.1
        show (if a = ',' then S'.dropWhile isSpaceC else a :: S') = a :: S'
        rw [if_neg hanc]
    rw [hsep]
    rw [ih t₂ [] fuel (fun u hu => hall u (by simp [hu]))]
    rw [List.reverse_append, List.reverse_reverse]
    rfl

theorem splitCyc_body : ∀ (b acc rest : List Char) (fuel : Nat),
    (∀ ch ∈ b, ch ≠ ')') →
    splitCycAux (b.length + fuel) acc (b ++ rest)
      = splitCycAux fuel (b.reverse ++ acc) rest := by
  intro b
  induction b with
  | nil =>
    intro acc rest fuel _
    rw [show ([] : List Char).length + fuel = fuel by simp]
    rw [show ([] : List Char) ++ rest = rest from rfl]
    rw [show (([] : List Char).reverse ++ acc) = acc by simp]
  | cons ch b' ih =>
    intro acc rest fuel hnp
    rw [show (ch :: b').length + fuel = (b'.length + fuel) + 1 by
      simp only [List.length_cons]
      omega]
    show (if ch = ')' then
        (match matchSep (b' ++ rest) with
          | some rest' => acc.reverse :: splitCycAux (b'.length + fuel) [] rest'
          | none => splitCycAux (b'.length + fuel) (ch :: acc) (b' ++ rest))
      else splitCycAux (b'.length + fuel) (ch :: acc) (b' ++ rest)) = _
    rw [if_neg (hnp ch (by simp))]
    rw [ih (ch :: acc) rest fuel (fun c hc => hnp c (by simp [hc]))]
    congr 1
    rw [List.reverse_cons, List.append_assoc]
    rfl

theorem splitCyc_join : ∀ (rest : List (List Char)) (b acc : List Char) (fuel : Nat),
    (∀ u ∈ b :: rest, ∀ ch ∈ u, ch ≠ ')') →
    splitCycAux ((cycJoin (b :: rest)).length + fuel) acc (cycJoin (b :: rest))
      = (acc.reverse ++ b) :: rest := by
  intro rest
  induction rest with
  | nil =>
    intro b acc fuel hall
    show splitCycAux (b.length + fuel) acc b = [acc.reverse ++ b]
    have h1 := splitCyc_body b acc [] fuel (hall b (by simp))
    rw [List.append_nil] at h1
    rw [h1]
    cases fuel with
    | zero =>
      show [(b.reverse ++ acc).reverse ++ []] = [acc.reverse ++ b]
      rw [List.append_nil, List.reverse_append, List.reverse_reverse]
    | succ f =>
      show [(b.reverse ++ acc).reverse] = [acc.reverse ++ b]
      rw [List.reverse_append, List.reverse_reverse]
  | cons b₂ rest' ih =>
    intro b acc fuel hall
    show splitCycAux ((b ++ ')' :: '(' :: cycJoin (b₂ :: rest')).length + fuel) acc
        (b ++ ')' :: '(' :: cycJoin (b₂ :: rest')) = (acc.reverse ++ b) :: b₂ :: rest'
    rw [show (b ++ ')' :: '(' :: cycJoin (b₂ :: rest')).length + fuel
        = b.length + ((((cycJoin (b₂ :: rest')).length + (fuel + 1)) + 1)) by
      rw [List.length_append, List.length_cons, List.length_cons]
      omega]
    rw [splitCyc_body b acc _ _ (hall b (by simp))]
    have hms : matchSep ('(' :: cycJoin (b₂ :: rest')) = some (cycJoin (b₂ :: rest')) := by
      unfold matchSep
      rw [List.dropWhile_cons, if_neg (by decide)]
      show (if '(' = '(' then some (cycJoin (b₂ :: rest')) else none) = _
      rw [if_pos rfl]
    show (if ')' = ')' then
        (match matchSep ('(' :: cycJoin (b₂ :: rest')) with
          | some rest2 =>
            (b.reverse ++ acc).reverse ::
              splitCycAux ((cycJoin (b₂ :: rest')).length + (fuel + 1)) [] rest2
          | none => splitCycAux ((cycJoin (b₂ :: rest')).length + (fuel + 1))
              (')' :: (b.reverse ++ acc)) ('(' :: cycJoin (b₂ :: rest')))
      else splitCycAux ((cycJoin (b₂ :: rest')).length + (fuel + 1))
          (')' :: (b.reverse ++ acc)) ('(' :: cycJoin (b₂ :: rest')))
      = (acc.reverse ++ b) :: b₂ :: rest'
    rw [if_pos rfl, hms]
    show (b.reverse ++ acc).reverse ::
        splitCycAux ((cycJoin (b₂ :: rest')).length + (fuel + 1)) [] (cycJoin (b₂ :: rest'))
      = (acc.reverse ++ b) :: b₂ :: rest'
    rw [ih b₂ [] (fuel + 1) (fun u hu => hall u (by simp [hu]))]
    rw [List.reverse_append, List.reverse_reverse]
    rfl

theorem render_structure : ∀ (cycles : List (List Nat)), cycles ≠ [] →
    ((cycles.map renderCycle).flatten)
      = '(' :: (cycJoin (cycles.map (fun c => spaceJoin (c.map natChars))) ++ [')']) := by
  intro cycles
  induction cycles with
  | nil =>
    intro h
    exact absurd rfl h
  | cons c rest ih =>
    intro _
    cases rest with
    | nil =>
      show renderCycle c ++ [] = '(' :: (cycJoin [spaceJoin (c.map natChars)] ++ [')'])
      rw [List.append_nil]
      rfl
    | cons c₂ rest' =>
      show renderCycle c ++ ((c₂ :: rest').map renderCycle).flatten
        = '(' :: ((spaceJoin (c.map natChars) ++ ')' :: '(' ::
            cycJoin ((c₂ :: rest').map (fun c => spaceJoin (c.map natChars)))) ++ [')'])
      rw [ih (by simp)]
      show ('(' :: (spaceJoin (c.map natChars) ++ [')'])) ++
          ('(' :: (cycJoin ((c₂ :: rest').map (fun c => spaceJoin (c.map natChars)))
            ++ [')'])) = _
      simp only [List.cons_append, List.append_assoc, List.singleton_append,
        List.nil_append]

theorem strP_eq {l : List Nat} (hne : to_cycles l ≠ []) :
    strP l = '(' ::
      (cycJoin ((to_cycles l).map (fun c => spaceJoin (c.map natChars))) ++ [')']) := by
  unfold strP
  rw [render_structure (to_cycles l) hne]
  rw [if_neg (by simp)]

theorem to_cycles_spec {l : List Nat} (hv : ValidImage l) :
    (∀ c ∈ to_cycles l, IsCycleOf l c) ∧
    List.Pairwise (fun c d => ∀ x ∈ c, x ∉ d) (to_cycles l) ∧
    (∀ v, (∃ c ∈ to_cycles l, v ∈ c) ↔
      (1 ≤ v ∧ v ≤ l.length ∧ applyP l v ≠ v ∧ l.getD (v - 1) 0 ≠ 0)) := by
  have hgetDpos : ∀ v, 1 ≤ v → v ≤ l.length → 1 ≤ l.getD (v - 1) 0 := by
    intro v h1 h2
    have hmem : l.getD (v - 1) 0 ∈ l := by
      rw [getD_eq_getElem (show v - 1 < l.length by omega)]
      exact List.getElem_mem _
    exact (hv.1 _ hmem).1
  exact tcLoop_spec hv l.length l 0 rfl (by omega) (fun t _ => Or.inl rfl)
    (fun v h1 h2 h0 => absurd h0 (by have := hgetDpos v h1 h2; omega))
    (fun v h1 h2 h0 => absurd h0 (by have := hgetDpos v h1 h2; omega))
    (fun v h1 h2 => absurd h2 (by omega))

theorem body_facts (c : List Nat) (hcne : c ≠ []) :
    stripC (spaceJoin (c.map natChars)) = spaceJoin (c.map natChars) ∧
    (spaceJoin (c.map natChars)).isEmpty = false ∧
    splitTokens (spaceJoin (c.map natChars)) = c.map natChars ∧
    (∀ t ∈ c.map natChars, tokenValid t = true) ∧
    (c.map natChars).map parseNat = c ∧
    (∀ ch ∈ spaceJoin (c.map natChars), ch ≠ ')') := by
  have htoks : ∀ u ∈ c.map natChars, u ≠ [] ∧ ∀ ch ∈ u, 48 ≤ ch.toNat ∧ ch.toNat ≤ 57 := by
    intro u hu
    obtain ⟨v, _, rfl⟩ := List.mem_map.mp hu
    exact ⟨natChars_ne_nil v, natChars_digits v⟩
  obtain ⟨t0, rest0, hmap⟩ : ∃ t0 rest0, c.map natChars = t0 :: rest0 := by
    cases hcc : c with
    | nil => exact absurd hcc hcne
    | cons v c' => exact ⟨natChars v, c'.map natChars, rfl⟩
  have ht0 : t0 ∈ c.map natChars := by
    rw [hmap]
    simp
  have hhead : ∃ ch, (spaceJoin (c.map natChars)).head? = some ch
      ∧ 48 ≤ ch.toNat ∧ ch.toNat ≤ 57 := by
    rw [hmap]
    rw [spaceJoin_head t0 rest0 (htoks t0 ht0).1]
    cases ht0c : t0 with
    | nil => exact absurd ht0c (htoks t0 ht0).1
    | cons ch t0' =>
      refine ⟨ch, rfl, ?_⟩
      exact (htoks t0 ht0).2 ch (by rw [ht0c]; simp)
  have hlast : ∃ ch, (spaceJoin (c.map natChars)).getLast? = some ch
      ∧ 48 ≤ ch.toNat ∧ ch.toNat ≤ 57 := by
    obtain ⟨u, hu, hue⟩ := spaceJoin_getLast (c.map natChars) (by rw [hmap]; simp)
      (fun u hu => (htoks u hu).1)
    cases hur : u.reverse with
    | nil =>
      exfalso
      exact (htoks u hu).1 (by
        have := congrArg List.reverse hur
        rw [List.reverse_reverse] at this
        rw [this]
        rfl)
    | cons ch ur' =>
      refine ⟨ch, ?_, ?_⟩
      · rw [hue, ← List.head?_reverse u, hur]
        rfl
      · have hchmem : ch ∈ u := by
          rw [← List.mem_reverse, hur]
          simp
        exact (htoks u hu).2 ch hchmem
  obtain ⟨ch1, hch1, hd1⟩ := hhead
  obtain ⟨ch2, hch2, hd2⟩ := hlast
  refine ⟨stripC_noop hch1 (digit_not_space hd1.1) hch2 (digit_not_space hd2.1),
    ?_, ?_, ?_, ?_, ?_⟩
  · cases hsj : spaceJoin (c.map natChars) with
    | nil =>
      rw [hsj] at hch1
      exact Option.noConfusion hch1
    | cons a S => rfl
  · unfold splitTokens
    rw [hmap]
    rw [show (spaceJoin (t0 :: rest0)).length = (spaceJoin (t0 :: rest0)).length + 0 by omega]
    rw [splitTok_join rest0 t0 [] 0 (by rw [← hmap]; exact htoks)]
    simp
  · intro t ht
    obtain ⟨hne, hdig⟩ := htoks t ht
    unfold tokenValid
    have h1 : t.isEmpty = false := by
      cases t with
      | nil => exact absurd rfl hne
      | cons a t' => rfl
    rw [h1]
    show (!false && t.all isDigitC) = true
    rw [show (!false) = true from rfl, Bool.true_and]
    rw [List.all_eq_true]
    intro ch hch
    exact (digit_ne_chars (hdig ch hch).1 (hdig ch hch).2).2.2.2
  · rw [List.map_map]
    rw [List.map_congr_left (show ∀ v ∈ c, (parseNat ∘ natChars) v = v from
      fun v _ => parseNat_natChars v)]
    exact List.map_id' c
  · intro ch hch
    rcases spaceJoin_chars (c.map natChars) (fun u hu => (htoks u hu).2) ch hch with h | h
    · exact (digit_ne_chars h.1 h.2).1
    · rw [h]
      decide

theorem filterMap_bodies : ∀ (cs : List (List Nat)), (∀ c ∈ cs, c ≠ []) →
    (cs.map (fun c => spaceJoin (c.map natChars))).filterMap
      (fun part => if (stripC part).isEmpty then none else some (splitTokens (stripC part)))
      = cs.map (fun c => c.map natChars) := by
  intro cs
  induction cs with
  | nil =>
    intro _
    rfl
  | cons c rest ih =>
    intro hne
    rw [List.map_cons, List.map_cons]
    obtain ⟨hstrip, hempty, hsplit, _, _, _⟩ := body_facts c (hne c (by simp))
    rw [List.filterMap_cons, hstrip, hempty, hsplit]
    rw [if_neg (show ¬ (false = true) by simp)]
    show (c.map natChars) :: (rest.map (fun c => spaceJoin (c.map natChars))).filterMap _
      = (c.map natChars) :: rest.map (fun c => c.map natChars)
    rw [ih (fun c' hc' => hne c' (by simp [hc']))]

theorem parseP_strP {l : List Nat} (hv : ValidImage l) (hc : Canonical l) :
    parseP (strP l) = some l := by
  by_cases hl0 : l = []
  · subst hl0
    rfl
  · obtain ⟨hcyc, hdisj, hunion⟩ := to_cycles_spec hv
    have hlen1 : 1 ≤ l.length := by
      have := List.length_pos.mpr hl0
      omega
    have hnec : to_cycles l ≠ [] := by
      intro h0
      have hD : applyP l l.length ≠ l.length := (canonical_iff_applyP hl0).mp hc
      have hgd : l.getD (l.length - 1) 0 ≠ 0 := by
        have hmem : l.getD (l.length - 1) 0 ∈ l := by
          rw [getD_eq_getElem (show l.length - 1 < l.length by omega)]
          exact List.getElem_mem _
        have := (hv.1 _ hmem).1
        omega
      have hex := (hunion l.length).mpr ⟨hlen1, le_refl _, hD, hgd⟩
      rw [h0] at hex
      obtain ⟨c0, hcm, _⟩ := hex
      exact absurd hcm (List.not_mem_nil c0)
    have hbody := fun c (hcm : c ∈ to_cycles l) => body_facts c (hcyc c hcm).1
    rw [strP_eq hnec]
    have hlast' : ('(' :: (cycJoin ((to_cycles l).map (fun c => spaceJoin (c.map natChars)))
        ++ [')'])).getLast? = some ')' := by
      rw [show ('(' :: (cycJoin ((to_cycles l).map (fun c => spaceJoin (c.map natChars)))
          ++ [')']))
          = ('(' :: cycJoin ((to_cycles l).map (fun c => spaceJoin (c.map natChars))))
            ++ [')'] from by rw [List.cons_append]]
      rw [List.getLast?_concat]
    have hstrip : stripC ('(' ::
        (cycJoin ((to_cycles l).map (fun c => spaceJoin (c.map natChars))) ++ [')']))
        = '(' :: (cycJoin ((to_cycles l).map (fun c => spaceJoin (c.map natChars)))
          ++ [')']) :=
      stripC_noop rfl (by decide) hlast' (by decide)
    unfold parseP
    rw [hstrip]
    rw [if_neg ?g1]
    case g1 =>
      intro hcon
      simp at hcon
    rw [if_pos ?g2]
    case g2 => exact ⟨rfl, hlast'⟩
    rw [show (('(' :: (cycJoin ((to_cycles l).map (fun c => spaceJoin (c.map natChars)))
        ++ [')'])).drop 1).dropLast
        = cycJoin ((to_cycles l).map (fun c => spaceJoin (c.map natChars))) from by
      show (cycJoin ((to_cycles l).map (fun c => spaceJoin (c.map natChars)))
        ++ [')']).dropLast = _
      rw [List.dropLast_concat]]
    obtain ⟨c0, crest, hcl⟩ : ∃ c0 crest, to_cycles l = c0 :: crest := by
      cases hx : to_cycles l with
      | nil => exact absurd hx hnec
      | cons c0 crest => exact ⟨c0, crest, rfl⟩
    have hsplitC : splitCycles
        (cycJoin ((to_cycles l).map (fun c => spaceJoin (c.map natChars))))
        = (to_cycles l).map (fun c => spaceJoin (c.map natChars)) := by
      have hchars : ∀ u ∈ spaceJoin (c0.map natChars) ::
          crest.map (fun c => spaceJoin (c.map natChars)), ∀ ch ∈ u, ch ≠ ')' := by
        intro u hu ch hch
        have hu2 : u ∈ (to_cycles l).map (fun c => spaceJoin (c.map natChars)) := by
          rw [hcl, List.map_cons]
          exact hu
        obtain ⟨cc, hccm, rfl⟩ := List.mem_map.mp hu2
        exact (hbody cc hccm).2.2.2.2.2 ch hch
      rw [hcl, List.map_cons]
      unfold splitCycles
      rw [show (cycJoin (spaceJoin (c0.map natChars) ::
          crest.map (fun c => spaceJoin (c.map natChars)))).length
          = (cycJoin (spaceJoin (c0.map natChars) ::
            crest.map (fun c => spaceJoin (c.map natChars)))).length + 0 by omega]
      rw [splitCyc_join _ _ [] 0 hchars]
      simp
    rw [hsplitC]
    rw [filterMap_bodies (to_cycles l) (fun c hcm => (hcyc c hcm).1)]
    rw [if_pos ?g3]
    case g3 =>
      rw [List.all_eq_true]
      intro cyc hcyc2
      obtain ⟨cc, hccm, rfl⟩ := List.mem_map.mp hcyc2
      show (cc.map natChars).all tokenValid = true
      rw [List.all_eq_true]
      intro t ht
      exact (hbody cc hccm).2.2.2.1 t ht
    rw [show ((to_cycles l).map (fun c => c.map natChars)).map (fun cyc => cyc.map parseNat)
        = to_cycles l from by
      rw [List.map_map]
      rw [List.map_congr_left (show ∀ c ∈ to_cycles l,
        ((fun cyc => cyc.map parseNat) ∘ (fun c => c.map natChars)) c = c from
        fun c hcm => (hbody c hcm).2.2.2.2.1)]
      exact List.map_id' _]
    exact from_cycles_to_cycles hv hc

/-- C5: cycle notation round-trips — `parse(str(p)) = p` for every
permutation; the identity formats as the literal `"1"`, and every other
permutation formats as the separator-free concatenation of its `to_cycles()`
cycles, each rendered as a parenthesized space-separated sequence of decimal
integers. -/
theorem C5_parse_str_roundtrip {l : List Nat} (hv : ValidImage l) (hc : Canonical l) :
    parseP (strP l) = some l ∧
    strP [] = ['1'] ∧
    (to_cycles l ≠ [] → strP l = ((to_cycles l).map renderCycle).flatten) := by
  refine ⟨parseP_strP hv hc, rfl, ?_⟩
  intro hne
  rw [strP_eq hne, render_structure _ hne]

/-- Witness for C5 at the concrete permutation with word `[2, 1]`. -/
theorem C5_parse_str_roundtrip_witness :
    parseP (strP [2, 1]) = some [2, 1] ∧
    strP [] = ['1'] ∧
    (to_cycles [2, 1] ≠ [] → strP [2, 1] = ((to_cycles [2, 1]).map renderCycle).flatten) :=
  C5_parse_str_roundtrip (by decide) (by decide)

end Permutation
